import Mathlib

/-!
# XrdFileCache::File — block cache engine, and XrdCl::XCpCtx

A shallow embedding of `src/XrdFileCache/XrdFileCacheFile.cc` (namespace
`XrdFileCache`) and of `src/XrdCl/XrdClXCpCtx.cc` (namespace `XrdCl`).  The
conventions below are those of the file cache; those of the coordinator are
stated where its definitions start.

Conventions of the embedding.

* `long long` and `int` values are mathematical integers (`Int`); C++ integer
  division is `Int.tdiv` (truncation toward zero).  Signed overflow is
  undefined in C++: values are taken to stay inside their machine ranges.
  The conversion of the two `long long` quotients to the `const int` locals
  `idx_first` and `idx_last` of `File::Read` is modelled (`toInt32`).
* A `Block*` is the key under which the block sits in `m_block_map`.
* Locks are not modelled: each function below is one critical section (or a
  sequence of them), and what other threads do in between is an explicit input.
* Logging is dropped.
-/

namespace XrdFileCache

/-! ## overlap -/

/-- The anonymous-namespace helper `overlap`.  The C++ function returns a
`bool` and fills three output references only when it returns `true`; here
`none` stands for `false` and `some (off, blk_off, size)` for `true` with the
three outputs. -/
def overlap (blk blk_size req_off req_size : Int) : Option (Int × Int × Int) :=
  let beg := blk * blk_size
  let end_ := beg + blk_size
  let req_end := req_off + req_size
  if req_off < end_ ∧ req_end > beg then
    let ovlp_beg := max beg req_off
    let ovlp_end := min end_ req_end
    some (ovlp_beg - req_off, ovlp_beg - beg, ovlp_end - ovlp_beg)
  else
    none

/-- Output `off` (offset in the user buffer) of `overlap`; the callers that
ignore the Boolean read this variable whatever was returned (it is
uninitialised in C++ when `overlap` returned `false`, taken as 0 here). -/
def overlapOff (blk blk_size req_off req_size : Int) : Int :=
  match overlap blk blk_size req_off req_size with
  | some (off, _, _) => off
  | none => 0

/-- Output `blk_off` (offset inside the block) of `overlap`. -/
def overlapBlkOff (blk blk_size req_off req_size : Int) : Int :=
  match overlap blk blk_size req_off req_size with
  | some (_, blk_off, _) => blk_off
  | none => 0

/-- Output `size` (number of bytes to copy) of `overlap`. -/
def overlapSize (blk blk_size req_off req_size : Int) : Int :=
  match overlap blk blk_size req_off req_size with
  | some (_, _, size) => size
  | none => 0

/-- Conversion of a `long long` value to `int` (32 bits): the value congruent to `x` modulo `2^32` in `[-2^31, 2^31)`. -/
def toInt32 (x : Int) : Int := (x + 2 ^ 31) % 2 ^ 32 - 2 ^ 31

/-- Local `const int idx_first = iUserOff / BS` of `File::Read`: the
`long long` quotient converted to `int`. -/
def idxFirst (BS iUserOff : Int) : Int := toInt32 (Int.tdiv iUserOff BS)

/-- Local `const int idx_last = (iUserOff + iUserSize - 1) / BS` of
`File::Read`: the `long long` quotient converted to `int`. -/
def idxLast (BS iUserOff iUserSize : Int) : Int :=
  toInt32 (Int.tdiv (iUserOff + iUserSize - 1) BS)

/-- The indices visited by
`for (int block_idx = idx_first; block_idx <= idx_last; ++block_idx)`. -/
def blockRange (idx_first idx_last : Int) : List Int :=
  (List.range (idx_last + 1 - idx_first).toNat).map (fun (k : Nat) => idx_first + (k : Int))

/-! ## Blocks and the block map -/

/-- Modelled from the spec: the `Block` class, declared in XrdFileCacheFile.hh
(not among the sources).  Spec §3: byte buffer, absolute offset, downloaded
flag, error code (0 = OK), refcount, prefetch flag. -/
structure Block where
  m_buff : List Nat
  m_offset : Int
  m_refcnt : Int
  m_errno : Int
  m_downloaded : Bool
  m_prefetch : Bool
deriving DecidableEq, Repr

/-- Modelled from the spec: the `Block` constructor (XrdFileCacheFile.hh); a
new block is Pending with reference count 0 (see the comment in
`File::RequestBlock`) and a buffer of `size` bytes. -/
def Block.new (off size : Int) (m_prefetch : Bool) : Block :=
  { m_buff := List.replicate size.toNat 0, m_offset := off, m_refcnt := 0, m_errno := 0,
    m_downloaded := false, m_prefetch := m_prefetch }

/-- Modelled from the spec: `is_finished() ≡ downloaded || error≠0` (§4.1);
the method is declared in XrdFileCacheFile.hh. -/
def Block.is_finished (b : Block) : Bool := b.m_downloaded || b.m_errno != 0

/-- Modelled from the spec: `is_ok() ≡ downloaded && error=0` (§4.1); the
method is declared in XrdFileCacheFile.hh. -/
def Block.is_ok (b : Block) : Bool := b.m_downloaded && b.m_errno == 0

/-- Modelled from the spec: `set_error_and_free` (XrdFileCacheFile.hh) stores
the error code on the block (state Failed of §4.1) and frees its buffer. -/
def Block.set_error_and_free (b : Block) (err : Int) : Block :=
  { b with m_errno := err, m_buff := [] }

/-- The `std::map<int, Block*>` block map: an association list. -/
abbrev BlockMap := List (Int × Block)

/-- Lookup `m_block_map.find(i)`: `none` stands for `end()`. -/
def BlockMap.find (m : BlockMap) (i : Int) : Option Block :=
  match m with
  | [] => none
  | (k, b) :: rest => if k = i then some b else BlockMap.find rest i

/-- Removal `m_block_map.erase(i)`. -/
def BlockMap.erase (m : BlockMap) (i : Int) : BlockMap :=
  match m with
  | [] => []
  | (k, b) :: rest => if k = i then BlockMap.erase rest i else (k, b) :: BlockMap.erase rest i

/-- Assignment `m_block_map[i] = b`. -/
def BlockMap.set (m : BlockMap) (i : Int) (b : Block) : BlockMap :=
  (i, b) :: BlockMap.erase m i

/-- An update through a `Block*`: the block stored under key `i` is changed
in place. -/
def BlockMap.modify (m : BlockMap) (i : Int) (g : Block → Block) : BlockMap :=
  match m with
  | [] => []
  | (k, b) :: rest => (k, if k = i then g b else b) :: BlockMap.modify rest i g

/-! ## The side-car info, statistics, the cache manager -/

/-- Modelled from the spec: the file info `m_cfi` (class `Info`, not among the
sources): buffer size, bit count and the three bit-vectors `fetched[]`,
`writeCalled[]`, `prefetch[]` of §3. -/
structure Info where
  m_bufferSize : Int
  m_sizeInBits : Int
  m_buff_fetched : Int → Bool
  m_buff_write_called : Int → Bool
  m_buff_prefetch : Int → Bool

/-- Modelled from the spec: `Info::GetBufferSize`. -/
def Info.GetBufferSize (cfi : Info) : Int := cfi.m_bufferSize

/-- Modelled from the spec: `Info::GetSizeInBits`. -/
def Info.GetSizeInBits (cfi : Info) : Int := cfi.m_sizeInBits

/-- Modelled from the spec: `Info::TestBit(i)`, the bit `fetched[i]`. -/
def Info.TestBit (cfi : Info) (i : Int) : Bool := cfi.m_buff_fetched i

/-- Modelled from the spec: `Info::TestPrefetchBit(i)`, the bit `prefetch[i]`. -/
def Info.TestPrefetchBit (cfi : Info) (i : Int) : Bool := cfi.m_buff_prefetch i

/-- Modelled from the spec: `Info::SetBitFetched(i)` sets `fetched[i]`. -/
def Info.SetBitFetched (cfi : Info) (i : Int) : Info :=
  { cfi with m_buff_fetched := fun j => if j = i then true else cfi.m_buff_fetched j }

/-- Modelled from the spec: `Info::SetBitWriteCalled(i)` sets `writeCalled[i]`. -/
def Info.SetBitWriteCalled (cfi : Info) (i : Int) : Info :=
  { cfi with m_buff_write_called := fun j => if j = i then true else cfi.m_buff_write_called j }

/-- Modelled from the spec: `Info::IsComplete`, "file is complete (`fetched`
fully set)" (§4.3). -/
def Info.IsComplete (cfi : Info) : Bool :=
  (List.range cfi.m_sizeInBits.toNat).all (fun (k : Nat) => cfi.m_buff_fetched (k : Int))

/-- The statistics `m_stats`. -/
structure Stats where
  m_BytesDisk : Int
  m_BytesRam : Int
  m_BytesMissed : Int
deriving DecidableEq, Repr

/-- Modelled from the spec: the cache manager and the factory configuration
reached through `cache()` and `Factory::GetInstance()` (XrdFileCache.hh and
XrdFileCacheFactory.hh are not among the sources).  The RAM broker "grants or
denies allocation" (§2): its decisions are an input, `ramReplies` lists the
answers the next calls of `RequestRAMBlock` will get (a denial once the list
is used up); `granted` and `released` count the grants given and the calls of
`RAMBlockReleased`. -/
structure Cache where
  ramReplies : List Bool
  granted : Nat
  released : Nat
  writeQueue : List Int
  prefetchRegistered : Bool
  m_prefetch : Bool

/-- Modelled from the spec: `RequestRAMBlock() → bool` of the cache manager. -/
def Cache.RequestRAMBlock (c : Cache) : Bool × Cache :=
  match c.ramReplies with
  | [] => (false, c)
  | true :: rest => (true, { c with ramReplies := rest, granted := c.granted + 1 })
  | false :: rest => (false, { c with ramReplies := rest })

/-- Modelled from the spec: `RAMBlockReleased()` of the cache manager. -/
def Cache.RAMBlockReleased (c : Cache) : Cache := { c with released := c.released + 1 }

/-- Modelled from the spec: `AddWriteTask(block, fromRead)` of the cache
manager queues the block for the write worker. -/
def Cache.AddWriteTask (c : Cache) (b : Int) : Cache := { c with writeQueue := c.writeQueue ++ [b] }

/-- Modelled from the spec: `DeRegisterPrefetchFile(file)` of the cache manager. -/
def Cache.DeRegisterPrefetchFile (c : Cache) : Cache := { c with prefetchRegistered := false }

/-! ## The file -/

/-- The members of `File` the modelled functions use (the class is declared in
XrdFileCacheFile.hh, not among the sources).  `m_output` is the content of the
data file (byte at each file offset), `m_infoFile` the header last written to
the info file, `m_fileSize` is `m_input.FSize()`.  The prefetch counters are
integers (the destructor prints them with `%d`), so the quotient assigned to
`m_prefetchScore` is an integer quotient; `m_prefetchScore` holds its value. -/
structure File where
  m_cfi : Info
  m_fileSize : Int
  m_offset : Int
  m_output : Int → Nat
  m_infoFile : Info
  m_block_map : BlockMap
  m_stats : Stats
  m_stopping : Bool
  m_non_flushed_cnt : Int
  m_in_sync : Bool
  m_writes_during_sync : List Int
  m_prefetchReadCnt : Int
  m_prefetchHitCnt : Int
  m_prefetchScore : Int
  m_prefetchCurrentCnt : Int

/-- A file together with the process-wide cache manager it talks to. -/
structure State where
  file : File
  cache : Cache

/-- Method `File::BufferSize`. -/
def File.BufferSize (f : File) : Int := f.m_cfi.GetBufferSize

/-- Method `File::inc_ref_count`. -/
def inc_ref_count (f : File) (b : Int) : File :=
  { f with m_block_map := f.m_block_map.modify b (fun x => { x with m_refcnt := x.m_refcnt + 1 }) }

/-- Method `File::dec_ref_count`.  `delete m_block_map[i]` goes through
`operator[]`, so the following `erase(i)` always removes one entry and
`RAMBlockReleased` is always reached.  A pointer to a block that is no longer
in the map changes nothing. -/
def dec_ref_count (st : State) (b : Int) : State :=
  let f1 : File := { st.file with
    m_block_map := st.file.m_block_map.modify b (fun x => { x with m_refcnt := x.m_refcnt - 1 }) }
  match f1.m_block_map.find b with
  | none => { st with file := f1 }
  | some blk =>
    if blk.m_refcnt = 0 ∧ blk.is_finished = true then
      let i := Int.tdiv blk.m_offset f1.BufferSize
      { file := { f1 with m_block_map := f1.m_block_map.erase i },
        cache := st.cache.RAMBlockReleased }
    else
      { st with file := f1 }

/-- Method `File::RequestBlock`: creates the block, stores it in the map and
issues the asynchronous remote read (whose completion is
`ProcessBlockResponse`). -/
def RequestBlock (f : File) (i : Int) (m_prefetch : Bool) : File :=
  let BS := f.m_cfi.GetBufferSize
  let last_block := f.m_cfi.GetSizeInBits - 1
  let off := i * BS
  let this_bs := if i = last_block then f.m_fileSize - off else BS
  { f with m_block_map := f.m_block_map.set i (Block.new off this_bs m_prefetch) }

/-- Modelled from the spec: the status handed to a response handler,
"`status` carries OK/error + errno mapping" (§6): `IsOK` and the errno that
`XrdPosixMap::Result` derives from it. -/
structure XRootDStatus where
  IsOK : Bool
  posixErrno : Int
deriving DecidableEq, Repr

/-- A status is usable by the handlers when a failure maps to a nonzero errno,
as `XrdPosixMap::Result` does. -/
def XRootDStatus.mapsToErrno (s : XRootDStatus) : Prop :=
  s.IsOK = true ∨ s.posixErrno ≠ 0

/-- Method `File::ProcessBlockResponse`. -/
def ProcessBlockResponse (st : State) (b : Int) (status : XRootDStatus) : State :=
  if status.IsOK then
    let f1 : File := { st.file with
      m_block_map := st.file.m_block_map.modify b (fun x => { x with m_downloaded := true }) }
    if !f1.m_stopping then
      { file := inc_ref_count f1 b, cache := st.cache.AddWriteTask b }
    else
      { st with file := f1 }
  else
    let f1 : File := { st.file with
      m_block_map := st.file.m_block_map.modify b
        (fun x => x.set_error_and_free status.posixErrno) }
    { st with file := inc_ref_count f1 b }

/-! ## Prefetch statistics -/

/-- Method `File::CheckPrefetchStatRAM`. -/
def CheckPrefetchStatRAM (st : State) (b : Block) : State :=
  if st.cache.m_prefetch then
    if b.m_prefetch then
      let hit := st.file.m_prefetchHitCnt + 1
      { st with file := { st.file with
          m_prefetchHitCnt := hit,
          m_prefetchScore := Int.tdiv hit st.file.m_prefetchReadCnt } }
    else st
  else st

/-- Method `File::CheckPrefetchStatDisk`. -/
def CheckPrefetchStatDisk (st : State) (idx : Int) : State :=
  if st.cache.m_prefetch then
    if st.file.m_cfi.TestPrefetchBit idx then
      { st with file := { st.file with m_prefetchHitCnt := st.file.m_prefetchHitCnt + 1 } }
    else st
  else st

/-- Method `File::GetPrefetchScore`. -/
def GetPrefetchScore (f : File) : Int := f.m_prefetchScore

/-! ## Read -/

/-- The lists `File::Read` fills while it classifies the blocks of a request
(`blks_processed` is filled later), and `incs`, the blocks it handed to
`inc_ref_count`, in call order. -/
structure ReadLists where
  blks_to_process : List Int
  blks_on_disk : List Int
  blks_direct : List Int
  incs : List Int
deriving DecidableEq, Repr

/-- One pass of the classification loop of `File::Read` (the body of
`for (int block_idx = idx_first; ...)`). -/
def Read_classifyStep (s : State × ReadLists) (block_idx : Int) : State × ReadLists :=
  let st := s.1
  let L := s.2
  match st.file.m_block_map.find block_idx with
  | some _ =>
    -- In RAM or incoming
    let f1 := inc_ref_count st.file block_idx
    ({ st with file := { f1 with m_stats := { f1.m_stats with
          m_BytesRam := f1.m_stats.m_BytesRam + 1 } } },
     { L with blks_to_process := block_idx :: L.blks_to_process,
              incs := L.incs ++ [block_idx] })
  | none =>
    if st.file.m_cfi.TestBit block_idx then
      -- On disk
      ({ st with file := { st.file with m_stats := { st.file.m_stats with
            m_BytesDisk := st.file.m_stats.m_BytesDisk + 1 } } },
       { L with blks_on_disk := L.blks_on_disk ++ [block_idx] })
    else
      let r := st.cache.RequestRAMBlock
      if r.1 then
        let f1 := RequestBlock st.file block_idx false
        let f2 := inc_ref_count f1 block_idx
        ({ file := { f2 with m_stats := { f2.m_stats with
              m_BytesRam := f2.m_stats.m_BytesRam + 1 } },
           cache := r.2 },
         { L with blks_to_process := L.blks_to_process ++ [block_idx],
                  incs := L.incs ++ [block_idx] })
      else
        ({ file := { st.file with m_stats := { st.file.m_stats with
              m_BytesMissed := st.file.m_stats.m_BytesMissed + 1 } },
           cache := r.2 },
         { L with blks_direct := L.blks_direct ++ [block_idx] })

/-- The empty lists `File::Read` starts with. -/
def ReadLists.empty : ReadLists :=
  { blks_to_process := [], blks_on_disk := [], blks_direct := [], incs := [] }

/-- The classification loop of `File::Read` run over the block indices
`a, a+1, ..., b` from the state and lists `s`. -/
def Read_classifyRange (s : State × ReadLists) (a b : Int) : State × ReadLists :=
  (blockRange a b).foldl Read_classifyStep s

/-- The classification phase of `File::Read`, from `m_downloadCond.Lock()` to
`m_downloadCond.UnLock()`. -/
def Read_classify (st : State) (iUserOff iUserSize : Int) : State × ReadLists :=
  let BS := st.file.m_cfi.GetBufferSize
  let idx_first := idxFirst BS iUserOff
  let idx_last := idxLast BS iUserOff iUserSize
  Read_classifyRange (st, ReadLists.empty) idx_first idx_last

/-- What the outside world does during one `File::Read`:
* `diskRead off size` is what `m_output->Read(buf, off, size)` returns;
* `responses n` are the remote-read completions (block, status) delivered to
  `ProcessBlockResponse` before the reader takes `m_downloadCond` for its
  `n`-th scan of `blks_to_process`;
* `direct_errno` is `direct_handler->m_errno` once all direct reads arrived;
* `lateResponses` are the completions delivered before the final release. -/
structure ReadEnv where
  diskRead : Int → Int → Int
  responses : Nat → List (Int × XRootDStatus)
  direct_errno : Int
  lateResponses : List (Int × XRootDStatus)

/-- Delivery of a list of remote-read completions. -/
def deliver (st : State) (rs : List (Int × XRootDStatus)) : State :=
  rs.foldl (fun s r => ProcessBlockResponse s r.1 r.2) st

/-- Method `File::RequestBlocksDirect`: the sum of the sizes requested. -/
def RequestBlocksDirect (f : File) (blocks : List Int) (req_off req_size : Int) : Int :=
  let BS := f.m_cfi.GetBufferSize
  blocks.foldl (fun total ii => total + overlapSize ii BS req_off req_size) 0

/-- The loop of `File::ReadBlocksFromDisk`, from block list, running total and
state to the returned value and the state. -/
def ReadBlocksFromDisk_loop (env : ReadEnv) (BS req_off req_size : Int) :
    List Int → Int → State → Int × State
  | [], total, st => (total, st)
  | ii :: rest, total, st =>
    let blk_off := overlapBlkOff ii BS req_off req_size
    let size := overlapSize ii BS req_off req_size
    let rs := env.diskRead (ii * BS + blk_off) size
    if rs < 0 then (rs, st)
    else ReadBlocksFromDisk_loop env BS req_off req_size rest (total + rs)
           (CheckPrefetchStatDisk st ii)

/-- Method `File::ReadBlocksFromDisk`. -/
def ReadBlocksFromDisk (env : ReadEnv) (st : State) (blocks : List Int)
    (req_off req_size : Int) : Int × State :=
  ReadBlocksFromDisk_loop env st.file.m_cfi.GetBufferSize req_off req_size blocks 0 st

/-- A block of `blks_to_process` as the scan sees it: finished or not. -/
def blockFinished (f : File) (b : Int) : Bool :=
  match f.m_block_map.find b with
  | some blk => blk.is_finished
  | none => false

/-- The local variables of `File::Read` that the third phase changes. -/
structure ReadLocals where
  blks_to_process : List Int
  blks_processed : List Int
  bytes_read : Int
  errno : Option Int
deriving DecidableEq, Repr

/-- The loop `while (bi != finished.end())` of `File::Read`: copies the
overlap of every finished block, stops at the first failed one. -/
def Read_copyFinished (BS iUserOff iUserSize : Int) :
    List Int → Int → Option Int → State → Int × Option Int × State
  | [], bytes_read, errno, st => (bytes_read, errno, st)
  | bi :: rest, bytes_read, errno, st =>
    match st.file.m_block_map.find bi with
    | none => Read_copyFinished BS iUserOff iUserSize rest bytes_read errno st
    | some blk =>
      if blk.is_ok then
        let size_to_copy := overlapSize (Int.tdiv blk.m_offset BS) BS iUserOff iUserSize
        Read_copyFinished BS iUserOff iUserSize rest (bytes_read + size_to_copy) errno
          (CheckPrefetchStatRAM st blk)
      else
        (-1, some blk.m_errno, st)

/-- The third phase of `File::Read`,
`while ((! blks_to_process.empty()) && (bytes_read >= 0))`.  Every pass of the
loop takes the lock once; `fuel` bounds the number of passes and `none` means
the reader is still waiting when the fuel is used up. -/
def Read_waitLoop (env : ReadEnv) (BS iUserOff iUserSize : Int) :
    Nat → Nat → ReadLocals → State → Option (ReadLocals × State)
  | 0, _, _, _ => none
  | fuel + 1, pass, loc, st =>
    if loc.blks_to_process ≠ [] ∧ loc.bytes_read ≥ 0 then
      let st1 := deliver st (env.responses pass)
      let finished := loc.blks_to_process.filter (fun b => blockFinished st1.file b)
      let remaining := loc.blks_to_process.filter (fun b => !blockFinished st1.file b)
      if finished = [] then
        -- m_downloadCond.Wait(); continue;
        Read_waitLoop env BS iUserOff iUserSize fuel (pass + 1) loc st1
      else
        let r := Read_copyFinished BS iUserOff iUserSize finished loc.bytes_read loc.errno st1
        Read_waitLoop env BS iUserOff iUserSize fuel (pass + 1)
          { blks_to_process := remaining,
            blks_processed := loc.blks_processed ++ finished,
            bytes_read := r.1, errno := r.2.1 } r.2.2
    else
      some (loc, st)

/-- The last phase of `File::Read`: `dec_ref_count` on every block of
`blks_processed`; the second component lists the blocks handed to
`dec_ref_count`, in call order. -/
def Read_release : List Int → State → List Int → State × List Int
  | [], st, decs => (st, decs)
  | bi :: rest, st, decs => Read_release rest (dec_ref_count st bi) (decs ++ [bi])

/-- What `File::Read` leaves behind: the returned value, `errno` when Read
assigned it, the state, and the blocks handed to `inc_ref_count` and to
`dec_ref_count`. -/
structure ReadResult where
  ret : Int
  errno : Option Int
  state : State
  lists : ReadLists
  decs : List Int

/-- Method `File::Read`.  The copies into the user buffer are not modelled,
only their sizes; `none` means that the wait loop used up `fuel` passes. -/
def Read (env : ReadEnv) (fuel : Nat) (st : State) (iUserOff iUserSize : Int) :
    Option ReadResult :=
  let BS := st.file.m_cfi.GetBufferSize
  let c := Read_classify st iUserOff iUserSize
  let st1 := c.1
  let L := c.2
  -- First, send out any direct requests.
  let direct_handler := decide (L.blks_direct ≠ [])
  let direct_size :=
    if direct_handler then RequestBlocksDirect st1.file L.blks_direct iUserOff iUserSize else 0
  let bytes_read0 : Int := 0
  let bytes_read1 := if direct_handler then bytes_read0 + direct_size else bytes_read0
  -- Second, read blocks from disk.
  let d : Int × State :=
    if L.blks_on_disk ≠ [] then
      let r := ReadBlocksFromDisk env st1 L.blks_on_disk iUserOff iUserSize
      (if r.1 ≥ 0 then bytes_read1 + r.1 else r.1, r.2)
    else (bytes_read1, st1)
  -- Third, loop over blocks that are available or incoming.
  match Read_waitLoop env BS iUserOff iUserSize fuel 0
      { blks_to_process := L.blks_to_process, blks_processed := [],
        bytes_read := d.1, errno := none } d.2 with
  | none => none
  | some (loc, st3) =>
    -- Fourth, make sure all direct requests have arrived.
    let bytes_read4 :=
      if direct_handler then
        (if env.direct_errno = 0 then loc.bytes_read + direct_size else -1)
      else loc.bytes_read
    let errno4 :=
      if direct_handler ∧ env.direct_errno ≠ 0 then some env.direct_errno else loc.errno
    -- Last, release blocks.
    let st4 := deliver st3 env.lateResponses
    let rel := Read_release (loc.blks_processed ++ loc.blks_to_process) st4 []
    some { ret := bytes_read4, errno := errno4, state := rel.1, lists := L, decs := rel.2 }

/-! ## Reference counts seen from outside a Read -/

/-- The reference count `m_refcnt` of the block under key `b`; 0 when the map
holds no block under that key. -/
def refcntOf (f : File) (b : Int) : Int :=
  match f.m_block_map.find b with
  | some blk => blk.m_refcnt
  | none => 0

/-- Every block the map holds sits under the key `m_offset / BufferSize()`,
the key under which `dec_ref_count` erases it (`RequestBlock` stores block
`i` with `m_offset = i * BS`). -/
def File.keysMatch (f : File) : Prop :=
  ∀ (k : Int) (blk : Block), f.m_block_map.find k = some blk →
    Int.tdiv blk.m_offset f.BufferSize = k

/-- The completions delivered before the `n` scans `pass, pass + 1, ...,
pass + n - 1` of the wait loop of `File::Read`, in order of delivery. -/
def ReadEnv.responsesFrom (env : ReadEnv) : Nat → Nat → List (Int × XRootDStatus)
  | _, 0 => []
  | pass, n + 1 => env.responses pass ++ env.responsesFrom (pass + 1) n

/-- The number of references `ProcessBlockResponse` takes on block `b` of the
file `f` when the completions `rs` are delivered: one `inc_ref_count` for
every completion of `b`, except a success while `m_stopping` is set; none
when the map holds no block `b`. -/
def completionRefs (f : File) (b : Int) (rs : List (Int × XRootDStatus)) : Int :=
  if (f.m_block_map.find b).isSome then
    ((rs.filter (fun r => decide (r.1 = b) && !(r.2.IsOK && f.m_stopping))).length : Int)
  else 0

/-! ## Write-back and sync -/

/-- The constant `PREFETCH_MAX_ATTEMPTS`. -/
def PREFETCH_MAX_ATTEMPTS : Int := 10

/-- The errno value `EINTR`. -/
def EINTR : Int := 4

/-- Modelled from the spec: one answer of the storage adapter to
`Handle.Write(buf, offset, len) → bytes | -1  (EINTR retriable)` (§6): the
returned value and the value of `errno` after the call. -/
structure WriteAnswer where
  retval : Int
  errno : Int
deriving DecidableEq, Repr

/-- Modelled from the spec: the effect of `Handle.Write(buf, offset, len)` that
returned `retval` on the data file: the first `retval` bytes at `buf` are
stored from file offset `offset` on.  `buf` is `&m_buff[0] + buff`; a byte
read outside the buffer is taken as 0. -/
def ossWrite (disk : Int → Nat) (m_buff : List Nat) (buff offset retval : Int) : Int → Nat :=
  fun p =>
    if offset ≤ p ∧ p < offset + retval then
      (if 0 ≤ buff + (p - offset) then m_buff.getD (buff + (p - offset)).toNat 0 else 0)
    else disk p

/-- How the write loop of `File::WriteBlockToDisk` ended: by leaving the
`while` (the code after the loop runs) or by the `return` inside it. -/
inductive WriteLoopExit where
  | fellThrough
  | returned
deriving DecidableEq, Repr

/-- The `while` loop of `File::WriteBlockToDisk`.  `answers n` is the answer to
the `n`-th call of `m_output->Write` (counted from 0); `buff` is the position
of the pointer `buff` inside `m_buff`; `buffer_offset` stays 0 in the source.
The first argument bounds the passes: `cnt` grows by one per pass and the
loop returns once `cnt > PREFETCH_MAX_ATTEMPTS`. -/
def WriteBlockToDisk_loop (answers : Nat → WriteAnswer) (m_buff : List Nat) (offset : Int) :
    Nat → Int → Int → Nat → (Int → Nat) → WriteLoopExit × (Int → Nat)
  | 0, _, _, _, disk => (WriteLoopExit.returned, disk)
  | left + 1, buffer_remaining, buff, cnt, disk =>
    let buffer_offset : Int := 0
    if buffer_remaining > 0 then
      let a := answers cnt
      let disk1 := ossWrite disk m_buff buff (offset + buffer_offset) a.retval
      if a.retval ≠ -1 ∨ a.errno = EINTR then
        let buffer_remaining1 := buffer_remaining - a.retval
        let buff1 := buff + a.retval
        let cnt1 := cnt + 1
        if (cnt1 : Int) > PREFETCH_MAX_ATTEMPTS then
          (WriteLoopExit.returned, disk1)
        else
          WriteBlockToDisk_loop answers m_buff offset left buffer_remaining1 buff1 cnt1 disk1
      else
        (WriteLoopExit.fellThrough, disk1)
    else
      (WriteLoopExit.fellThrough, disk)

/-- The block of `File::WriteBlockToDisk` under `m_syncStatusMutex` ("set bit
synced"): returns the file and `schedule_sync`. -/
def WriteBlockToDisk_markSynced (f : File) (pfIdx : Int) : File × Bool :=
  let f1 : File :=
    if f.m_in_sync then
      { f with m_writes_during_sync := f.m_writes_during_sync ++ [pfIdx] }
    else
      { f with m_cfi := f.m_cfi.SetBitWriteCalled pfIdx,
               m_non_flushed_cnt := f.m_non_flushed_cnt + 1 }
  if f1.m_non_flushed_cnt ≥ 100 ∧ (f1.m_cfi.IsComplete = true ∧ f1.m_non_flushed_cnt > 0) then
    ({ f1 with m_in_sync := true, m_non_flushed_cnt := 0 }, true)
  else
    (f1, false)

/-- Method `File::WriteBlockToDisk` for the block under key `b`; the Boolean tells
whether the sync job was scheduled.  A block that is not in the map leaves
the state as it is. -/
def WriteBlockToDisk (answers : Nat → WriteAnswer) (st : State) (b : Int) : State × Bool :=
  match st.file.m_block_map.find b with
  | none => (st, false)
  | some blk =>
    let f := st.file
    let offset := blk.m_offset - f.m_offset
    let size :=
      if blk.m_offset + f.m_cfi.GetBufferSize > f.m_fileSize then f.m_fileSize - blk.m_offset
      else f.m_cfi.GetBufferSize
    let w := WriteBlockToDisk_loop answers blk.m_buff offset
      (PREFETCH_MAX_ATTEMPTS + 1).toNat size 0 0 f.m_output
    let f1 : File := { f with m_output := w.2 }
    match w.1 with
    | WriteLoopExit.returned => ({ st with file := f1 }, false)
    | WriteLoopExit.fellThrough =>
      -- set bit fetched
      let pfIdx := Int.tdiv (blk.m_offset - f1.m_offset) f1.m_cfi.GetBufferSize
      let f2 : File := { f1 with m_cfi := f1.m_cfi.SetBitFetched pfIdx }
      let st3 := dec_ref_count { st with file := f2 } b
      -- set bit synced
      let r := WriteBlockToDisk_markSynced st3.file pfIdx
      ({ st3 with file := r.1 }, r.2)

/-- The block of `File::Sync` under `m_syncStatusMutex`. -/
def Sync_promote (f : File) : File :=
  { f with
    m_cfi := f.m_writes_during_sync.foldl (fun cfi i => cfi.SetBitWriteCalled i) f.m_cfi,
    m_non_flushed_cnt := (f.m_writes_during_sync.length : Int),
    m_writes_during_sync := [],
    m_in_sync := false }

/-- Method `File::Sync`: fsync of the data file, header write, promotion of the
deferred indices, fsync of the info file. -/
def Sync (f : File) : File :=
  Sync_promote { f with m_infoFile := f.m_cfi }

/-! ## Prefetch -/

/-- Modelled from the spec: `Info::CheckComplete` re-checks completeness, which
`Info.IsComplete` computes from the bits. -/
def Info.CheckComplete (cfi : Info) : Info := cfi

/-- The search loop of `File::Prefetch`: the lowest index `f` in
`[0, GetSizeInBits())` with `fetched[f]` clear and no block in the map. -/
def Prefetch_findFree (f : File) : Option Int :=
  ((List.range f.m_cfi.GetSizeInBits.toNat).map (fun (k : Nat) => (k : Int))).find?
    (fun i => !f.m_cfi.TestBit i && (f.m_block_map.find i).isNone)

/-- Method `File::UnMarkPrefetch`. -/
def UnMarkPrefetch (f : File) : File :=
  { f with m_prefetchCurrentCnt := f.m_prefetchCurrentCnt - 1 }

/-- Method `File::Prefetch`. -/
def Prefetch (st : State) : State :=
  let stopping := st.file.m_stopping
  let st1 : State :=
    if !stopping then
      if st.file.m_cfi.IsComplete = false ∧ st.file.m_block_map.length < 3 then
        match Prefetch_findFree st.file with
        | some f =>
          -- cache()->RequestRAMBlock();  the returned value is not looked at
          let r := st.cache.RequestRAMBlock
          let f1 := RequestBlock st.file f true
          let cnt := f1.m_prefetchReadCnt + 1
          { file := { f1 with m_prefetchReadCnt := cnt,
                              m_prefetchScore := Int.tdiv f1.m_prefetchHitCnt cnt },
            cache := r.2 }
        | none =>
          { file := { st.file with m_cfi := st.file.m_cfi.CheckComplete },
            cache := st.cache.DeRegisterPrefetchFile }
      else st
    else st
  { st1 with file := UnMarkPrefetch st1.file }

/-- The "set bit synced" steps of `WriteBlockToDisk` for a list of block
indices, one after the other. -/
def markSyncedAll (f : File) (idxs : List Int) : File :=
  idxs.foldl (fun g i => (WriteBlockToDisk_markSynced g i).1) f


/-! ## Reference-count traffic of readers -/

/-- What a reader does to the reference count of a block: `File::Read` calls
`inc_ref_count` while it classifies and `dec_ref_count` when it releases. -/
inductive RefOp where
  | inc
  | dec
deriving DecidableEq, Repr

/-- One reference-count operation of a reader on the block under key `b`. -/
def applyRefOp (b : Int) (st : State) : RefOp → State
  | RefOp.inc => { st with file := inc_ref_count st.file b }
  | RefOp.dec => dec_ref_count st b

/-- A sequence of reference-count operations of readers on block `b`. -/
def applyRefOps (b : Int) (st : State) (ops : List RefOp) : State :=
  ops.foldl (applyRefOp b) st

/-- The operations come from Reads, each of which increments first and
decrements once later: with `held` references held by Reads still running,
no decrement comes without a reference to give back. -/
def readersOnly : Nat → List RefOp → Bool
  | _, [] => true
  | held, RefOp.inc :: rest => readersOnly (held + 1) rest
  | 0, RefOp.dec :: _ => false
  | held + 1, RefOp.dec :: rest => readersOnly held rest

/-! ## Concrete inputs -/

/-- A side-car info of `nbits` blocks of `BS` bytes with no bit set. -/
def blankInfo (BS nbits : Int) : Info :=
  { m_bufferSize := BS, m_sizeInBits := nbits, m_buff_fetched := fun _ => false,
    m_buff_write_called := fun _ => false, m_buff_prefetch := fun _ => false }

/-- A freshly opened file of `nbits` blocks of `BS` bytes: nothing fetched,
empty block map, counters as the constructor of `File` sets them. -/
def freshFile (BS nbits : Int) : File :=
  { m_cfi := blankInfo BS nbits, m_fileSize := BS * nbits, m_offset := 0,
    m_output := fun _ => 0, m_infoFile := blankInfo BS nbits, m_block_map := [],
    m_stats := { m_BytesDisk := 0, m_BytesRam := 0, m_BytesMissed := 0 },
    m_stopping := false, m_non_flushed_cnt := 0, m_in_sync := false,
    m_writes_during_sync := [], m_prefetchReadCnt := 0, m_prefetchHitCnt := 0,
    m_prefetchScore := 1, m_prefetchCurrentCnt := 0 }

/-- A cache manager whose RAM broker gives the listed answers and denies
afterwards. -/
def brokerWith (replies : List Bool) : Cache :=
  { ramReplies := replies, granted := 0, released := 0, writeQueue := [],
    prefetchRegistered := true, m_prefetch := false }

/-- An environment in which every disk read is complete, no remote completion
arrives and the direct reads succeed. -/
def calmEnv : ReadEnv :=
  { diskRead := fun _ size => size, responses := fun _ => [], direct_errno := 0,
    lateResponses := [] }

/-- An environment in which the remote read of block 0 fails with errno 5
(EIO) before the reader first scans its blocks; disk reads and direct reads
succeed. -/
def eioEnv : ReadEnv :=
  { diskRead := fun _ size => size,
    responses := fun n => if n = 0 then [(0, { IsOK := false, posixErrno := 5 })] else [],
    direct_errno := 0, lateResponses := [] }

/-- An environment in which the remote reads of blocks 0 and 1 complete, the
first with success and the second with errno 5, while the reader waits. -/
def mixedEnv : ReadEnv :=
  { diskRead := fun _ size => size,
    responses := fun n =>
      if n = 1 then [(0, { IsOK := true, posixErrno := 0 }),
                     (1, { IsOK := false, posixErrno := 5 })] else [],
    direct_errno := 0, lateResponses := [] }

/-- A one-block file of 10 bytes whose block 0 is on disk (`fetched[0]` set)
and still resident in the block map, held by one reader: the state between
`SetBitFetched` in `WriteBlockToDisk` and the release by that reader. -/
def residentFetchedFile : File :=
  { freshFile 10 1 with
    m_cfi := (blankInfo 10 1).SetBitFetched 0,
    m_block_map := [(0, { m_buff := List.replicate 10 0, m_offset := 0, m_refcnt := 1,
                          m_errno := 0, m_downloaded := true, m_prefetch := false })] }

/-- A one-block file of 4 bytes whose block 0 is downloaded with buffer
`[11, 22, 33, 44]` and carries the reference of the write job. -/
def fourByteFile : File :=
  { freshFile 4 1 with
    m_block_map := [(0, { m_buff := [11, 22, 33, 44], m_offset := 0, m_refcnt := 1,
                          m_errno := 0, m_downloaded := true, m_prefetch := false })] }

/-- A storage whose every `Write` fails with `-1` and errno 5 (EIO). -/
def failingWrites : Nat → WriteAnswer := fun _ => { retval := -1, errno := 5 }

/-- A storage whose every `Write` stores two bytes. -/
def shortWrites : Nat → WriteAnswer := fun _ => { retval := 2, errno := 0 }

/-- A complete one-block file in a sync with 100 unflushed writes counted. -/
def syncingFullFile : File :=
  { freshFile 10 1 with
    m_cfi := (blankInfo 10 1).SetBitFetched 0, m_in_sync := true, m_non_flushed_cnt := 100 }

/-- A two-block file in a sync during which the write of block 1 has already
been deferred. -/
def syncingFile : File :=
  { freshFile 10 2 with m_in_sync := true, m_writes_during_sync := [1] }

/-- The state after a reader has requested block 0 of a cold one-block file and
holds its reference, the remote read still pending. -/
def waitingReaderState : State :=
  (Read_classify { file := freshFile 10 1, cache := brokerWith [true] } 0 10).1

/-- A cache manager with prefetching configured whose RAM broker grants two
blocks. -/
def prefetchCache : Cache :=
  { ramReplies := [true, true], granted := 0, released := 0, writeQueue := [],
    prefetchRegistered := true, m_prefetch := true }

/-- A three-block file whose block 2 is on disk and was brought in by prefetch
(`fetched[2]` and `prefetch[2]` set); blocks 0 and 1 are missing. -/
def prefetchedFile : File :=
  { freshFile 10 3 with
    m_cfi := { blankInfo 10 3 with
      m_buff_fetched := fun i => decide (i = 2),
      m_buff_prefetch := fun i => decide (i = 2) } }

/-- The state after two calls of `File::Prefetch` on `prefetchedFile`: blocks 0
and 1 are requested, two prefetch reads are counted. -/
def twicePrefetched : State :=
  Prefetch (Prefetch { file := prefetchedFile, cache := prefetchCache })

/-- Bytes of the request `[off, off + size)` that lie below the block boundary
`j * BS`. -/
def cumBytes (BS off size : Int) (j : Int) : Int :=
  max (min (j * BS) (off + size)) off - off

end XrdFileCache

namespace XrdCl

/-!
## XrdCl::XCpCtx — the extreme-copy coordinator

A shallow embedding of `src/XrdCl/XrdClXCpCtx.cc`.  The arithmetic of
`GetBlock` and `SetFileSize` is `uint64_t` arithmetic (the locals of `GetBlock`
and the constructor arguments are declared `uint64_t`): sums and differences
are taken modulo `2 ^ 64`, and `uint64_t( pFileSize )` is the conversion of the
signed file size.  A pointer to a source is a number, `0` is the null pointer.
The mutexes and condition variables are not modelled: each function is one
critical section.
-/

/-- The conversion `uint64_t( x )` of a signed 64-bit value. -/
def toUInt64 (x : Int) : Nat := (x % (2 ^ 64 : Int)).toNat

/-- Modelled from the spec: a replica worker `XCpSrc` (XrdClXCpSrc.hh is not
among the sources) as the coordinator sees it: its address, its transfer-rate
estimate (what `TransferRate()` returns, a `uint64_t`), its HasData flag and
its running flag (§3). -/
structure XCpSrc where
  ptr : Nat
  transferRate : Nat
  hasData : Bool
  running : Bool
deriving DecidableEq, Repr

/-- Modelled from the spec: `XCpSrc::TransferRate()`, the transfer-rate estimate. -/
def XCpSrc.TransferRate (src : XCpSrc) : Nat := src.transferRate

/-- Modelled from the spec: `XCpSrc::HasData()`, the source holds work to steal. -/
def XCpSrc.HasData (src : XCpSrc) : Bool := src.hasData

/-- Modelled from the spec: `XCpSrc::IsRunning()`. -/
def XCpSrc.IsRunning (src : XCpSrc) : Bool := src.running

/-- Modelled from the spec: `ChunkInfo` (declared outside the sources): offset
and length of a completed chunk (§3); the buffer is left out. -/
structure ChunkInfo where
  offset : Nat
  length : Nat
deriving DecidableEq, Repr

/-- The statuses `XCpCtx::GetChunk` returns: `stOK/suDone`,
`stError/errNoMoreReplicas`, `stOK/suContinue`, `stOK/suRetry`. -/
inductive ChunkStatus where
  | suDone
  | errNoMoreReplicas
  | suContinue
  | suRetry
deriving DecidableEq, Repr

/-- Modelled from the spec: the members of `XCpCtx` (declared in
XrdClXCpCtx.hh, not among the sources), as the constructor initialises them:
URL queue, block size, parallelism, chunk size, offset cursor, file size (`-1`
while it is not bound), data-received counter, done flag, chunk sink (a FIFO,
front first), source list, reference count.  The data-received counter counts
the bytes handed to the consumer and is taken to stay below `2 ^ 64`. -/
structure XCpCtx where
  pUrls : List Nat
  pBlockSize : Nat
  pParallelSrc : Nat
  pChunkSize : Nat
  pParallelChunks : Nat
  pOffset : Nat
  pFileSize : Int
  pDataReceived : Nat
  pDone : Bool
  pSink : List ChunkInfo
  pSources : List XCpSrc
  pRefCount : Nat
deriving DecidableEq, Repr

/-- Method `XCpCtx::SetFileSize`. -/
def XCpCtx.SetFileSize (c : XCpCtx) (size : Int) : XCpCtx :=
  if c.pFileSize < 0 ∧ size ≥ 0 then
    let pFileSize := size
    let pBlockSize1 :=
      if c.pBlockSize > toUInt64 pFileSize / c.pParallelSrc then
        toUInt64 (Int.tdiv pFileSize (c.pParallelSrc : Int))
      else c.pBlockSize
    let pBlockSize2 := if pBlockSize1 < c.pChunkSize then c.pChunkSize else pBlockSize1
    { c with pFileSize := pFileSize, pBlockSize := pBlockSize2 }
  else c

/-- The constructor `XCpCtx::XCpCtx`; an URL is a number here. -/
def XCpCtx.new (urls : List Nat) (blockSize parallelSrc chunkSize parallelChunks : Nat)
    (fileSize : Int) : XCpCtx :=
  XCpCtx.SetFileSize
    { pUrls := urls, pBlockSize := blockSize, pParallelSrc := parallelSrc,
      pChunkSize := chunkSize, pParallelChunks := parallelChunks, pOffset := 0,
      pFileSize := -1, pDataReceived := 0, pDone := false, pSink := [], pSources := [],
      pRefCount := 1 }
    fileSize

/-- Method `XCpCtx::GetNextUrl`: the URL popped, if any, and the coordinator. -/
def XCpCtx.GetNextUrl (c : XCpCtx) : Option Nat × XCpCtx :=
  match c.pUrls with
  | [] => (none, c)
  | url :: rest => (some url, { c with pUrls := rest })

/-- The loop of `XCpCtx::WeakestLink` over the sources not yet visited, with
the current values of the locals `transferRate` and `ret`. -/
def XCpCtx.WeakestLink_loop (exclude : Nat) :
    List XCpSrc → Nat → Option XCpSrc → Option XCpSrc
  | [], _, ret => ret
  | src :: rest, transferRate, ret =>
    if src.ptr = exclude then XCpCtx.WeakestLink_loop exclude rest transferRate ret
    else
      let tmp := src.TransferRate
      if src.HasData = true ∧ tmp < transferRate then
        XCpCtx.WeakestLink_loop exclude rest tmp (some src)
      else
        XCpCtx.WeakestLink_loop exclude rest transferRate ret

/-- Method `XCpCtx::WeakestLink`; `none` is the null pointer.
`uint64_t transferRate = -1` is the largest `uint64_t` value. -/
def XCpCtx.WeakestLink (c : XCpCtx) (exclude : Nat) : Option XCpSrc :=
  XCpCtx.WeakestLink_loop exclude c.pSources (toUInt64 (-1)) none

/-- Method `XCpCtx::PutChunk`. -/
def XCpCtx.PutChunk (c : XCpCtx) (chunk : ChunkInfo) : XCpCtx :=
  { c with pSink := c.pSink ++ [chunk] }

/-- Method `XCpCtx::GetBlock`: the pair returned and the coordinator. -/
def XCpCtx.GetBlock (c : XCpCtx) : (Nat × Nat) × XCpCtx :=
  let blkSize := c.pBlockSize
  let offset := c.pOffset
  let blkSize1 :=
    if (c.pOffset + blkSize) % 2 ^ 64 > toUInt64 c.pFileSize then
      toUInt64 ((toUInt64 c.pFileSize : Int) - (c.pOffset : Int))
    else blkSize
  ((offset, blkSize1), { c with pOffset := (c.pOffset + blkSize1) % 2 ^ 64 })

/-- Method `XCpCtx::GetChunk`: the status, the chunk copied out (with
`suContinue`) and the coordinator.  `pSink.Get()` yields the front of the
sink, or null when the sink is empty. -/
def XCpCtx.GetChunk (c : XCpCtx) : ChunkStatus × Option ChunkInfo × XCpCtx :=
  if c.pDataReceived = toUInt64 c.pFileSize then
    (ChunkStatus.suDone, none, { c with pDone := true })
  else
    let nbRunning := (c.pSources.filter (fun src => src.IsRunning)).length
    if nbRunning = 0 then
      (ChunkStatus.errNoMoreReplicas, none, { c with pDone := true })
    else
      match c.pSink with
      | chunk :: rest =>
        (ChunkStatus.suContinue, some chunk,
          { c with pSink := rest, pDataReceived := c.pDataReceived + chunk.length })
      | [] => (ChunkStatus.suRetry, none, c)

/-- A call on the offset allocator: `GetBlock()` or `SetFileSize( size )`. -/
inductive AllocCall where
  | getBlock
  | setFileSize (size : Int)
deriving DecidableEq, Repr

/-- The coordinator after one call on the offset allocator. -/
def XCpCtx.allocStep (c : XCpCtx) : AllocCall → XCpCtx
  | AllocCall.getBlock => c.GetBlock.2
  | AllocCall.setFileSize size => c.SetFileSize size

/-- The coordinator after a sequence of calls on the offset allocator. -/
def XCpCtx.allocRun (c : XCpCtx) (calls : List AllocCall) : XCpCtx :=
  calls.foldl XCpCtx.allocStep c

/-- The calls respect the file-size barrier: `GetBlock` is only called once the
file size is bound, and every size handed to `SetFileSize` is an `int64_t`
value. -/
def XCpCtx.allocCallsOk (c : XCpCtx) : List AllocCall → Bool
  | [] => true
  | AllocCall.getBlock :: rest =>
    decide (0 ≤ c.pFileSize) && XCpCtx.allocCallsOk c.GetBlock.2 rest
  | AllocCall.setFileSize size :: rest =>
    decide (size < 2 ^ 63) && XCpCtx.allocCallsOk (c.SetFileSize size) rest

/-- What happens to the coordinator during a copy, as far as `GetChunk` is
concerned: a source puts a chunk, the sources change (start, stop, report new
rates), or the consumer calls `GetChunk`. -/
inductive CopyEvent where
  | putChunk (chunk : ChunkInfo)
  | sources (srcs : List XCpSrc)
  | getChunk
deriving DecidableEq, Repr

/-- One event of a copy: the coordinator and the list of what `GetChunk`
returned so far (status and chunk), extended when the event is a call of
`GetChunk`. -/
def XCpCtx.copyStep (s : XCpCtx × List (ChunkStatus × Option ChunkInfo)) :
    CopyEvent → XCpCtx × List (ChunkStatus × Option ChunkInfo)
  | CopyEvent.putChunk chunk => (s.1.PutChunk chunk, s.2)
  | CopyEvent.sources srcs => ({ s.1 with pSources := srcs }, s.2)
  | CopyEvent.getChunk => (s.1.GetChunk.2.2, s.2 ++ [(s.1.GetChunk.1, s.1.GetChunk.2.1)])

/-- A run of a copy from coordinator `c`: the coordinator at the end and what
the calls of `GetChunk` returned, in call order. -/
def XCpCtx.copyRun (c : XCpCtx) (events : List CopyEvent) :
    XCpCtx × List (ChunkStatus × Option ChunkInfo) :=
  events.foldl XCpCtx.copyStep (c, [])

/-- The chunks handed out with status `suContinue`, in call order. -/
def chunksReturned (outs : List (ChunkStatus × Option ChunkInfo)) : List ChunkInfo :=
  outs.filterMap (fun o => if o.1 = ChunkStatus.suContinue then o.2 else none)

/-- The chunks the sources put into the sink during the events, in order. -/
def chunksPut : List CopyEvent → List ChunkInfo
  | [] => []
  | CopyEvent.putChunk chunk :: rest => chunk :: chunksPut rest
  | _ :: rest => chunksPut rest

/-- The sum of the lengths of a list of chunks. -/
def totalLength (chunks : List ChunkInfo) : Nat :=
  (chunks.map (fun ch => ch.length)).sum

/-! ## Allocator runs, weakest links, concrete coordinators -/

/-- The coordinator after `n` calls of `GetBlock`. -/
def XCpCtx.afterGetBlocks (c : XCpCtx) : Nat → XCpCtx
  | 0 => c
  | n + 1 => (XCpCtx.afterGetBlocks c n).GetBlock.2

/-- A coordinator on which the first call of `GetBlock` exhausts a 10-byte file
and whose block size is the chunk size `2 ^ 64 - 1`. -/
def hugeChunkCtx : XCpCtx := (XCpCtx.new [] 100 1 (2 ^ 64 - 1) 1 10).GetBlock.2

/-- The state of the offset allocator when the file-size barrier has been
respected: block size, chunk size and file size leave room for the 64-bit
sums, the cursor is at 0 while the file size is not bound and inside the file
once it is. -/
def XCpCtx.allocInv (c : XCpCtx) : Prop :=
  0 < c.pParallelSrc ∧ c.pBlockSize < 2 ^ 63 ∧ c.pChunkSize < 2 ^ 63 ∧
  c.pFileSize < 2 ^ 63 ∧
  (c.pFileSize < 0 → c.pOffset = 0) ∧
  (0 ≤ c.pFileSize → (c.pOffset : Int) ≤ c.pFileSize)

/-- A coordinator constructed with block size 100, one source, chunk size 1
and no file size yet. -/
def unboundCtx : XCpCtx := XCpCtx.new [] 100 1 1 1 (-1)

/-- A source `WeakestLink( exclude )` may return: not the excluded one, and
holding data. -/
def XCpSrc.eligible (exclude : Nat) (src : XCpSrc) : Prop :=
  src.ptr ≠ exclude ∧ src.HasData = true

/-- The source `s` is the weakest link of the list `l`: it is eligible, sits
in the list, every eligible source before it has a strictly higher transfer
rate and every eligible source after it has at least its transfer rate. -/
def XCpSrc.weakestIn (exclude : Nat) (l : List XCpSrc) (s : XCpSrc) : Prop :=
  s.eligible exclude ∧
  ∃ before after, l = before ++ s :: after ∧
    (∀ t ∈ before, t.eligible exclude → s.TransferRate < t.TransferRate) ∧
    (∀ t ∈ after, t.eligible exclude → s.TransferRate ≤ t.TransferRate)

/-- A coordinator with two sources: source 1 holds data and reports the
largest `uint64_t` value as its transfer rate, source 2 is idle. -/
def maxRateCtx : XCpCtx :=
  { unboundCtx with
    pSources := [{ ptr := 1, transferRate := 2 ^ 64 - 1, hasData := true, running := true },
                 { ptr := 2, transferRate := 7, hasData := false, running := true }] }

/-- A coordinator with five sources, two of them with data at the lowest rate. -/
def fiveSourceCtx : XCpCtx :=
  { unboundCtx with
    pSources := [{ ptr := 1, transferRate := 5, hasData := true, running := true },
                 { ptr := 2, transferRate := 3, hasData := true, running := true },
                 { ptr := 3, transferRate := 3, hasData := true, running := true },
                 { ptr := 4, transferRate := 1, hasData := false, running := true },
                 { ptr := 5, transferRate := 0, hasData := true, running := false }] }

/-- A coordinator for a 30-byte file with one running source and nothing
received yet. -/
def copyCtx : XCpCtx :=
  { XCpCtx.new [] 10 1 10 1 30 with
    pSources := [{ ptr := 1, transferRate := 5, hasData := true, running := true }] }

/-- A copy of the 30-byte file: three chunks are put, the consumer asks five
times, once before the first chunk is there. -/
def copyEvents : List CopyEvent :=
  [CopyEvent.getChunk,
   CopyEvent.putChunk { offset := 0, length := 10 },
   CopyEvent.putChunk { offset := 10, length := 10 },
   CopyEvent.getChunk,
   CopyEvent.putChunk { offset := 20, length := 10 },
   CopyEvent.getChunk,
   CopyEvent.getChunk]

end XrdCl

namespace XrdFileCache

/-! ## Geometry of `overlap` -/

/-- A value that fits an `int` is not changed by the conversion. -/
theorem toInt32_of_fits (x : Int) (h0 : -2 ^ 31 ≤ x) (h1 : x < 2 ^ 31) : toInt32 x = x := by
  unfold toInt32
  omega

/-- When the last block index of a request fits an `int`, `idx_first` and
`idx_last` are the two quotients themselves. -/
theorem idx_of_fits (BS off size : Int) (hBS : 0 < BS) (hoff : 0 ≤ off) (hsize : 0 < size)
    (hfit : Int.tdiv (off + size - 1) BS < 2 ^ 31) :
    idxFirst BS off = off / BS ∧ idxLast BS off size = (off + size - 1) / BS := by
  have h : 0 ≤ off + size - 1 := by omega
  rw [Int.tdiv_eq_ediv h hBS.le] at hfit
  have h1 : 0 ≤ off / BS := Int.ediv_nonneg hoff hBS.le
  have h2 : off / BS ≤ (off + size - 1) / BS := Int.ediv_le_ediv hBS (by omega)
  unfold idxFirst idxLast
  rw [Int.tdiv_eq_ediv hoff hBS.le, Int.tdiv_eq_ediv h hBS.le,
    toInt32_of_fits _ (by omega) (by omega), toInt32_of_fits _ (by omega) hfit]
  exact ⟨rfl, rfl⟩

theorem idxFirst_bounds (BS off size : Int) (hBS : 0 < BS) (hoff : 0 ≤ off) (hsize : 0 < size)
    (hfit : Int.tdiv (off + size - 1) BS < 2 ^ 31) :
    idxFirst BS off * BS ≤ off ∧ off < (idxFirst BS off + 1) * BS := by
  rw [(idx_of_fits BS off size hBS hoff hsize hfit).1]
  exact ⟨Int.ediv_mul_le off (ne_of_gt hBS), Int.lt_ediv_add_one_mul_self off hBS⟩

theorem idxLast_bounds (BS off size : Int) (hBS : 0 < BS) (hoff : 0 ≤ off) (hsize : 0 < size)
    (hfit : Int.tdiv (off + size - 1) BS < 2 ^ 31) :
    idxLast BS off size * BS ≤ off + size - 1 ∧ off + size - 1 < (idxLast BS off size + 1) * BS := by
  rw [(idx_of_fits BS off size hBS hoff hsize hfit).2]
  exact ⟨Int.ediv_mul_le _ (ne_of_gt hBS), Int.lt_ediv_add_one_mul_self _ hBS⟩

theorem idxFirst_le_idxLast (BS off size : Int) (hBS : 0 < BS) (hoff : 0 ≤ off) (hsize : 0 < size)
    (hfit : Int.tdiv (off + size - 1) BS < 2 ^ 31) :
    idxFirst BS off ≤ idxLast BS off size := by
  obtain ⟨h1, -⟩ := idxFirst_bounds BS off size hBS hoff hsize hfit
  obtain ⟨-, h2⟩ := idxLast_bounds BS off size hBS hoff hsize hfit
  by_contra hlt
  push_neg at hlt
  have : (idxLast BS off size + 1) * BS ≤ idxFirst BS off * BS :=
    Int.mul_le_mul_of_nonneg_right (by omega) hBS.le
  omega

/-- Closed form of `overlap` on a block of the request range. -/
theorem overlap_in_range (BS off size i : Int) (hBS : 0 < BS) (hoff : 0 ≤ off) (hsize : 0 < size)
    (hfit : Int.tdiv (off + size - 1) BS < 2 ^ 31)
    (hlo : idxFirst BS off ≤ i) (hhi : i ≤ idxLast BS off size) :
    overlap i BS off size =
      some (max (i * BS) off - off, max (i * BS) off - i * BS,
            min (i * BS + BS) (off + size) - max (i * BS) off)
    ∧ off < i * BS + BS ∧ i * BS < off + size := by
  obtain ⟨-, h1⟩ := idxFirst_bounds BS off size hBS hoff hsize hfit
  obtain ⟨h2, -⟩ := idxLast_bounds BS off size hBS hoff hsize hfit
  have h3 : (idxFirst BS off + 1) * BS ≤ (i + 1) * BS :=
    Int.mul_le_mul_of_nonneg_right (by omega) hBS.le
  have h4 : i * BS ≤ idxLast BS off size * BS :=
    Int.mul_le_mul_of_nonneg_right hhi hBS.le
  have h5 : (i + 1) * BS = i * BS + BS := by ring
  have hA : off < i * BS + BS := by omega
  have hB : i * BS < off + size := by omega
  refine ⟨?_, hA, hB⟩
  unfold overlap
  simp only []
  rw [if_pos ⟨hA, hB⟩]

theorem overlap_fields (BS off size i : Int) (hBS : 0 < BS) (hoff : 0 ≤ off) (hsize : 0 < size)
    (hfit : Int.tdiv (off + size - 1) BS < 2 ^ 31)
    (hlo : idxFirst BS off ≤ i) (hhi : i ≤ idxLast BS off size) :
    overlapOff i BS off size = max (i * BS) off - off ∧
    overlapBlkOff i BS off size = max (i * BS) off - i * BS ∧
    overlapSize i BS off size = min (i * BS + BS) (off + size) - max (i * BS) off := by
  obtain ⟨h, -, -⟩ := overlap_in_range BS off size i hBS hoff hsize hfit hlo hhi
  simp [overlapOff, overlapBlkOff, overlapSize, h]

theorem sum_overlapSize_range (BS off size : Int) (hBS : 0 < BS) (hoff : 0 ≤ off)
    (hsize : 0 < size) (hfit : Int.tdiv (off + size - 1) BS < 2 ^ 31) (n : Nat)
    (hn : idxFirst BS off + (n : Int) ≤ idxLast BS off size + 1) :
    (((List.range n).map (fun (k : Nat) => idxFirst BS off + (k : Int))).map
        (fun i => overlapSize i BS off size)).sum
      = cumBytes BS off size (idxFirst BS off + n) := by
  induction n with
  | zero =>
    obtain ⟨h1, -⟩ := idxFirst_bounds BS off size hBS hoff hsize hfit
    simp only [List.range_zero, List.map_nil, List.sum_nil, cumBytes, Nat.cast_zero, add_zero]
    have : min (idxFirst BS off * BS) (off + size) ≤ off := le_trans (min_le_left _ _) h1
    rw [max_eq_right this]; simp
  | succ n ih =>
    have hn2 : idxFirst BS off + (n : Int) ≤ idxLast BS off size + 1 := by push_cast at hn; omega
    have hi : idxFirst BS off + (n : Int) ≤ idxLast BS off size := by push_cast at hn; omega
    have hlo : idxFirst BS off ≤ idxFirst BS off + (n : Int) := by omega
    obtain ⟨-, hA, hB⟩ := overlap_in_range BS off size _ hBS hoff hsize hfit hlo hi
    obtain ⟨-, -, hsz⟩ := overlap_fields BS off size _ hBS hoff hsize hfit hlo hi
    rw [List.range_succ, List.map_append, List.map_append, List.sum_append, ih hn2]
    simp only [List.map_cons, List.map_nil, List.sum_cons, List.sum_nil, add_zero, hsz]
    unfold cumBytes
    have e : (idxFirst BS off + ((n + 1 : Nat) : Int)) * BS
        = (idxFirst BS off + (n : Int)) * BS + BS := by push_cast; ring
    rw [e]
    set a := (idxFirst BS off + (n : Int)) * BS with ha
    rw [min_eq_left hB.le]
    have : off < min (a + BS) (off + size) := lt_min hA (by omega)
    rw [max_eq_left this.le]
    ring

/-! ## The block map -/

theorem BlockMap.find_modify (m : BlockMap) (k : Int) (g : Block → Block) (i : Int) :
    BlockMap.find (BlockMap.modify m k g) i
      = if i = k then (BlockMap.find m i).map g else BlockMap.find m i := by
  induction m with
  | nil => simp [BlockMap.modify, BlockMap.find]
  | cons p m ih =>
    obtain ⟨a, b⟩ := p
    simp only [BlockMap.modify, BlockMap.find, ih]
    by_cases hai : a = i
    · subst hai
      by_cases hak : a = k <;> simp [hak]
    · simp [hai]

theorem BlockMap.find_erase_ne (m : BlockMap) (k i : Int) (h : i ≠ k) :
    BlockMap.find (BlockMap.erase m k) i = BlockMap.find m i := by
  induction m with
  | nil => simp [BlockMap.erase, BlockMap.find]
  | cons p m ih =>
    obtain ⟨a, b⟩ := p
    simp only [BlockMap.erase, BlockMap.find]
    by_cases hak : a = k
    · have hai : ¬ a = i := by rw [hak]; exact fun e => h e.symm
      rw [if_pos hak, if_neg hai, ih]
    · simp only [hak, if_false, BlockMap.find, ih]

theorem BlockMap.find_set_ne (m : BlockMap) (k i : Int) (b : Block) (h : i ≠ k) :
    BlockMap.find (BlockMap.set m k b) i = BlockMap.find m i := by
  simp only [BlockMap.set, BlockMap.find]
  rw [if_neg (fun e => h e.symm)]
  exact BlockMap.find_erase_ne m k i h

theorem BlockMap.find_set_self (m : BlockMap) (k : Int) (b : Block) :
    BlockMap.find (BlockMap.set m k b) k = some b := by
  simp [BlockMap.set, BlockMap.find]

/-! ## The block range of a request -/

theorem blockRange_nodup (a b : Int) : (blockRange a b).Nodup := by
  unfold blockRange
  refine List.Nodup.map ?_ (List.nodup_range _)
  intro x y h
  simpa using h

/-- One classification step either hands the block to `inc_ref_count` and
puts it on `blks_to_process`, or does neither. -/
theorem Read_classifyStep_incs (s : State × ReadLists) (i : Int) :
    ((Read_classifyStep s i).2.incs = s.2.incs ++ [i] ∧
      (Read_classifyStep s i).2.blks_to_process.Perm (i :: s.2.blks_to_process)) ∨
    ((Read_classifyStep s i).2.incs = s.2.incs ∧
      (Read_classifyStep s i).2.blks_to_process = s.2.blks_to_process) := by
  unfold Read_classifyStep
  simp only []
  cases hfind : s.1.file.m_block_map.find i with
  | some b =>
    left
    exact ⟨rfl, List.Perm.refl _⟩
  | none =>
    simp only []
    by_cases ht : s.1.file.m_cfi.TestBit i = true
    · rw [if_pos ht]; right; exact ⟨rfl, rfl⟩
    · rw [if_neg ht]
      by_cases hr : s.1.cache.RequestRAMBlock.1 = true
      · rw [if_pos hr]; left
        exact ⟨rfl, List.perm_append_comm⟩
      · rw [if_neg hr]; right; exact ⟨rfl, rfl⟩

theorem Read_classify_fold_incs (l : List Int) (s : State × ReadLists) :
    ∃ t, t.Sublist l ∧ (l.foldl Read_classifyStep s).2.incs = s.2.incs ++ t ∧
      (l.foldl Read_classifyStep s).2.blks_to_process.Perm (t ++ s.2.blks_to_process) := by
  induction l generalizing s with
  | nil => exact ⟨[], List.Sublist.refl _, by simp, by simp⟩
  | cons i l ih =>
    obtain ⟨t, ht, h1, h2⟩ := ih (Read_classifyStep s i)
    rw [List.foldl_cons]
    rcases Read_classifyStep_incs s i with ⟨e1, e2⟩ | ⟨e1, e2⟩
    · refine ⟨i :: t, ht.cons₂ i, ?_, ?_⟩
      · rw [h1, e1]; simp
      · refine h2.trans ?_
        refine (List.Perm.append_left t e2).trans ?_
        exact List.perm_middle
    · refine ⟨t, ht.cons i, ?_, ?_⟩
      · rw [h1, e1]
      · rw [e2] at h2; exact h2

theorem Read_classify_incs (st : State) (off size : Int) :
    (Read_classify st off size).2.incs.Nodup ∧
    (Read_classify st off size).2.blks_to_process.Perm (Read_classify st off size).2.incs := by
  unfold Read_classify Read_classifyRange
  simp only []
  obtain ⟨t, ht, h1, h2⟩ := Read_classify_fold_incs
    (blockRange (idxFirst st.file.m_cfi.GetBufferSize off)
      (idxLast st.file.m_cfi.GetBufferSize off size))
    (st, ReadLists.empty)
  simp only [ReadLists.empty, List.nil_append, List.append_nil] at h1 h2
  simp only [ReadLists.empty]
  rw [h1]
  exact ⟨(blockRange_nodup _ _).sublist ht, h2⟩

/-- A classification step for block `j` leaves every other block `i` where it
was: same map entry, same `fetched[]`, same membership of the three lists. -/
theorem Read_classifyStep_other (s : State × ReadLists) (j i : Int) (h : i ≠ j) :
    (Read_classifyStep s j).1.file.m_block_map.find i = s.1.file.m_block_map.find i ∧
    (Read_classifyStep s j).1.file.m_cfi = s.1.file.m_cfi ∧
    (i ∈ (Read_classifyStep s j).2.blks_on_disk ↔ i ∈ s.2.blks_on_disk) ∧
    (i ∈ (Read_classifyStep s j).2.blks_to_process ↔ i ∈ s.2.blks_to_process) ∧
    (i ∈ (Read_classifyStep s j).2.blks_direct ↔ i ∈ s.2.blks_direct) := by
  unfold Read_classifyStep
  simp only []
  cases hfind : s.1.file.m_block_map.find j with
  | some b =>
    simp [inc_ref_count, BlockMap.find_modify, h]
  | none =>
    simp only []
    by_cases ht : s.1.file.m_cfi.TestBit j = true
    · rw [if_pos ht]
      simp [h]
    · rw [if_neg ht]
      by_cases hr : s.1.cache.RequestRAMBlock.1 = true
      · rw [if_pos hr]
        simp [inc_ref_count, RequestBlock, BlockMap.find_modify, BlockMap.find_set_ne, h]
      · rw [if_neg hr]
        simp [h]

/-- A classification step removes no block from the map, and a block it puts
on `blks_to_process` is in the map afterwards. -/
theorem Read_classifyStep_in_map (s : State × ReadLists) (j : Int)
    (h : ∀ b ∈ s.2.blks_to_process, (s.1.file.m_block_map.find b).isSome = true) :
    ∀ b ∈ (Read_classifyStep s j).2.blks_to_process,
      ((Read_classifyStep s j).1.file.m_block_map.find b).isSome = true := by
  have hself : ∀ b ∈ (Read_classifyStep s j).2.blks_to_process, b ≠ j →
      ((Read_classifyStep s j).1.file.m_block_map.find b).isSome = true := by
    intro b hb hne
    obtain ⟨o1, -, -, o4, -⟩ := Read_classifyStep_other s j b hne
    rw [o1]
    exact h b (o4.mp hb)
  intro b hb
  by_cases hne : b = j
  · subst hne
    clear hself
    revert hb
    unfold Read_classifyStep
    simp only []
    cases hfind : s.1.file.m_block_map.find b with
    | some blk =>
      intro _
      simp [inc_ref_count, BlockMap.find_modify, hfind]
    | none =>
      simp only []
      by_cases ht : s.1.file.m_cfi.TestBit b = true
      · rw [if_pos ht]
        intro hb
        have := h b hb
        rw [hfind] at this
        simp at this
      · rw [if_neg ht]
        by_cases hr : s.1.cache.RequestRAMBlock.1 = true
        · rw [if_pos hr]
          intro _
          simp [inc_ref_count, RequestBlock, BlockMap.find_modify, BlockMap.find_set_self]
        · rw [if_neg hr]
          intro hb
          have := h b hb
          rw [hfind] at this
          simp at this
  · exact hself b hb hne

theorem Read_classify_in_map (st : State) (off size : Int) :
    ∀ b ∈ (Read_classify st off size).2.blks_to_process,
      ((Read_classify st off size).1.file.m_block_map.find b).isSome = true := by
  unfold Read_classify Read_classifyRange
  simp only []
  generalize blockRange _ _ = l
  have hgen : ∀ (l : List Int) (s : State × ReadLists),
      (∀ b ∈ s.2.blks_to_process, (s.1.file.m_block_map.find b).isSome = true) →
      ∀ b ∈ (l.foldl Read_classifyStep s).2.blks_to_process,
        ((l.foldl Read_classifyStep s).1.file.m_block_map.find b).isSome = true := by
    intro l
    induction l with
    | nil => intro s h; exact h
    | cons j l ih =>
      intro s h
      rw [List.foldl_cons]
      exact ih _ (Read_classifyStep_in_map s j h)
  exact hgen l _ (by simp [ReadLists.empty])

/-! ## Completions and the wait loop -/

theorem ProcessBlockResponse_find (st : State) (b : Int) (s : XRootDStatus) (x : Int) :
    (ProcessBlockResponse st b s).file.m_block_map.find x
      = if x = b then
          (st.file.m_block_map.find x).map (fun blk =>
            if s.IsOK then
              { blk with m_downloaded := true,
                         m_refcnt := if st.file.m_stopping then blk.m_refcnt
                                     else blk.m_refcnt + 1 }
            else
              { blk.set_error_and_free s.posixErrno with m_refcnt := blk.m_refcnt + 1 })
        else st.file.m_block_map.find x := by
  unfold ProcessBlockResponse
  by_cases hok : s.IsOK = true
  · by_cases hstop : st.file.m_stopping = true
    · by_cases hx : x = b
      · subst hx
        cases hf : st.file.m_block_map.find x <;>
          simp [hok, hstop, inc_ref_count, BlockMap.find_modify, hf]
      · simp [hok, hstop, hx, inc_ref_count, BlockMap.find_modify]
    · by_cases hx : x = b
      · subst hx
        cases hf : st.file.m_block_map.find x <;>
          simp [hok, hstop, inc_ref_count, BlockMap.find_modify, hf]
      · simp [hok, hstop, hx, inc_ref_count, BlockMap.find_modify]
  · by_cases hx : x = b
    · subst hx
      cases hf : st.file.m_block_map.find x <;>
        simp [hok, inc_ref_count, BlockMap.find_modify, hf, Block.set_error_and_free]
    · simp [hok, hx, inc_ref_count, BlockMap.find_modify]

theorem blockFinished_ProcessBlockResponse (st : State) (b : Int) (s : XRootDStatus) (x : Int)
    (hs : s.mapsToErrno) :
    ((ProcessBlockResponse st b s).file.m_block_map.find x).isSome
      = (st.file.m_block_map.find x).isSome ∧
    (blockFinished st.file x = true → blockFinished (ProcessBlockResponse st b s).file x = true) ∧
    (x = b → (st.file.m_block_map.find x).isSome = true →
      blockFinished (ProcessBlockResponse st b s).file x = true) := by
  unfold blockFinished
  rw [ProcessBlockResponse_find]
  by_cases hx : x = b
  · rw [if_pos hx]
    cases hf : st.file.m_block_map.find x with
    | none => simp
    | some blk =>
      rcases hs with hok | herr
      · simp [hok, Block.is_finished]
      · by_cases hok : s.IsOK = true
        · simp [hok, Block.is_finished]
        · simp [hok, Block.is_finished, Block.set_error_and_free, herr]
  · rw [if_neg hx]
    simp [hx]

theorem deliver_blockFinished (rs : List (Int × XRootDStatus)) :
    ∀ (st : State) (x : Int), (∀ r ∈ rs, r.2.mapsToErrno) →
      ((deliver st rs).file.m_block_map.find x).isSome = (st.file.m_block_map.find x).isSome ∧
      (blockFinished st.file x = true → blockFinished (deliver st rs).file x = true) ∧
      ((∃ s, (x, s) ∈ rs) → (st.file.m_block_map.find x).isSome = true →
        blockFinished (deliver st rs).file x = true) := by
  induction rs with
  | nil =>
    intro st x _
    refine ⟨rfl, fun h => h, ?_⟩
    rintro ⟨s, hs⟩
    simp at hs
  | cons r rs ih =>
    intro st x hgood
    have hr : r.2.mapsToErrno := hgood r (by simp)
    obtain ⟨a1, a2, a3⟩ := blockFinished_ProcessBlockResponse st r.1 r.2 x hr
    obtain ⟨b1, b2, b3⟩ := ih (ProcessBlockResponse st r.1 r.2) x
      (fun q hq => hgood q (by simp [hq]))
    have hd : deliver st (r :: rs) = deliver (ProcessBlockResponse st r.1 r.2) rs := rfl
    rw [hd]
    refine ⟨b1.trans a1, fun h => b2 (a2 h), ?_⟩
    rintro ⟨s, hs⟩ hin
    rcases List.mem_cons.mp hs with hhead | htail
    · exact b2 (a3 (by rw [← hhead]) hin)
    · exact b3 ⟨s, htail⟩ (by rw [a1]; exact hin)

theorem Read_copyFinished_map (BS off size : Int) (l : List Int) :
    ∀ (bytes_read : Int) (errno : Option Int) (st : State),
      (Read_copyFinished BS off size l bytes_read errno st).2.2.file.m_block_map
        = st.file.m_block_map := by
  induction l with
  | nil => intro _ _ _; rfl
  | cons b l ih =>
    intro bytes_read errno st
    rw [Read_copyFinished]
    cases hf : st.file.m_block_map.find b with
    | none => simp only []; exact ih _ _ _
    | some blk =>
      simp only []
      by_cases hok : blk.is_ok = true
      · rw [if_pos hok, ih]
        unfold CheckPrefetchStatRAM
        split
        · split <;> rfl
        · rfl
      · rw [if_neg hok]

theorem blockFinished_congr (f g : File) (b : Int) (h : f.m_block_map = g.m_block_map) :
    blockFinished f b = blockFinished g b := by
  unfold blockFinished
  rw [h]

theorem ReadBlocksFromDisk_loop_map (env : ReadEnv) (BS off size : Int) (l : List Int) :
    ∀ (total : Int) (st : State),
      (ReadBlocksFromDisk_loop env BS off size l total st).2.file.m_block_map
        = st.file.m_block_map := by
  induction l with
  | nil => intro _ _; rfl
  | cons b l ih =>
    intro total st
    rw [ReadBlocksFromDisk_loop]
    split
    · rfl
    · rw [ih]
      unfold CheckPrefetchStatDisk
      split
      · split <;> rfl
      · rfl

theorem Read_waitLoop_nil (env : ReadEnv) (BS off size : Int) (fuel pass : Nat)
    (loc : ReadLocals) (st : State) (h : loc.blks_to_process = []) :
    Read_waitLoop env BS off size (fuel + 1) pass loc st = some (loc, st) := by
  rw [Read_waitLoop, if_neg]
  simp [h]

/-- The wait loop of `File::Read` is left once every block it waits on is
finished: if every block on `blks_to_process` is in the map and is finished
already or gets its completion in one of the passes `pass .. pass + d`, the
loop returns within `d + 2` passes. -/
theorem Read_waitLoop_returns (env : ReadEnv) (BS off size : Int)
    (hgood : ∀ n, ∀ r ∈ env.responses n, r.2.mapsToErrno) (d : Nat) :
    ∀ (pass : Nat) (loc : ReadLocals) (st : State),
      (∀ b ∈ loc.blks_to_process, (st.file.m_block_map.find b).isSome = true ∧
        (blockFinished st.file b = true ∨
          ∃ n, pass ≤ n ∧ n ≤ pass + d ∧ ∃ s, (b, s) ∈ env.responses n)) →
      (Read_waitLoop env BS off size (d + 2) pass loc st).isSome = true := by
  induction d with
  | zero =>
    intro pass loc st h
    rw [show 0 + 2 = 1 + 1 from rfl, Read_waitLoop]
    split
    · rename_i hc
      simp only []
      have hall : ∀ b ∈ loc.blks_to_process,
          blockFinished (deliver st (env.responses pass)).file b = true := by
        intro b hb
        obtain ⟨hin, hfin⟩ := h b hb
        obtain ⟨_, m2, m3⟩ := deliver_blockFinished (env.responses pass) st b (hgood pass)
        rcases hfin with hf | ⟨n, h1, h2, s, hs⟩
        · exact m2 hf
        · have : n = pass := by omega
          subst this
          exact m3 ⟨s, hs⟩ hin
      have hfin : loc.blks_to_process.filter
          (fun b => blockFinished (deliver st (env.responses pass)).file b)
            = loc.blks_to_process := List.filter_eq_self.mpr hall
      have hrem : loc.blks_to_process.filter
          (fun b => !blockFinished (deliver st (env.responses pass)).file b) = [] := by
        rw [List.filter_eq_nil_iff]
        intro b hb
        simp [hall b hb]
      rw [hfin, hrem, if_neg hc.1, Read_waitLoop_nil _ _ _ _ _ _ _ _ rfl]
      rfl
    · rfl
  | succ d ih =>
    intro pass loc st h
    rw [show d + 1 + 2 = (d + 2) + 1 from rfl, Read_waitLoop]
    split
    · simp only []
      have hnext : ∀ b ∈ loc.blks_to_process,
          ((deliver st (env.responses pass)).file.m_block_map.find b).isSome = true ∧
          (blockFinished (deliver st (env.responses pass)).file b = true ∨
            ∃ n, pass + 1 ≤ n ∧ n ≤ pass + 1 + d ∧ ∃ s, (b, s) ∈ env.responses n) := by
        intro b hb
        obtain ⟨hin, hfin⟩ := h b hb
        obtain ⟨m1, m2, m3⟩ := deliver_blockFinished (env.responses pass) st b (hgood pass)
        refine ⟨by rw [m1]; exact hin, ?_⟩
        rcases hfin with hf | ⟨n, h1, h2, s, hs⟩
        · exact Or.inl (m2 hf)
        · by_cases hn : n = pass
          · subst hn
            exact Or.inl (m3 ⟨s, hs⟩ hin)
          · exact Or.inr ⟨n, by omega, by omega, s, hs⟩
      split
      · exact ih (pass + 1) loc _ hnext
      · apply ih
        intro b hb
        have hb2 : b ∈ loc.blks_to_process := (List.mem_filter.mp hb).1
        obtain ⟨n1, n2⟩ := hnext b hb2
        rw [Read_copyFinished_map]
        refine ⟨n1, ?_⟩
        rw [blockFinished_congr _ (deliver st (env.responses pass)).file b
          (Read_copyFinished_map _ _ _ _ _ _ _)]
        exact n2
    · rfl

theorem Read_waitLoop_perm (env : ReadEnv) (BS off size : Int) (fuel : Nat) :
    ∀ (pass : Nat) (loc : ReadLocals) (st : State) (loc2 : ReadLocals) (st2 : State),
      Read_waitLoop env BS off size fuel pass loc st = some (loc2, st2) →
      (loc2.blks_processed ++ loc2.blks_to_process).Perm
        (loc.blks_processed ++ loc.blks_to_process) := by
  induction fuel with
  | zero => intro pass loc st loc2 st2 h; simp [Read_waitLoop] at h
  | succ fuel ih =>
    intro pass loc st loc2 st2 h
    rw [Read_waitLoop] at h
    split at h
    · simp only [] at h
      split at h
      · exact ih _ _ _ _ _ h
      · refine (ih _ _ _ _ _ h).trans ?_
        simp only [List.append_assoc]
        refine List.Perm.append_left _ ?_
        exact List.filter_append_perm _ _
    · simp only [Option.some.injEq, Prod.mk.injEq] at h
      obtain ⟨rfl, -⟩ := h
      exact List.Perm.refl _

/-- The fuel of the wait loop is only a bound on the number of passes: a result
reached with some fuel is reached with more. -/
theorem Read_waitLoop_fuel_succ (env : ReadEnv) (BS off size : Int) (fuel : Nat) :
    ∀ (pass : Nat) (loc : ReadLocals) (st : State) (res : ReadLocals × State),
      Read_waitLoop env BS off size fuel pass loc st = some res →
      Read_waitLoop env BS off size (fuel + 1) pass loc st = some res := by
  induction fuel with
  | zero => intro pass loc st res h; simp [Read_waitLoop] at h
  | succ fuel ih =>
    intro pass loc st res h
    rw [Read_waitLoop] at h
    rw [Read_waitLoop]
    split
    · rename_i hc
      rw [if_pos hc] at h
      simp only [] at h ⊢
      split
      · rename_i hf
        rw [if_pos hf] at h
        exact ih _ _ _ _ h
      · rename_i hf
        rw [if_neg hf] at h
        exact ih _ _ _ _ h
    · rename_i hc
      rw [if_neg hc] at h
      exact h

/-- A Read that returns with some bound on the passes of its wait loop returns
the same with every larger bound. -/
theorem Read_fuel_mono (env : ReadEnv) (fuel k : Nat) (st : State) (off size : Int)
    (r : ReadResult) (h : Read env fuel st off size = some r) :
    Read env (fuel + k) st off size = some r := by
  induction k with
  | zero => exact h
  | succ k ih =>
    unfold Read at ih ⊢
    simp only [] at ih ⊢
    split at ih
    · simp at ih
    · rename_i loc st3 hloop
      rw [show fuel + (k + 1) = (fuel + k) + 1 from rfl,
        Read_waitLoop_fuel_succ env _ _ _ _ _ _ _ _ hloop]
      exact ih

/-- Read returns when every block it waits on gets finished: if every
completion the environment delivers maps a failure to a nonzero errno, and
every block that the classification put on `blks_to_process` is finished
already or gets its completion before one of the first `N + 1` scans, then
`File::Read` returns within `N + 2` passes of its wait loop. -/
theorem Read_returns (env : ReadEnv) (N : Nat) (st : State) (off size : Int)
    (hgood : ∀ n, ∀ r ∈ env.responses n, r.2.mapsToErrno)
    (hserved : ∀ b ∈ (Read_classify st off size).2.blks_to_process,
      blockFinished (Read_classify st off size).1.file b = true ∨
        ∃ n, n ≤ N ∧ ∃ s, (b, s) ∈ env.responses n) :
    (Read env (N + 2) st off size).isSome = true := by
  have hmap := Read_classify_in_map st off size
  have hkey : ∀ (loc : ReadLocals) (st1 : State),
      loc.blks_to_process = (Read_classify st off size).2.blks_to_process →
      st1.file.m_block_map = (Read_classify st off size).1.file.m_block_map →
      Read_waitLoop env st.file.m_cfi.GetBufferSize off size (N + 2) 0 loc st1 ≠ none := by
    intro loc st1 hl hm
    refine Option.ne_none_iff_isSome.mpr
      (Read_waitLoop_returns env _ off size hgood N 0 loc st1 ?_)
    intro b hb
    rw [hl] at hb
    rw [hm, blockFinished_congr _ (Read_classify st off size).1.file b hm]
    refine ⟨hmap b hb, ?_⟩
    rcases hserved b hb with h1 | ⟨n, h2, h3⟩
    · exact Or.inl h1
    · exact Or.inr ⟨n, Nat.zero_le _, by omega, h3⟩
  unfold Read
  simp only []
  split
  · rename_i hnone
    refine absurd hnone (hkey _ _ rfl ?_)
    split
    · exact ReadBlocksFromDisk_loop_map _ _ _ _ _ _ _
    · rfl
  · rfl

theorem Read_release_decs (l : List Int) (st : State) (decs : List Int) :
    (Read_release l st decs).2 = decs ++ l := by
  induction l generalizing st decs with
  | nil => simp [Read_release]
  | cons b l ih => simp [Read_release, ih]

/-! ## Reference counts across a Read -/

theorem BlockMap.find_erase_self (m : BlockMap) (k : Int) :
    BlockMap.find (BlockMap.erase m k) k = none := by
  induction m with
  | nil => simp [BlockMap.erase, BlockMap.find]
  | cons p m ih =>
    obtain ⟨a, b⟩ := p
    simp only [BlockMap.erase]
    by_cases hak : a = k
    · rw [if_pos hak]; exact ih
    · rw [if_neg hak]; simp only [BlockMap.find, if_neg hak]; exact ih

theorem completionRefs_nil (f : File) (b : Int) : completionRefs f b [] = 0 := by
  simp [completionRefs]

theorem completionRefs_append (f : File) (b : Int) (rs1 rs2 : List (Int × XRootDStatus)) :
    completionRefs f b (rs1 ++ rs2) = completionRefs f b rs1 + completionRefs f b rs2 := by
  unfold completionRefs
  split <;> simp [List.filter_append]

theorem completionRefs_congr (f g : File) (b : Int) (rs : List (Int × XRootDStatus))
    (h1 : (g.m_block_map.find b).isSome = (f.m_block_map.find b).isSome)
    (h2 : g.m_stopping = f.m_stopping) :
    completionRefs g b rs = completionRefs f b rs := by
  unfold completionRefs
  rw [h1, h2]

theorem refcntOf_congr (f g : File) (b : Int) (h : g.m_block_map = f.m_block_map) :
    refcntOf g b = refcntOf f b := by
  unfold refcntOf
  rw [h]

theorem keysMatch_congr (f g : File) (hmap : g.m_block_map = f.m_block_map)
    (hcfi : g.m_cfi = f.m_cfi) (h : f.keysMatch) : g.keysMatch := by
  intro k blk hf
  unfold File.BufferSize
  rw [hcfi]
  rw [hmap] at hf
  exact h k blk hf

theorem refcntOf_inc_ref_count (f : File) (b x : Int) :
    refcntOf (inc_ref_count f b) x
      = refcntOf f x + (if x = b ∧ (f.m_block_map.find b).isSome = true then 1 else 0) := by
  unfold refcntOf inc_ref_count
  simp only [BlockMap.find_modify]
  by_cases hx : x = b
  · subst hx
    cases hf : f.m_block_map.find x <;> simp
  · cases hf : f.m_block_map.find x <;> simp [hx]

/-- The effect of one completion on the reference counts, and what it leaves
alone. -/
theorem ProcessBlockResponse_refcntOf (st : State) (b : Int) (s : XRootDStatus) :
    (ProcessBlockResponse st b s).file.m_stopping = st.file.m_stopping ∧
    (ProcessBlockResponse st b s).file.m_cfi = st.file.m_cfi ∧
    (∀ x, ((ProcessBlockResponse st b s).file.m_block_map.find x).isSome
        = (st.file.m_block_map.find x).isSome) ∧
    (st.file.keysMatch → (ProcessBlockResponse st b s).file.keysMatch) ∧
    ∀ x, refcntOf (ProcessBlockResponse st b s).file x
        = refcntOf st.file x + completionRefs st.file x [(b, s)] := by
  have hstop : (ProcessBlockResponse st b s).file.m_stopping = st.file.m_stopping := by
    unfold ProcessBlockResponse inc_ref_count
    by_cases hok : s.IsOK = true <;> by_cases hs : st.file.m_stopping = true <;> simp [hok, hs]
  have hcfi : (ProcessBlockResponse st b s).file.m_cfi = st.file.m_cfi := by
    unfold ProcessBlockResponse inc_ref_count
    by_cases hok : s.IsOK = true <;> by_cases hs : st.file.m_stopping = true <;> simp [hok, hs]
  refine ⟨hstop, hcfi, ?_, ?_, ?_⟩
  · intro x
    rw [ProcessBlockResponse_find]
    by_cases hx : x = b
    · rw [if_pos hx]; simp
    · rw [if_neg hx]
  · intro hk k blk hf
    rw [ProcessBlockResponse_find] at hf
    unfold File.BufferSize
    rw [hcfi]
    by_cases hx : k = b
    · rw [if_pos hx] at hf
      cases hold : st.file.m_block_map.find k with
      | none => rw [hold] at hf; simp at hf
      | some blk0 =>
        rw [hold] at hf
        simp only [Option.map, Option.some.injEq] at hf
        have h0 := hk k blk0 hold
        unfold File.BufferSize at h0
        rw [← hf]
        by_cases hok : s.IsOK = true
        · simp only [hok, if_true]; exact h0
        · simp only [hok, Block.set_error_and_free]; exact h0
    · rw [if_neg hx] at hf
      exact hk k blk hf
  · intro x
    unfold refcntOf completionRefs
    rw [ProcessBlockResponse_find]
    by_cases hx : x = b
    · subst hx
      cases hf : st.file.m_block_map.find x with
      | none => simp
      | some blk =>
        by_cases hok : s.IsOK = true <;> by_cases hs : st.file.m_stopping = true <;>
          simp [hok, hs, Block.set_error_and_free]
    · have hbx : ¬ b = x := fun e => hx e.symm
      cases hf : st.file.m_block_map.find x <;> simp [hx, hbx]

/-- Delivering completions raises the reference count of each block by the
number of references they take on it, and changes nothing else that the
reference counts depend on. -/
theorem deliver_refcntOf (rs : List (Int × XRootDStatus)) :
    ∀ st : State,
      (deliver st rs).file.m_stopping = st.file.m_stopping ∧
      (deliver st rs).file.m_cfi = st.file.m_cfi ∧
      (∀ x, ((deliver st rs).file.m_block_map.find x).isSome
          = (st.file.m_block_map.find x).isSome) ∧
      (st.file.keysMatch → (deliver st rs).file.keysMatch) ∧
      ∀ x, refcntOf (deliver st rs).file x = refcntOf st.file x + completionRefs st.file x rs := by
  induction rs with
  | nil =>
    intro st
    refine ⟨rfl, rfl, fun _ => rfl, fun h => h, fun x => ?_⟩
    rw [completionRefs_nil]
    simp [deliver]
  | cons r rs ih =>
    intro st
    have hd : deliver st (r :: rs) = deliver (ProcessBlockResponse st r.1 r.2) rs := rfl
    obtain ⟨a1, a2, a3, a4, a5⟩ := ProcessBlockResponse_refcntOf st r.1 r.2
    obtain ⟨b1, b2, b3, b4, b5⟩ := ih (ProcessBlockResponse st r.1 r.2)
    rw [hd]
    refine ⟨b1.trans a1, b2.trans a2, fun x => (b3 x).trans (a3 x), fun h => b4 (a4 h), ?_⟩
    intro x
    rw [b5 x, a5 x, completionRefs_congr st.file _ x rs (a3 x) a1,
      show r :: rs = [(r.1, r.2)] ++ rs from rfl, completionRefs_append]
    ring

/-- The three ways a classification step can go: the block is in the map and
its reference count is raised; the block is on disk or the RAM broker denies,
and the map is left alone; the broker grants, and the block is created with
reference count 0 and then raised. -/
theorem Read_classifyStep_cases (s : State × ReadLists) (i : Int) :
    (Read_classifyStep s i).1.file.m_cfi = s.1.file.m_cfi ∧
    (Read_classifyStep s i).1.file.m_stopping = s.1.file.m_stopping ∧
    (((s.1.file.m_block_map.find i).isSome = true ∧
        (Read_classifyStep s i).1.file.m_block_map
          = s.1.file.m_block_map.modify i (fun x => { x with m_refcnt := x.m_refcnt + 1 }) ∧
        (Read_classifyStep s i).2.incs = s.2.incs ++ [i]) ∨
     ((s.1.file.m_block_map.find i) = none ∧
        (Read_classifyStep s i).1.file.m_block_map = s.1.file.m_block_map ∧
        (Read_classifyStep s i).2.incs = s.2.incs) ∨
     ((s.1.file.m_block_map.find i) = none ∧
        (∃ this_bs, (Read_classifyStep s i).1.file.m_block_map
          = (s.1.file.m_block_map.set i
              (Block.new (i * s.1.file.m_cfi.GetBufferSize) this_bs false)).modify i
                (fun x => { x with m_refcnt := x.m_refcnt + 1 })) ∧
        (Read_classifyStep s i).2.incs = s.2.incs ++ [i])) := by
  unfold Read_classifyStep
  simp only []
  cases hfind : s.1.file.m_block_map.find i with
  | some b =>
    refine ⟨rfl, rfl, Or.inl ⟨rfl, rfl, rfl⟩⟩
  | none =>
    simp only []
    by_cases ht : s.1.file.m_cfi.TestBit i = true
    · rw [if_pos ht]
      exact ⟨rfl, rfl, Or.inr (Or.inl ⟨trivial, rfl, rfl⟩)⟩
    · rw [if_neg ht]
      by_cases hr : s.1.cache.RequestRAMBlock.1 = true
      · rw [if_pos hr]
        exact ⟨rfl, rfl, Or.inr (Or.inr ⟨trivial, ⟨_, rfl⟩, rfl⟩)⟩
      · rw [if_neg hr]
        exact ⟨rfl, rfl, Or.inr (Or.inl ⟨trivial, rfl, rfl⟩)⟩

/-- A classification step raises the reference count of exactly the block it
hands to `inc_ref_count`, by one. -/
theorem Read_classifyStep_refcnt (s : State × ReadLists) (i : Int)
    (hBS : s.1.file.m_cfi.GetBufferSize ≠ 0) (hk : s.1.file.keysMatch) (hi : i ∉ s.2.incs) :
    (Read_classifyStep s i).1.file.keysMatch ∧
    (Read_classifyStep s i).1.file.m_cfi = s.1.file.m_cfi ∧
    (Read_classifyStep s i).1.file.m_stopping = s.1.file.m_stopping ∧
    (∀ x, x ∈ (Read_classifyStep s i).2.incs →
      ((Read_classifyStep s i).1.file.m_block_map.find x).isSome = true ∨ x ∈ s.2.incs) ∧
    (∀ x, (s.1.file.m_block_map.find x).isSome = true →
      ((Read_classifyStep s i).1.file.m_block_map.find x).isSome = true) ∧
    (∀ x, refcntOf (Read_classifyStep s i).1.file x
          - (if x ∈ (Read_classifyStep s i).2.incs then 1 else 0)
        = refcntOf s.1.file x - (if x ∈ s.2.incs then 1 else 0)) := by
  obtain ⟨hcfi, hstop, hcase⟩ := Read_classifyStep_cases s i
  refine ⟨?_, hcfi, hstop, ?_⟩
  · intro k blk hf
    unfold File.BufferSize
    rw [hcfi]
    rcases hcase with ⟨-, hmap, -⟩ | ⟨-, hmap, -⟩ | ⟨-, ⟨bs, hmap⟩, -⟩
    · rw [hmap, BlockMap.find_modify] at hf
      by_cases hki : k = i
      · rw [if_pos hki] at hf
        cases hold : s.1.file.m_block_map.find k with
        | none => rw [hold] at hf; simp at hf
        | some blk0 =>
          rw [hold] at hf
          simp only [Option.map, Option.some.injEq] at hf
          rw [← hf]
          exact hk k blk0 hold
      · rw [if_neg hki] at hf
        exact hk k blk hf
    · rw [hmap] at hf
      exact hk k blk hf
    · rw [hmap, BlockMap.find_modify] at hf
      by_cases hki : k = i
      · rw [if_pos hki] at hf
        subst hki
        rw [BlockMap.find_set_self] at hf
        simp only [Option.map, Option.some.injEq] at hf
        rw [← hf]
        simp only [Block.new]
        exact Int.mul_tdiv_cancel _ hBS
      · rw [if_neg hki, BlockMap.find_set_ne _ _ _ _ hki] at hf
        exact hk k blk hf
  · rcases hcase with ⟨hin, hmap, hincs⟩ | ⟨hnone, hmap, hincs⟩ | ⟨hnone, ⟨bs, hmap⟩, hincs⟩
    · refine ⟨?_, ?_, ?_⟩
      · intro x hx
        rw [hincs] at hx
        rcases List.mem_append.mp hx with h | h
        · exact Or.inr h
        · left
          have hxi : x = i := by simpa using h
          subst hxi
          rw [hmap, BlockMap.find_modify, if_pos rfl]
          simpa using hin
      · intro x hx
        rw [hmap, BlockMap.find_modify]
        by_cases hxi : x = i
        · rw [if_pos hxi]; simpa using hx
        · rw [if_neg hxi]; exact hx
      · intro x
        have hrc := refcntOf_inc_ref_count s.1.file i x
        have hmap2 : refcntOf (Read_classifyStep s i).1.file x
            = refcntOf (inc_ref_count s.1.file i) x :=
          refcntOf_congr _ _ x (by rw [hmap]; rfl)
        rw [hmap2, hrc, hincs]
        by_cases hxi : x = i
        · subst hxi
          simp [hin, hi]
        · simp [hxi]
    · refine ⟨?_, ?_, ?_⟩
      · intro x hx
        rw [hincs] at hx
        exact Or.inr hx
      · intro x hx
        rw [hmap]; exact hx
      · intro x
        rw [refcntOf_congr _ _ x hmap, hincs]
    · refine ⟨?_, ?_, ?_⟩
      · intro x hx
        rw [hincs] at hx
        rcases List.mem_append.mp hx with h | h
        · exact Or.inr h
        · left
          have hxi : x = i := by simpa using h
          subst hxi
          rw [hmap, BlockMap.find_modify, if_pos rfl, BlockMap.find_set_self]
          rfl
      · intro x hx
        rw [hmap, BlockMap.find_modify]
        by_cases hxi : x = i
        · rw [if_pos hxi, hxi, BlockMap.find_set_self]; rfl
        · rw [if_neg hxi, BlockMap.find_set_ne _ _ _ _ hxi]; exact hx
      · intro x
        unfold refcntOf
        rw [hmap, BlockMap.find_modify, hincs]
        by_cases hxi : x = i
        · subst hxi
          rw [if_pos rfl, BlockMap.find_set_self, hnone]
          simp [hi, Block.new]
        · rw [if_neg hxi, BlockMap.find_set_ne _ _ _ _ hxi]
          simp [hxi]

/-- The classification loop raises the reference count of exactly the blocks
it hands to `inc_ref_count`, each by one; every such block is in the map
afterwards. -/
theorem Read_classify_fold_refcnt (l : List Int) :
    ∀ s : State × ReadLists, l.Nodup → (∀ i ∈ l, i ∉ s.2.incs) →
      s.1.file.m_cfi.GetBufferSize ≠ 0 → s.1.file.keysMatch →
      (∀ x ∈ s.2.incs, (s.1.file.m_block_map.find x).isSome = true) →
      (l.foldl Read_classifyStep s).1.file.keysMatch ∧
      (l.foldl Read_classifyStep s).1.file.m_cfi = s.1.file.m_cfi ∧
      (l.foldl Read_classifyStep s).1.file.m_stopping = s.1.file.m_stopping ∧
      (∀ x ∈ (l.foldl Read_classifyStep s).2.incs,
        ((l.foldl Read_classifyStep s).1.file.m_block_map.find x).isSome = true) ∧
      (∀ x, refcntOf (l.foldl Read_classifyStep s).1.file x
            - (if x ∈ (l.foldl Read_classifyStep s).2.incs then 1 else 0)
          = refcntOf s.1.file x - (if x ∈ s.2.incs then 1 else 0)) := by
  induction l with
  | nil =>
    intro s _ _ _ hk hin
    exact ⟨hk, rfl, rfl, hin, fun _ => rfl⟩
  | cons i l ih =>
    intro s hnd hfresh hBS hk hin
    rw [List.foldl_cons]
    have hi : i ∉ s.2.incs := hfresh i (by simp)
    obtain ⟨a1, a2, a3, a4, a5, a6⟩ := Read_classifyStep_refcnt s i hBS hk hi
    have hnd2 : l.Nodup := (List.nodup_cons.mp hnd).2
    have hil : i ∉ l := (List.nodup_cons.mp hnd).1
    have hfresh2 : ∀ j ∈ l, j ∉ (Read_classifyStep s i).2.incs := by
      intro j hj hmem
      have hjs : j ∉ s.2.incs := hfresh j (by simp [hj])
      rcases Read_classifyStep_incs s i with ⟨e, -⟩ | ⟨e, -⟩
      · rw [e] at hmem
        rcases List.mem_append.mp hmem with h | h
        · exact hjs h
        · have : j = i := by simpa using h
          exact hil (this ▸ hj)
      · rw [e] at hmem
        exact hjs hmem
    have hin2 : ∀ x ∈ (Read_classifyStep s i).2.incs,
        ((Read_classifyStep s i).1.file.m_block_map.find x).isSome = true := by
      intro x hx
      rcases a4 x hx with h | h
      · exact h
      · exact a5 x (hin x h)
    have hBS2 : (Read_classifyStep s i).1.file.m_cfi.GetBufferSize ≠ 0 := by rw [a2]; exact hBS
    obtain ⟨b1, b2, b3, b4, b5⟩ := ih (Read_classifyStep s i) hnd2 hfresh2 hBS2 a1 hin2
    exact ⟨b1, b2.trans a2, b3.trans a3, b4, fun x => (b5 x).trans (a6 x)⟩

/-- The classification phase of `File::Read` raises the reference count of
exactly the blocks on its list `incs`, each by one. -/
theorem Read_classify_refcnt (st : State) (off size : Int)
    (hBS : st.file.m_cfi.GetBufferSize ≠ 0) (hk : st.file.keysMatch) :
    (Read_classify st off size).1.file.keysMatch ∧
    (Read_classify st off size).1.file.m_cfi = st.file.m_cfi ∧
    (Read_classify st off size).1.file.m_stopping = st.file.m_stopping ∧
    (∀ x ∈ (Read_classify st off size).2.incs,
      ((Read_classify st off size).1.file.m_block_map.find x).isSome = true) ∧
    (∀ x, refcntOf (Read_classify st off size).1.file x
        = refcntOf st.file x + (if x ∈ (Read_classify st off size).2.incs then 1 else 0)) := by
  unfold Read_classify Read_classifyRange
  simp only []
  obtain ⟨b1, b2, b3, b4, b5⟩ := Read_classify_fold_refcnt
    (blockRange (idxFirst st.file.m_cfi.GetBufferSize off)
      (idxLast st.file.m_cfi.GetBufferSize off size))
    (st, ReadLists.empty) (blockRange_nodup _ _) (by simp [ReadLists.empty]) hBS hk
    (by simp [ReadLists.empty])
  refine ⟨b1, b2, b3, b4, fun x => ?_⟩
  have := b5 x
  simp only [ReadLists.empty, List.not_mem_nil, if_false, sub_zero] at this
  simp only [ReadLists.empty]
  linarith

theorem ReadBlocksFromDisk_loop_frame (env : ReadEnv) (BS off size : Int) (l : List Int) :
    ∀ (total : Int) (st : State),
      (ReadBlocksFromDisk_loop env BS off size l total st).2.file.m_stopping
        = st.file.m_stopping ∧
      (ReadBlocksFromDisk_loop env BS off size l total st).2.file.m_cfi = st.file.m_cfi := by
  induction l with
  | nil => intro _ _; exact ⟨rfl, rfl⟩
  | cons b l ih =>
    intro total st
    rw [ReadBlocksFromDisk_loop]
    split
    · exact ⟨rfl, rfl⟩
    · obtain ⟨h1, h2⟩ := ih (total + env.diskRead (b * BS + overlapBlkOff b BS off size)
        (overlapSize b BS off size)) (CheckPrefetchStatDisk st b)
      have h3 : (CheckPrefetchStatDisk st b).file.m_stopping = st.file.m_stopping ∧
          (CheckPrefetchStatDisk st b).file.m_cfi = st.file.m_cfi := by
        unfold CheckPrefetchStatDisk
        split
        · split <;> exact ⟨rfl, rfl⟩
        · exact ⟨rfl, rfl⟩
      exact ⟨h1.trans h3.1, h2.trans h3.2⟩

theorem Read_copyFinished_frame (BS off size : Int) (l : List Int) :
    ∀ (bytes_read : Int) (errno : Option Int) (st : State),
      (Read_copyFinished BS off size l bytes_read errno st).2.2.file.m_stopping
        = st.file.m_stopping ∧
      (Read_copyFinished BS off size l bytes_read errno st).2.2.file.m_cfi = st.file.m_cfi := by
  induction l with
  | nil => intro _ _ _; exact ⟨rfl, rfl⟩
  | cons b l ih =>
    intro bytes_read errno st
    rw [Read_copyFinished]
    cases hf : st.file.m_block_map.find b with
    | none => simp only []; exact ih _ _ _
    | some blk =>
      simp only []
      by_cases hok : blk.is_ok = true
      · rw [if_pos hok]
        obtain ⟨h1, h2⟩ := ih (bytes_read + overlapSize (Int.tdiv blk.m_offset BS) BS off size)
          errno (CheckPrefetchStatRAM st blk)
        have h3 : (CheckPrefetchStatRAM st blk).file.m_stopping = st.file.m_stopping ∧
            (CheckPrefetchStatRAM st blk).file.m_cfi = st.file.m_cfi := by
          unfold CheckPrefetchStatRAM
          split
          · split <;> exact ⟨rfl, rfl⟩
          · exact ⟨rfl, rfl⟩
        exact ⟨h1.trans h3.1, h2.trans h3.2⟩
      · rw [if_neg hok]
        exact ⟨rfl, rfl⟩

/-- While `File::Read` waits, the reference counts change only by the
references the delivered completions take: after `n` scans they have grown by
`completionRefs` of the completions delivered before those scans. -/
theorem Read_waitLoop_refcnt (env : ReadEnv) (BS off size : Int) (fuel : Nat) :
    ∀ (pass : Nat) (loc : ReadLocals) (st : State) (loc2 : ReadLocals) (st2 : State),
      Read_waitLoop env BS off size fuel pass loc st = some (loc2, st2) →
      ∃ n, n ≤ fuel ∧
        st2.file.m_stopping = st.file.m_stopping ∧
        st2.file.m_cfi = st.file.m_cfi ∧
        (∀ x, (st2.file.m_block_map.find x).isSome = (st.file.m_block_map.find x).isSome) ∧
        (st.file.keysMatch → st2.file.keysMatch) ∧
        ∀ x, refcntOf st2.file x
          = refcntOf st.file x + completionRefs st.file x (env.responsesFrom pass n) := by
  induction fuel with
  | zero => intro pass loc st loc2 st2 h; simp [Read_waitLoop] at h
  | succ fuel ih =>
    intro pass loc st loc2 st2 h
    rw [Read_waitLoop] at h
    split at h
    · simp only [] at h
      obtain ⟨d1, d2, d3, d4, d5⟩ := deliver_refcntOf (env.responses pass) st
      have hcomb : ∀ (st1 : State),
          st1.file.m_block_map = (deliver st (env.responses pass)).file.m_block_map →
          st1.file.m_stopping = (deliver st (env.responses pass)).file.m_stopping →
          st1.file.m_cfi = (deliver st (env.responses pass)).file.m_cfi →
          ∀ (loc1 : ReadLocals),
          Read_waitLoop env BS off size fuel (pass + 1) loc1 st1 = some (loc2, st2) →
          ∃ n, n ≤ fuel + 1 ∧
            st2.file.m_stopping = st.file.m_stopping ∧
            st2.file.m_cfi = st.file.m_cfi ∧
            (∀ x, (st2.file.m_block_map.find x).isSome
                = (st.file.m_block_map.find x).isSome) ∧
            (st.file.keysMatch → st2.file.keysMatch) ∧
            ∀ x, refcntOf st2.file x
              = refcntOf st.file x + completionRefs st.file x (env.responsesFrom pass n) := by
        intro st1 hmap hstop hcfi loc1 hrec
        obtain ⟨n, hn, e1, e2, e3, e4, e5⟩ := ih _ _ _ _ _ hrec
        have hsome : ∀ x, (st1.file.m_block_map.find x).isSome
            = (st.file.m_block_map.find x).isSome := by
          intro x; rw [hmap]; exact d3 x
        refine ⟨n + 1, by omega, e1.trans (hstop.trans d1), e2.trans (hcfi.trans d2),
          fun x => (e3 x).trans (hsome x),
          fun hk => e4 (keysMatch_congr _ _ hmap hcfi (d4 hk)), fun x => ?_⟩
        rw [e5 x, refcntOf_congr _ _ x hmap, d5 x,
          completionRefs_congr st.file st1.file x _ (hsome x) (hstop.trans d1)]
        simp only [ReadEnv.responsesFrom]
        rw [completionRefs_append]
        ring
      split at h
      · exact hcomb _ rfl rfl rfl _ h
      · exact hcomb _ (Read_copyFinished_map _ _ _ _ _ _ _)
          (Read_copyFinished_frame _ _ _ _ _ _ _).1 (Read_copyFinished_frame _ _ _ _ _ _ _).2 _ h
    · simp only [Option.some.injEq, Prod.mk.injEq] at h
      obtain ⟨-, rfl⟩ := h
      refine ⟨0, Nat.zero_le _, rfl, rfl, fun _ => rfl, fun hk => hk, fun x => ?_⟩
      simp [ReadEnv.responsesFrom, completionRefs_nil]

/-- The effect of `dec_ref_count` on the reference counts: the count of the
block handed over drops by one (a block erased had count 0). -/
theorem dec_ref_count_refcntOf (st : State) (b : Int) (hk : st.file.keysMatch) :
    (dec_ref_count st b).file.keysMatch ∧
    (∀ x, x ≠ b → (dec_ref_count st b).file.m_block_map.find x = st.file.m_block_map.find x) ∧
    ∀ x, refcntOf (dec_ref_count st b).file x
      = refcntOf st.file x
          - (if x = b ∧ (st.file.m_block_map.find b).isSome = true then 1 else 0) := by
  unfold dec_ref_count
  simp only []
  cases hf : st.file.m_block_map.find b with
  | none =>
    have hmod : BlockMap.find (BlockMap.modify st.file.m_block_map b
        (fun x => { x with m_refcnt := x.m_refcnt - 1 })) b = none := by
      rw [BlockMap.find_modify, if_pos rfl, hf]; rfl
    rw [hmod]
    simp only []
    refine ⟨?_, ?_, ?_⟩
    · intro k blk hfk
      simp only [BlockMap.find_modify] at hfk
      by_cases hkb : k = b
      · rw [if_pos hkb, hkb, hf] at hfk; simp at hfk
      · rw [if_neg hkb] at hfk; exact hk k blk hfk
    · intro x hx
      simp only [BlockMap.find_modify, if_neg hx]
    · intro x
      unfold refcntOf
      simp only [BlockMap.find_modify]
      by_cases hx : x = b
      · subst hx; simp [hf]
      · simp [hx]
  | some blk0 =>
    have hkey : Int.tdiv blk0.m_offset st.file.m_cfi.GetBufferSize = b := hk b blk0 hf
    have hmod : BlockMap.find (BlockMap.modify st.file.m_block_map b
        (fun x => { x with m_refcnt := x.m_refcnt - 1 })) b
          = some { blk0 with m_refcnt := blk0.m_refcnt - 1 } := by
      rw [BlockMap.find_modify, if_pos rfl, hf]; rfl
    rw [hmod]
    simp only [File.BufferSize, hkey]
    have hkmod : ∀ k blk, BlockMap.find (BlockMap.modify st.file.m_block_map b
        (fun x => { x with m_refcnt := x.m_refcnt - 1 })) k = some blk →
        Int.tdiv blk.m_offset st.file.m_cfi.GetBufferSize = k := by
      intro k blk hfk
      rw [BlockMap.find_modify] at hfk
      by_cases hkb : k = b
      · rw [if_pos hkb, hkb, hf] at hfk
        simp only [Option.map, Option.some.injEq] at hfk
        rw [← hfk, hkb]; exact hkey
      · rw [if_neg hkb] at hfk; exact hk k blk hfk
    split
    · rename_i hzero
      refine ⟨?_, ?_, ?_⟩
      · intro k blk hfk
        by_cases hkb : k = b
        · rw [hkb, BlockMap.find_erase_self] at hfk; simp at hfk
        · rw [BlockMap.find_erase_ne _ _ _ hkb] at hfk
          exact hkmod k blk hfk
      · intro x hx
        show BlockMap.find (BlockMap.erase _ b) x = _
        rw [BlockMap.find_erase_ne _ _ _ hx, BlockMap.find_modify, if_neg hx]
      · intro x
        unfold refcntOf
        by_cases hx : x = b
        · subst hx
          show (match BlockMap.find (BlockMap.erase _ x) x with
            | some blk => blk.m_refcnt | none => 0) = _
          rw [BlockMap.find_erase_self, hf]
          have h0 : blk0.m_refcnt - 1 = 0 := hzero.1
          simp
          omega
        · show (match BlockMap.find (BlockMap.erase _ b) x with
            | some blk => blk.m_refcnt | none => 0) = _
          rw [BlockMap.find_erase_ne _ _ _ hx, BlockMap.find_modify, if_neg hx]
          simp [hx]
    · refine ⟨hkmod, ?_, ?_⟩
      · intro x hx
        show BlockMap.find (BlockMap.modify _ b _) x = _
        rw [BlockMap.find_modify, if_neg hx]
      · intro x
        unfold refcntOf
        show (match BlockMap.find (BlockMap.modify _ b _) x with
            | some blk => blk.m_refcnt | none => 0) = _
        rw [BlockMap.find_modify]
        by_cases hx : x = b
        · subst hx; simp [hf]
        · simp [hx]

/-- The release phase of `File::Read` lowers the reference count of each
block of its list by one. -/
theorem Read_release_refcnt (l : List Int) :
    ∀ (st : State) (decs : List Int), l.Nodup →
      (∀ b ∈ l, (st.file.m_block_map.find b).isSome = true) → st.file.keysMatch →
      ∀ x, refcntOf (Read_release l st decs).1.file x
        = refcntOf st.file x - (if x ∈ l then 1 else 0) := by
  induction l with
  | nil => intro st decs _ _ _ x; simp [Read_release]
  | cons b l ih =>
    intro st decs hnd hin hk x
    rw [Read_release]
    obtain ⟨a1, a2, a3⟩ := dec_ref_count_refcntOf st b hk
    have hnd2 : l.Nodup := (List.nodup_cons.mp hnd).2
    have hbl : b ∉ l := (List.nodup_cons.mp hnd).1
    have hin2 : ∀ c ∈ l, ((dec_ref_count st b).file.m_block_map.find c).isSome = true := by
      intro c hc
      have hcb : c ≠ b := fun e => hbl (e ▸ hc)
      rw [a2 c hcb]
      exact hin c (by simp [hc])
    rw [ih (dec_ref_count st b) (decs ++ [b]) hnd2 hin2 a1 x, a3 x]
    have hb : (st.file.m_block_map.find b).isSome = true := hin b (by simp)
    by_cases hx : x = b
    · subst hx; simp [hb, hbl]
    · simp [hx]

theorem completionRefs_of_no_completion (f : File) (b : Int) (rs : List (Int × XRootDStatus))
    (h : ∀ q ∈ rs, q.1 ≠ b) : completionRefs f b rs = 0 := by
  unfold completionRefs
  split
  · have : rs.filter (fun r => decide (r.1 = b) && !(r.2.IsOK && f.m_stopping)) = [] := by
      rw [List.filter_eq_nil_iff]
      intro q hq
      simp [h q hq]
    rw [this]; rfl
  · rfl

/-- The phases of a `File::Read` that returns: the state `d` after the disk
reads has the block map of the classification, the wait loop runs from `d`,
the late completions are delivered and the blocks are released. -/
theorem Read_phases (env : ReadEnv) (fuel : Nat) (st : State) (off size : Int) (r : ReadResult)
    (h : Read env fuel st off size = some r) :
    ∃ (d : State) (bytes : Int) (loc : ReadLocals) (st3 : State),
      d.file.m_block_map = (Read_classify st off size).1.file.m_block_map ∧
      d.file.m_stopping = (Read_classify st off size).1.file.m_stopping ∧
      d.file.m_cfi = (Read_classify st off size).1.file.m_cfi ∧
      Read_waitLoop env st.file.m_cfi.GetBufferSize off size fuel 0
        { blks_to_process := (Read_classify st off size).2.blks_to_process,
          blks_processed := [], bytes_read := bytes, errno := none } d = some (loc, st3) ∧
      r.state = (Read_release (loc.blks_processed ++ loc.blks_to_process)
        (deliver st3 env.lateResponses) []).1 ∧
      r.lists = (Read_classify st off size).2 := by
  unfold Read at h
  simp only [] at h
  split at h
  · simp at h
  · rename_i loc st3 hloop
    simp only [Option.some.injEq] at h
    subst h
    refine ⟨_, _, loc, st3, ?_, ?_, ?_, hloop, rfl, rfl⟩
    · split
      · exact ReadBlocksFromDisk_loop_map _ _ _ _ _ _ _
      · rfl
    · split
      · exact (ReadBlocksFromDisk_loop_frame _ _ _ _ _ _ _).1
      · rfl
    · split
      · exact (ReadBlocksFromDisk_loop_frame _ _ _ _ _ _ _).2
      · rfl

/-- Net effect of a `File::Read` on the reference counts: when it returns,
every reference count is what it was before the Read plus the references the
delivered completions took. -/
theorem Read_refcnt (env : ReadEnv) (fuel : Nat) (st : State) (off size : Int) (r : ReadResult)
    (hBS : 0 < st.file.BufferSize) (hk : st.file.keysMatch)
    (h : Read env fuel st off size = some r) :
    ∃ passes, passes ≤ fuel ∧ ∀ b,
      refcntOf r.state.file b
        = refcntOf st.file b
          + completionRefs (Read_classify st off size).1.file b
              (env.responsesFrom 0 passes ++ env.lateResponses) := by
  obtain ⟨d, bytes, loc, st3, hd1, hd2, hd3, hloop, hstate, -⟩ :=
    Read_phases env fuel st off size r h
  obtain ⟨c1, c2, c3, c4, c5⟩ := Read_classify_refcnt st off size (ne_of_gt hBS) hk
  obtain ⟨hnd, hperm⟩ := Read_classify_incs st off size
  obtain ⟨n, hn, w1, w2, w3, w4, w5⟩ := Read_waitLoop_refcnt env _ _ _ _ _ _ _ _ _ hloop
  have hp := Read_waitLoop_perm env _ _ _ _ _ _ _ _ _ hloop
  simp only [List.nil_append] at hp
  have hfinal : (loc.blks_processed ++ loc.blks_to_process).Perm
      (Read_classify st off size).2.incs := hp.trans hperm
  obtain ⟨l1, l2, l3, l4, l5⟩ := deliver_refcntOf env.lateResponses st3
  have hkd : d.file.keysMatch := keysMatch_congr _ _ hd1 hd3 c1
  have hsome3 : ∀ x, (st3.file.m_block_map.find x).isSome
      = ((Read_classify st off size).1.file.m_block_map.find x).isSome := by
    intro x; rw [w3 x, hd1]
  have hin : ∀ b ∈ loc.blks_processed ++ loc.blks_to_process,
      ((deliver st3 env.lateResponses).file.m_block_map.find b).isSome = true := by
    intro b hb
    rw [l3 b, hsome3 b]
    exact c4 b (hfinal.mem_iff.mp hb)
  have hrel := Read_release_refcnt (loc.blks_processed ++ loc.blks_to_process)
    (deliver st3 env.lateResponses) [] (hfinal.nodup_iff.mpr hnd) hin (l4 (w4 hkd))
  refine ⟨n, hn, fun b => ?_⟩
  rw [hstate, hrel b, l5 b, w5 b, refcntOf_congr _ _ b hd1, c5 b, completionRefs_append,
    completionRefs_congr (Read_classify st off size).1.file d.file b _ (by rw [hd1]) hd2,
    completionRefs_congr (Read_classify st off size).1.file st3.file b _ (hsome3 b)
      (w1.trans hd2)]
  have hmem : (b ∈ loc.blks_processed ++ loc.blks_to_process)
      ↔ b ∈ (Read_classify st off size).2.incs := hfinal.mem_iff
  by_cases hb : b ∈ (Read_classify st off size).2.incs
  · rw [if_pos hb, if_pos (hmem.mpr hb)]; ring
  · rw [if_neg hb, if_neg (fun e => hb (hmem.mp e))]; ring

theorem dec_ref_count_cfi (st : State) (b : Int) :
    (dec_ref_count st b).file.m_cfi = st.file.m_cfi := by
  unfold dec_ref_count
  simp only []
  split
  · rfl
  · split <;> rfl

theorem Read_release_keysMatch (l : List Int) :
    ∀ (st : State) (decs : List Int), st.file.keysMatch →
      (Read_release l st decs).1.file.keysMatch ∧
      (Read_release l st decs).1.file.m_cfi = st.file.m_cfi := by
  induction l with
  | nil => intro st decs hk; exact ⟨hk, rfl⟩
  | cons b l ih =>
    intro st decs hk
    rw [Read_release]
    obtain ⟨h1, h2⟩ := ih (dec_ref_count st b) (decs ++ [b]) (dec_ref_count_refcntOf st b hk).1
    exact ⟨h1, h2.trans (dec_ref_count_cfi st b)⟩

/-- A `File::Read` that returns leaves the buffer size alone and every block
of the map under its own key. -/
theorem Read_keysMatch (env : ReadEnv) (fuel : Nat) (st : State) (off size : Int)
    (r : ReadResult) (hBS : 0 < st.file.BufferSize) (hk : st.file.keysMatch)
    (h : Read env fuel st off size = some r) :
    r.state.file.keysMatch ∧ r.state.file.BufferSize = st.file.BufferSize := by
  obtain ⟨d, bytes, loc, st3, hd1, hd2, hd3, hloop, hstate, -⟩ :=
    Read_phases env fuel st off size r h
  obtain ⟨c1, c2, -, -, -⟩ := Read_classify_refcnt st off size (ne_of_gt hBS) hk
  obtain ⟨n, -, -, w2, -, w4, -⟩ := Read_waitLoop_refcnt env _ _ _ _ _ _ _ _ _ hloop
  obtain ⟨-, l2, -, l4, -⟩ := deliver_refcntOf env.lateResponses st3
  have hkd : d.file.keysMatch := keysMatch_congr _ _ hd1 hd3 c1
  obtain ⟨r1, r2⟩ := Read_release_keysMatch (loc.blks_processed ++ loc.blks_to_process)
    (deliver st3 env.lateResponses) [] (l4 (w4 hkd))
  rw [hstate]
  refine ⟨r1, ?_⟩
  unfold File.BufferSize
  rw [r2, l2, w2, hd3, c2]

theorem calmEnv_responsesFrom (n : Nat) : ∀ pass, calmEnv.responsesFrom pass n = [] := by
  induction n with
  | zero => intro pass; rfl
  | succ n ih =>
    intro pass
    show calmEnv.responses pass ++ calmEnv.responsesFrom (pass + 1) n = []
    rw [ih]
    rfl

/-! ## Reference counts under reader traffic -/

/-- A block with at least `held + 1` references survives every sequence of
reader operations that gives back at most `held` of them beyond its own. -/
theorem applyRefOps_keeps (b : Int) (ops : List RefOp) :
    ∀ (held : Nat) (st : State) (blk : Block),
      st.file.m_block_map.find b = some blk →
      (held : Int) + 1 ≤ blk.m_refcnt →
      readersOnly held ops = true →
      ∃ blk2, (applyRefOps b st ops).file.m_block_map.find b = some blk2 ∧
        1 ≤ blk2.m_refcnt ∧ blk2.m_errno = blk.m_errno ∧
        blk2.m_downloaded = blk.m_downloaded ∧
        (applyRefOps b st ops).cache.released = st.cache.released := by
  induction ops with
  | nil =>
    intro held st blk hfind href _
    exact ⟨blk, hfind, by omega, rfl, rfl, rfl⟩
  | cons op ops ih =>
    intro held st blk hfind href hops
    cases op with
    | inc =>
      have hfind2 : (applyRefOp b st RefOp.inc).file.m_block_map.find b
          = some { blk with m_refcnt := blk.m_refcnt + 1 } := by
        simp [applyRefOp, inc_ref_count, BlockMap.find_modify, hfind]
      obtain ⟨blk2, h1, h2, h3, h4, h5⟩ :=
        ih (held + 1) (applyRefOp b st RefOp.inc) _ hfind2
          (by show ((held + 1 : Nat) : Int) + 1 ≤ blk.m_refcnt + 1
              push_cast; omega)
          (by simpa [readersOnly] using hops)
      exact ⟨blk2, by simpa [applyRefOps] using h1, h2, h3, h4,
        by simpa [applyRefOps, applyRefOp] using h5⟩
    | dec =>
      cases held with
      | zero => simp [readersOnly] at hops
      | succ held =>
        have hne : ¬ (blk.m_refcnt - 1 = 0) := by push_cast at href; omega
        have hfind2 : (applyRefOp b st RefOp.dec).file.m_block_map.find b
            = some { blk with m_refcnt := blk.m_refcnt - 1 } := by
          simp [applyRefOp, dec_ref_count, BlockMap.find_modify, hfind, hne]
        have hrel : (applyRefOp b st RefOp.dec).cache.released = st.cache.released := by
          simp [applyRefOp, dec_ref_count, BlockMap.find_modify, hfind, hne]
        obtain ⟨blk2, h1, h2, h3, h4, h5⟩ :=
          ih held (applyRefOp b st RefOp.dec) _ hfind2
            (by show (held : Int) + 1 ≤ blk.m_refcnt - 1
                push_cast at href; omega)
            (by simpa [readersOnly] using hops)
        refine ⟨blk2, by simpa [applyRefOps] using h1, h2, h3, h4, ?_⟩
        simpa [applyRefOps, hrel] using h5

/-! ## Deferred writes -/

theorem WriteBlockToDisk_markSynced_in_sync (f : File) (i : Int)
    (hsync : f.m_in_sync = true) (hcnt : f.m_non_flushed_cnt < 100) :
    WriteBlockToDisk_markSynced f i
      = ({ f with m_writes_during_sync := f.m_writes_during_sync ++ [i] }, false) := by
  unfold WriteBlockToDisk_markSynced
  simp only [hsync, if_true]
  rw [if_neg]
  intro h
  have := h.1
  simp only [] at this
  omega

theorem markSyncedAll_in_sync (idxs : List Int) :
    ∀ (f : File), f.m_in_sync = true → f.m_non_flushed_cnt < 100 →
      markSyncedAll f idxs
        = { f with m_writes_during_sync := f.m_writes_during_sync ++ idxs } := by
  induction idxs with
  | nil => intro f _ _; simp [markSyncedAll]
  | cons i idxs ih =>
    intro f hsync hcnt
    have h := ih { f with m_writes_during_sync := f.m_writes_during_sync ++ [i] } hsync hcnt
    simp only [markSyncedAll, List.foldl_cons] at h ⊢
    rw [WriteBlockToDisk_markSynced_in_sync f i hsync hcnt, h]
    simp

theorem foldl_SetBitWriteCalled (l : List Int) :
    ∀ (cfi : Info) (j : Int),
      (l.foldl (fun c i => c.SetBitWriteCalled i) cfi).m_buff_write_called j
        = (decide (j ∈ l) || cfi.m_buff_write_called j) := by
  induction l with
  | nil => intro cfi j; simp
  | cons a l ih =>
    intro cfi j
    rw [List.foldl_cons, ih]
    by_cases hja : j = a
    · simp [Info.SetBitWriteCalled, hja]
    · simp [Info.SetBitWriteCalled, hja]

/-! ## The claims -/

/-- Claim C1, at a failing input.  A cold two-block file of 10-byte blocks,
the RAM broker denies, `Read(buf, 0, 10)`: block 0 is classified as direct,
the direct read succeeds in full, and Read returns 20, twice the size asked
for, because `direct_size` is added to `bytes_read` both when the direct
requests are sent and when they have arrived. -/
theorem C1_direct_bytes_counted_twice :
    (Read_classify { file := freshFile 10 2, cache := brokerWith [] } 0 10).2.blks_direct = [0] ∧
    (Read calmEnv 1 { file := freshFile 10 2, cache := brokerWith [] } 0 10).map
        (fun r => r.ret) = some 20 := by
  decide

/-- Claim C2, at a failing input.  A cold two-block file of 10-byte blocks,
the RAM broker grants one block and denies the next, `Read(buf, 0, 20)`:
block 0 is requested and waited on, block 1 is read directly.  The remote
read of block 0 fails with errno 5; Read sets `errno` to 5 but returns
9 = -1 + 10, because the size of the direct read is added after the error. -/
theorem C2_block_error_masked_by_direct_read :
    (Read eioEnv 2 { file := freshFile 10 2, cache := brokerWith [true] } 0 20).map
        (fun r => (r.lists.blks_to_process, r.lists.blks_direct, r.errno, r.ret))
      = some ([0], [1], some 5, 9) := by
  decide

/-- Claim C3 as stated, at a request it does not hold for.  Blocks of 4096
bytes, `Read(buf, 2^43, 100)`: the quotient `2^43 / 4096 = 2^31` does not fit
the `const int` that holds it, so `idx_first` and `idx_last` are both `-2^31`;
the one block index of the loop does not overlap the request (`overlap`
returns `false`), and the overlap sizes sum to 0, not to 100. -/
theorem C3_counterexample :
    (0 : Int) < 4096 ∧ (0 : Int) ≤ 2 ^ 43 ∧ (0 : Int) < 100 ∧
    Int.tdiv (2 ^ 43) 4096 = 2 ^ 31 ∧
    idxFirst 4096 (2 ^ 43) = -2 ^ 31 ∧ idxLast 4096 (2 ^ 43) 100 = -2 ^ 31 ∧
    blockRange (idxFirst 4096 (2 ^ 43)) (idxLast 4096 (2 ^ 43) 100) = [-2 ^ 31] ∧
    overlap (idxFirst 4096 (2 ^ 43)) 4096 (2 ^ 43) 100 = none ∧
    ((blockRange (idxFirst 4096 (2 ^ 43)) (idxLast 4096 (2 ^ 43) 100)).map
        (fun i => overlapSize i 4096 (2 ^ 43) 100)).sum = 0 := by
  decide

/-- Claim C3, amended.  For a block size `BS > 0`, a request offset `off ≥ 0`
and a request size `size > 0` whose last block index `(off + size - 1) / BS`
is below `2^31 - 1` (so `idx_first`, `idx_last` and the loop counter of
`File::Read`, which stops at `idx_last + 1`, fit the `int` that holds them),
`idx_first` and `idx_last` are the two quotients, and
every block index `i` between `idx_first = off / BS`
and `idx_last = (off + size - 1) / BS` overlaps the request: `overlap` returns
`true` with a positive size, its slice of the user buffer lies inside
`[0, size)`, its slice of the block lies inside `[0, BS)`, and the bytes come
from absolute file offset `off + user_off` (`i * BS + blk_off = off + user_off`).
The user-buffer slices are consecutive: the first starts at 0, each next one
starts where the previous one ends, the last ends at `size`; slices of
different blocks are disjoint; the sizes sum to `size`. -/
theorem C3_overlap_tiles_request (BS off size : Int) (hBS : 0 < BS) (hoff : 0 ≤ off)
    (hsize : 0 < size) (hint : Int.tdiv (off + size - 1) BS < 2 ^ 31 - 1) :
    idxFirst BS off = Int.tdiv off BS ∧ idxLast BS off size = Int.tdiv (off + size - 1) BS ∧
    (∀ i, idxFirst BS off ≤ i → i ≤ idxLast BS off size →
        (overlap i BS off size).isSome = true ∧
        0 < overlapSize i BS off size ∧
        0 ≤ overlapOff i BS off size ∧
        overlapOff i BS off size + overlapSize i BS off size ≤ size ∧
        0 ≤ overlapBlkOff i BS off size ∧
        overlapBlkOff i BS off size + overlapSize i BS off size ≤ BS ∧
        i * BS + overlapBlkOff i BS off size = off + overlapOff i BS off size) ∧
    overlapOff (idxFirst BS off) BS off size = 0 ∧
    (∀ i, idxFirst BS off ≤ i → i < idxLast BS off size →
        overlapOff (i + 1) BS off size
          = overlapOff i BS off size + overlapSize i BS off size) ∧
    overlapOff (idxLast BS off size) BS off size
        + overlapSize (idxLast BS off size) BS off size = size ∧
    (∀ i j, idxFirst BS off ≤ i → i < j → j ≤ idxLast BS off size →
        overlapOff i BS off size + overlapSize i BS off size ≤ overlapOff j BS off size) ∧
    ((blockRange (idxFirst BS off) (idxLast BS off size)).map
        (fun i => overlapSize i BS off size)).sum = size := by
  have hfit : Int.tdiv (off + size - 1) BS < 2 ^ 31 := by omega
  have hfl := idxFirst_le_idxLast BS off size hBS hoff hsize hfit
  obtain ⟨hf1, hf2⟩ := idxFirst_bounds BS off size hBS hoff hsize hfit
  obtain ⟨hl1, hl2⟩ := idxLast_bounds BS off size hBS hoff hsize hfit
  have hl3 : off + size ≤ idxLast BS off size * BS + BS := by
    have : (idxLast BS off size + 1) * BS = idxLast BS off size * BS + BS := by ring
    omega
  -- successive blocks: the next block starts where this one ends
  have hnext : ∀ i, idxFirst BS off ≤ i → i < idxLast BS off size →
      i * BS + BS ≤ off + size ∧ off ≤ (i + 1) * BS ∧ (i + 1) * BS = i * BS + BS := by
    intro i hlo hlt
    have h1 : (i + 1) * BS ≤ idxLast BS off size * BS :=
      Int.mul_le_mul_of_nonneg_right (by omega) hBS.le
    have h2 : (idxFirst BS off + 1) * BS ≤ (i + 1) * BS :=
      Int.mul_le_mul_of_nonneg_right (by omega) hBS.le
    have h3 : (i + 1) * BS = i * BS + BS := by ring
    refine ⟨by omega, by omega, h3⟩
  refine ⟨?_, ?_, ?_, ?_, ?_, ?_, ?_, ?_⟩
  · rw [(idx_of_fits BS off size hBS hoff hsize hfit).1, Int.tdiv_eq_ediv hoff hBS.le]
  · rw [(idx_of_fits BS off size hBS hoff hsize hfit).2,
      Int.tdiv_eq_ediv (by omega) hBS.le]
  · intro i hlo hhi
    obtain ⟨h, hA, hB⟩ := overlap_in_range BS off size i hBS hoff hsize hfit hlo hhi
    obtain ⟨e1, e2, e3⟩ := overlap_fields BS off size i hBS hoff hsize hfit hlo hhi
    rw [e1, e2, e3, h]
    refine ⟨rfl, ?_, ?_, ?_, ?_, ?_, ?_⟩ <;>
      rcases le_total (i * BS) off with h1 | h1 <;>
      rcases le_total (i * BS + BS) (off + size) with h2 | h2 <;>
      simp only [max_eq_left, max_eq_right, min_eq_left, min_eq_right, h1, h2] <;> omega
  · obtain ⟨e1, -, -⟩ := overlap_fields BS off size _ hBS hoff hsize hfit le_rfl hfl
    rw [e1, max_eq_right hf1]; ring
  · intro i hlo hlt
    obtain ⟨h1, h2, h3⟩ := hnext i hlo hlt
    obtain ⟨e1, -, e3⟩ := overlap_fields BS off size i hBS hoff hsize hfit hlo hlt.le
    obtain ⟨e1b, -, -⟩ := overlap_fields BS off size (i + 1) hBS hoff hsize hfit (by omega) (by omega)
    rw [e1, e3, e1b, min_eq_left h1, max_eq_left h2, h3]; ring
  · obtain ⟨e1, -, e3⟩ := overlap_fields BS off size _ hBS hoff hsize hfit hfl le_rfl
    rw [e1, e3, min_eq_right hl3]; ring
  · intro i j hlo hij hj
    obtain ⟨h1, -, h3⟩ := hnext i hlo (by omega)
    obtain ⟨e1, -, e3⟩ := overlap_fields BS off size i hBS hoff hsize hfit hlo (by omega)
    obtain ⟨e1b, -, -⟩ := overlap_fields BS off size j hBS hoff hsize hfit (by omega) hj
    have h4 : (i + 1) * BS ≤ j * BS := Int.mul_le_mul_of_nonneg_right (by omega) hBS.le
    rw [e1, e3, e1b, min_eq_left h1]
    have : i * BS + BS ≤ max (j * BS) off := le_trans (by omega) (le_max_left _ _)
    omega
  · unfold blockRange
    have hcast : (((idxLast BS off size + 1 - idxFirst BS off).toNat : Nat) : Int)
        = idxLast BS off size + 1 - idxFirst BS off := Int.toNat_of_nonneg (by omega)
    rw [sum_overlapSize_range BS off size hBS hoff hsize hfit _ (by rw [hcast]; omega), hcast]
    unfold cumBytes
    have e : (idxFirst BS off + (idxLast BS off size + 1 - idxFirst BS off)) * BS
        = idxLast BS off size * BS + BS := by ring
    rw [e, min_eq_right hl3, max_eq_left (by omega)]; ring

/-- Claim C3 at a concrete request: blocks of 10 bytes, offset 5, size 20. -/
theorem C3_overlap_tiles_request_witness :
    (0 : Int) < 10 ∧ (0 : Int) ≤ 5 ∧ (0 : Int) < 20 ∧ Int.tdiv (5 + 20 - 1) 10 < 2 ^ 31 - 1 ∧
    overlapOff (idxFirst 10 5) 10 5 20 = 0 ∧
    ((blockRange (idxFirst 10 5) (idxLast 10 5 20)).map
        (fun i => overlapSize i 10 5 20)).sum = 20 :=
  ⟨by decide, by decide, by decide, by decide,
    (C3_overlap_tiles_request 10 5 20 (by decide) (by decide) (by decide) (by decide)).2.2.2.1,
    (C3_overlap_tiles_request 10 5 20 (by decide) (by decide) (by decide)
      (by decide)).2.2.2.2.2.2.2⟩

/-- Claim C4.  Whenever `File::Read` returns, whatever the broker, the disk,
the remote completions and the direct reads did (normal completion, a block
error, a disk read error), the blocks it handed to `dec_ref_count` are the
blocks it handed to `inc_ref_count` during classification, each exactly once:
the two call lists are permutations of one another and have no repetition.
On a file with `BufferSize() > 0` whose map holds every block under its own
key, this is a statement on `m_refcnt`: the classification raises the
reference count of exactly the blocks on `incs`, by one each, and when Read
has returned every reference count is what it was before the Read plus the
references that `ProcessBlockResponse` took for the completions delivered
meanwhile (before the `passes` scans of the wait loop and before the
release); so the count of a block that got no completion is what it was,
and Read itself has changed no count.  The two conditions on the file hold
again when Read has returned.  And Read does return (within `fuel`
passes of its wait loop) when every block it waits on is finished already or
gets its completion before one of the first `fuel - 1` scans. -/
theorem C4_refcount_conservation (env : ReadEnv) (fuel : Nat) (st : State)
    (iUserOff iUserSize : Int) :
    (∀ r : ReadResult, Read env fuel st iUserOff iUserSize = some r →
      r.decs.Perm r.lists.incs ∧ r.lists.incs.Nodup ∧ r.decs.Nodup ∧
      ∀ b, r.decs.count b = r.lists.incs.count b) ∧
    (0 < st.file.BufferSize → st.file.keysMatch →
      ∀ r : ReadResult, Read env fuel st iUserOff iUserSize = some r →
        (∀ b, refcntOf (Read_classify st iUserOff iUserSize).1.file b
            = refcntOf st.file b + (if b ∈ r.lists.incs then 1 else 0)) ∧
        ∃ passes, passes ≤ fuel ∧ ∀ b,
          refcntOf r.state.file b
            = refcntOf st.file b
              + completionRefs (Read_classify st iUserOff iUserSize).1.file b
                  (env.responsesFrom 0 passes ++ env.lateResponses) ∧
          ((∀ q ∈ env.responsesFrom 0 passes ++ env.lateResponses, q.1 ≠ b) →
            refcntOf r.state.file b = refcntOf st.file b)) ∧
    (0 < st.file.BufferSize → st.file.keysMatch →
      ∀ r : ReadResult, Read env fuel st iUserOff iUserSize = some r →
        0 < r.state.file.BufferSize ∧ r.state.file.keysMatch) ∧
    (∀ N : Nat, N + 2 ≤ fuel →
      (∀ n, ∀ q ∈ env.responses n, q.2.mapsToErrno) →
      (∀ b ∈ (Read_classify st iUserOff iUserSize).2.blks_to_process,
        blockFinished (Read_classify st iUserOff iUserSize).1.file b = true ∨
          ∃ n, n ≤ N ∧ ∃ s, (b, s) ∈ env.responses n) →
      ∃ r : ReadResult, Read env fuel st iUserOff iUserSize = some r) := by
  refine ⟨?_, ?_, ?_, ?_⟩
  · intro r h
    unfold Read at h
    simp only [] at h
    split at h
    · simp at h
    · rename_i loc st3 hloop
      simp only [Option.some.injEq] at h
      subst h
      simp only [Read_release_decs, List.nil_append]
      obtain ⟨hnd, hperm⟩ := Read_classify_incs st iUserOff iUserSize
      have hp := Read_waitLoop_perm env _ _ _ _ _ _ _ _ _ hloop
      simp only [List.nil_append] at hp
      have hfinal := hp.trans hperm
      exact ⟨hfinal, hnd, hfinal.nodup_iff.mpr hnd, fun b => hfinal.count_eq b⟩
  · intro hBS hk r h
    obtain ⟨-, -, -, -, -, -, -, -, -, hlists⟩ := Read_phases env fuel st iUserOff iUserSize r h
    obtain ⟨-, -, -, -, c5⟩ :=
      Read_classify_refcnt st iUserOff iUserSize (ne_of_gt hBS) hk
    obtain ⟨passes, hp, hall⟩ := Read_refcnt env fuel st iUserOff iUserSize r hBS hk h
    refine ⟨fun b => ?_, passes, hp, fun b => ⟨hall b, fun hno => ?_⟩⟩
    · rw [c5 b, hlists]
    · rw [hall b, completionRefs_of_no_completion _ b _ hno, add_zero]
  · intro hBS hk r h
    obtain ⟨h1, h2⟩ := Read_keysMatch env fuel st iUserOff iUserSize r hBS hk h
    exact ⟨by rw [h2]; exact hBS, h1⟩
  · intro N hN hgood hserved
    obtain ⟨r, hr⟩ := Option.isSome_iff_exists.mp
      (Read_returns env N st iUserOff iUserSize hgood hserved)
    obtain ⟨k, rfl⟩ := Nat.exists_eq_add_of_le hN
    exact ⟨r, Read_fuel_mono env (N + 2) k st iUserOff iUserSize r hr⟩

/-- Claim C4 at two concrete runs.  A cold three-block file, two blocks
granted and one read directly, `Read(buf, 5, 20)`; block 0 completes, block 1
fails, Read stops on the error and releases both blocks: both are left with
reference count 1, the reference `ProcessBlockResponse` took for each of the
two completions, and Read has kept none.  And a one-block file whose block 0
is resident with reference count 1, `Read(buf, 0, 10)` while no completion
arrives: Read returns the 10 bytes and the count is 1 again. -/
theorem C4_refcount_conservation_witness :
    ((0 : Int) < (freshFile 10 3).BufferSize ∧ (freshFile 10 3).keysMatch ∧
      ∃ r, Read mixedEnv 5 { file := freshFile 10 3, cache := brokerWith [true, true] } 5 20
          = some r ∧
        r.ret = 4 ∧ r.decs = [0, 1] ∧ r.decs.Perm r.lists.incs ∧
        refcntOf r.state.file 0 = 1 ∧ refcntOf r.state.file 1 = 1 ∧
        ∃ passes, passes ≤ 5 ∧ ∀ b,
          refcntOf r.state.file b
            = refcntOf (freshFile 10 3) b
              + completionRefs
                  (Read_classify { file := freshFile 10 3, cache := brokerWith [true, true] }
                    5 20).1.file b
                  (mixedEnv.responsesFrom 0 passes ++ mixedEnv.lateResponses)) ∧
    ((0 : Int) < residentFetchedFile.BufferSize ∧ residentFetchedFile.keysMatch ∧
      refcntOf residentFetchedFile 0 = 1 ∧
      ∃ r, Read calmEnv 2 { file := residentFetchedFile, cache := brokerWith [] } 0 10
          = some r ∧
        r.ret = 10 ∧ r.lists.incs = [0] ∧ r.decs = [0] ∧ refcntOf r.state.file 0 = 1) := by
  constructor
  · have hBS : (0 : Int) < (freshFile 10 3).BufferSize := by decide
    have hk : (freshFile 10 3).keysMatch := by
      intro k blk hf
      simp [freshFile, BlockMap.find] at hf
    have hsome : (Read mixedEnv 5
        { file := freshFile 10 3, cache := brokerWith [true, true] } 5 20).map
          (fun r => (r.ret, r.decs, refcntOf r.state.file 0, refcntOf r.state.file 1))
            = some (4, [0, 1], 1, 1) := by decide
    refine ⟨hBS, hk, ?_⟩
    cases h : Read mixedEnv 5
        { file := freshFile 10 3, cache := brokerWith [true, true] } 5 20 with
    | none => rw [h] at hsome; exact absurd hsome (by simp)
    | some r =>
      rw [h] at hsome
      have hpair : (r.ret, r.decs, refcntOf r.state.file 0, refcntOf r.state.file 1)
          = (4, [0, 1], 1, 1) := Option.some.inj hsome
      obtain ⟨passes, hp, hall⟩ :=
        ((C4_refcount_conservation mixedEnv 5 _ 5 20).2.1 hBS hk r h).2
      exact ⟨r, rfl, congrArg Prod.fst hpair, congrArg (fun p => p.2.1) hpair,
        ((C4_refcount_conservation mixedEnv 5 _ 5 20).1 r h).1,
        congrArg (fun p => p.2.2.1) hpair, congrArg (fun p => p.2.2.2) hpair,
        passes, hp, fun b => (hall b).1⟩
  · have hBS : (0 : Int) < residentFetchedFile.BufferSize := by decide
    have hk : residentFetchedFile.keysMatch := by
      intro k blk hf
      simp only [residentFetchedFile, BlockMap.find] at hf
      by_cases hk0 : (0 : Int) = k
      · rw [if_pos hk0] at hf
        rw [← hk0, ← Option.some.inj hf]
        decide
      · rw [if_neg hk0] at hf
        exact absurd hf (by simp)
    have h1 : refcntOf residentFetchedFile 0 = 1 := by decide
    have hsome : (Read calmEnv 2
        { file := residentFetchedFile, cache := brokerWith [] } 0 10).map
          (fun r => (r.ret, r.lists.incs, r.decs)) = some (10, [0], [0]) := by decide
    refine ⟨hBS, hk, h1, ?_⟩
    cases h : Read calmEnv 2 { file := residentFetchedFile, cache := brokerWith [] } 0 10 with
    | none => rw [h] at hsome; exact absurd hsome (by simp)
    | some r =>
      rw [h] at hsome
      have htriple : (r.ret, r.lists.incs, r.decs) = (10, [0], [0]) := Option.some.inj hsome
      obtain ⟨passes, -, hall⟩ :=
        ((C4_refcount_conservation calmEnv 2 _ 0 10).2.1 hBS hk r h).2
      have hquiet : ∀ q ∈ calmEnv.responsesFrom 0 passes ++ calmEnv.lateResponses,
          q.1 ≠ 0 := by
        intro q hq
        rw [calmEnv_responsesFrom] at hq
        simp [calmEnv] at hq
      exact ⟨r, rfl, congrArg Prod.fst htriple, congrArg (fun p => p.2.1) htriple,
        congrArg (fun p => p.2.2) htriple, ((hall 0).2 hquiet).trans h1⟩

/-- Claim C5, at a failing input.  `File::Prefetch` on a cold one-block file
while the RAM broker denies: the block is put into the map although no grant
was given, so there is one resident block with zero grants outstanding;
`File::Read` in the same situation does not insert the block. -/
theorem C5_prefetch_inserts_without_grant :
    (Prefetch { file := freshFile 10 1, cache := brokerWith [false] }).file.m_block_map.length = 1 ∧
    (Prefetch { file := freshFile 10 1, cache := brokerWith [false] }).cache.granted = 0 ∧
    (Prefetch { file := freshFile 10 1, cache := brokerWith [false] }).cache.released = 0 ∧
    (Read_classify { file := freshFile 10 1, cache := brokerWith [false] } 0 10).1.file.m_block_map
      = [] := by
  decide

/-- Claim C6.  Let block `b` be in the map with a reference count that is at
least the number `held` of references held by readers (`held = 0` when no
Read is running), and let `ProcessBlockResponse` handle a failed remote read
with a nonzero errno.  Then the block is in the map, `is_finished` and not
`is_ok`, carries that errno, and its reference count grew by one; and after
every initial part of every sequence of reader operations on it (each
decrement giving back a reference a Read took before) the block is still in
the map with reference count at least 1, still failed with the same errno,
and `RAMBlockReleased` has not been called. -/
theorem C6_failed_block_stays_resident (st : State) (b : Int) (blk : Block)
    (status : XRootDStatus) (held : Nat)
    (hfind : st.file.m_block_map.find b = some blk)
    (hfail : status.IsOK = false) (herr : status.posixErrno ≠ 0)
    (hheld : (held : Int) ≤ blk.m_refcnt) :
    (∃ blk1, (ProcessBlockResponse st b status).file.m_block_map.find b = some blk1 ∧
        blk1.is_finished = true ∧ blk1.is_ok = false ∧
        blk1.m_errno = status.posixErrno ∧ blk1.m_refcnt = blk.m_refcnt + 1) ∧
    ∀ (ops : List RefOp) (n : Nat), readersOnly held ops = true →
      ∃ blk2, (applyRefOps b (ProcessBlockResponse st b status) (ops.take n)).file.m_block_map.find b
          = some blk2 ∧
        1 ≤ blk2.m_refcnt ∧ blk2.is_finished = true ∧ blk2.is_ok = false ∧
        blk2.m_errno = status.posixErrno ∧
        (applyRefOps b (ProcessBlockResponse st b status) (ops.take n)).cache.released
          = st.cache.released := by
  have hfind1 : (ProcessBlockResponse st b status).file.m_block_map.find b
      = some { blk.set_error_and_free status.posixErrno with m_refcnt := blk.m_refcnt + 1 } := by
    simp [ProcessBlockResponse, hfail, inc_ref_count, BlockMap.find_modify, hfind,
      Block.set_error_and_free]
  have hrel : (ProcessBlockResponse st b status).cache.released = st.cache.released := by
    simp [ProcessBlockResponse, hfail]
  have hfin : ∀ x : Block, x.m_errno = status.posixErrno → x.is_finished = true ∧ x.is_ok = false := by
    intro x hx
    simp [Block.is_finished, Block.is_ok, hx, herr]
  refine ⟨⟨_, hfind1, (hfin _ rfl).1, (hfin _ rfl).2, rfl, rfl⟩, ?_⟩
  intro ops n hops
  have htake : ∀ (l : List RefOp) (h n : Nat), readersOnly h l = true →
      readersOnly h (l.take n) = true := by
    intro l
    induction l with
    | nil => intro h n _; simp [readersOnly]
    | cons o l ihl =>
      intro h n hl
      cases n with
      | zero => simp [readersOnly]
      | succ n =>
        cases o with
        | inc => simp only [List.take_succ_cons, readersOnly] at hl ⊢; exact ihl _ _ hl
        | dec =>
          cases h with
          | zero => simp [readersOnly] at hl
          | succ h => simp only [List.take_succ_cons, readersOnly] at hl ⊢; exact ihl _ _ hl
  obtain ⟨blk2, h1, h2, h3, _, h5⟩ :=
    applyRefOps_keeps b (ops.take n) held (ProcessBlockResponse st b status) _ hfind1
      (by simp only [Block.set_error_and_free]; omega) (htake ops held n hops)
  have h3b : blk2.m_errno = status.posixErrno := by rw [h3]; rfl
  exact ⟨blk2, h1, h2, (hfin _ h3b).1, (hfin _ h3b).2, h3b, by rw [h5, hrel]⟩

/-- Claim C6 at a concrete run: the read of block 0 fails with errno 5 while one
reader waits for it; that reader releases it and a later Read takes and
releases it. -/
theorem C6_failed_block_stays_resident_witness :
    waitingReaderState.file.m_block_map.find 0
      = some { Block.new 0 10 false with m_refcnt := 1 } ∧
    ∃ blk2, (applyRefOps 0
          (ProcessBlockResponse waitingReaderState 0 { IsOK := false, posixErrno := 5 })
          ([RefOp.dec, RefOp.inc, RefOp.dec].take 3)).file.m_block_map.find 0 = some blk2 ∧
        1 ≤ blk2.m_refcnt ∧ blk2.is_finished = true ∧ blk2.is_ok = false ∧
        blk2.m_errno = 5 ∧
        (applyRefOps 0
          (ProcessBlockResponse waitingReaderState 0 { IsOK := false, posixErrno := 5 })
          ([RefOp.dec, RefOp.inc, RefOp.dec].take 3)).cache.released
            = waitingReaderState.cache.released :=
  ⟨by decide,
    (C6_failed_block_stays_resident waitingReaderState 0
      { Block.new 0 10 false with m_refcnt := 1 } { IsOK := false, posixErrno := 5 } 1
      (by decide) (by decide) (by decide) (by decide)).2
      [RefOp.dec, RefOp.inc, RefOp.dec] 3 (by decide)⟩

/-- Claim C7, at a failing input.  The first `Write` of a 4-byte block returns
-1 with errno 5 (not EINTR): the loop is left, nothing was written, and
`fetched[0]` is set all the same. -/
theorem C7_fetched_set_after_write_error :
    fourByteFile.m_cfi.TestBit 0 = false ∧
    (WriteBlockToDisk failingWrites { file := fourByteFile, cache := brokerWith [] } 0).1.file.m_cfi.TestBit 0
      = true ∧
    [0, 1, 2, 3].map
      (WriteBlockToDisk failingWrites { file := fourByteFile, cache := brokerWith [] } 0).1.file.m_output
      = [0, 0, 0, 0] := by
  decide

/-- Claim C8, at a failing input.  A 4-byte block with buffer
`[11, 22, 33, 44]` is written by two short writes of two bytes: the second
write stores the tail `[33, 44]` at the file offset of the first (the
variable `buffer_offset` is never advanced), `fetched[0]` is set and the
data file holds `[33, 44, 0, 0]`. -/
theorem C8_retry_overwrites_block_start :
    (WriteBlockToDisk shortWrites { file := fourByteFile, cache := brokerWith [] } 0).1.file.m_cfi.TestBit 0
      = true ∧
    [0, 1, 2, 3].map
      (WriteBlockToDisk shortWrites { file := fourByteFile, cache := brokerWith [] } 0).1.file.m_output
      = [33, 44, 0, 0] ∧
    fourByteFile.m_block_map.find 0
      = some { m_buff := [11, 22, 33, 44], m_offset := 0, m_refcnt := 1, m_errno := 0,
               m_downloaded := true, m_prefetch := false } := by
  decide

/-- Claim C9 as stated fails.  In a sync with `non_flushed_cnt = 100` on a
complete file, the bookkeeping step of one write resets `non_flushed_cnt` to 0
while `in_sync` holds; and from a sync in which one write is already
deferred, one more step and the completion of `Sync` leave
`non_flushed_cnt = 2`, not 1. -/
theorem C9_counterexample :
    (syncingFullFile.m_in_sync = true ∧
      (markSyncedAll syncingFullFile [0]).m_in_sync = true ∧
      syncingFullFile.m_non_flushed_cnt = 100 ∧
      (markSyncedAll syncingFullFile [0]).m_non_flushed_cnt = 0) ∧
    (syncingFile.m_in_sync = true ∧
      ([0] : List Int).length = 1 ∧
      (Sync (markSyncedAll syncingFile [0])).m_non_flushed_cnt = 2) := by
  decide

/-- Claim C9, amended.  Start from a state with `in_sync = true` and
`non_flushed_cnt < 100`.  During every sequence of "set bit synced" steps of
`WriteBlockToDisk` for indices `i1..ik`, after each step `in_sync` still
holds, no `writeCalled[]` bit and not `non_flushed_cnt` has changed, and the
indices have been appended to `writes_during_sync`.  After `Sync` the set
bits of `writeCalled[]` are those set before together with the indices
deferred before and `i1..ik`, `writes_during_sync` is empty, `in_sync` is
false and `non_flushed_cnt` is `k` plus the number of indices that were
already deferred in the starting state. -/
theorem C9_sync_barrier (f : File) (idxs : List Int)
    (hsync : f.m_in_sync = true) (hcnt : f.m_non_flushed_cnt < 100) :
    (∀ n : Nat,
        (markSyncedAll f (idxs.take n)).m_in_sync = true ∧
        (markSyncedAll f (idxs.take n)).m_cfi.m_buff_write_called
          = f.m_cfi.m_buff_write_called ∧
        (markSyncedAll f (idxs.take n)).m_non_flushed_cnt = f.m_non_flushed_cnt ∧
        (markSyncedAll f (idxs.take n)).m_writes_during_sync
          = f.m_writes_during_sync ++ idxs.take n) ∧
    (∀ j, (Sync (markSyncedAll f idxs)).m_cfi.m_buff_write_called j = true ↔
        (j ∈ f.m_writes_during_sync ∨ j ∈ idxs ∨ f.m_cfi.m_buff_write_called j = true)) ∧
    (Sync (markSyncedAll f idxs)).m_writes_during_sync = [] ∧
    (Sync (markSyncedAll f idxs)).m_in_sync = false ∧
    (Sync (markSyncedAll f idxs)).m_non_flushed_cnt
      = (f.m_writes_during_sync.length : Int) + (idxs.length : Int) := by
  refine ⟨?_, ?_, ?_, ?_, ?_⟩
  · intro n
    rw [markSyncedAll_in_sync _ f hsync hcnt]
    exact ⟨hsync, rfl, rfl, rfl⟩
  · intro j
    rw [markSyncedAll_in_sync _ f hsync hcnt]
    simp only [Sync, Sync_promote, foldl_SetBitWriteCalled]
    simp [or_assoc]
  · rfl
  · rfl
  · rw [markSyncedAll_in_sync _ f hsync hcnt]
    simp [Sync, Sync_promote]

/-- Claim C9, amended, at a concrete state: a sync with one write deferred already
and two more bookkeeping steps. -/
theorem C9_sync_barrier_witness :
    syncingFile.m_in_sync = true ∧ syncingFile.m_non_flushed_cnt < 100 ∧
    (Sync (markSyncedAll syncingFile [0, 1])).m_in_sync = false ∧
    (Sync (markSyncedAll syncingFile [0, 1])).m_non_flushed_cnt
      = ((syncingFile.m_writes_during_sync.length : Nat) : Int)
        + ((([0, 1] : List Int).length : Nat) : Int) :=
  ⟨by decide, by decide,
    (C9_sync_barrier syncingFile [0, 1] (by decide) (by decide)).2.2.2.1,
    (C9_sync_barrier syncingFile [0, 1] (by decide) (by decide)).2.2.2.2⟩

/-- Claim C18 as stated fails.  For block 0 of size 10 and the empty request at
offset 5 (`req_size = 0`), `overlap` returns `true` with size 0, while
`max(0, 5) < min(10, 5)` does not hold. -/
theorem C18_counterexample :
    overlap 0 10 5 0 = some (0, 5, 0) ∧
    ¬ (max ((0 : Int) * 10) 5 < min (((0 : Int) + 1) * 10) (5 + 0)) := by
  decide

/-- Claim C18, amended.  For every block index `i ≥ 0`, block size `BS > 0`,
request offset `req_off ≥ 0` and request size `req_size > 0`, `overlap` returns
`true` iff `max(i*BS, req_off) < min((i+1)*BS, req_off+req_size)`, and when it
returns `true` its outputs are
`size = min((i+1)*BS, req_off+req_size) - max(i*BS, req_off)`,
user offset `max(i*BS, req_off) - req_off` and block offset
`max(i*BS, req_off) - i*BS`, with `size > 0`, `0 ≤` user offset, user offset
`+ size ≤ req_size`, `0 ≤` block offset and block offset `+ size ≤ BS`. -/
theorem C18_overlap_closed_form (i BS req_off req_size : Int) (hi : 0 ≤ i) (hBS : 0 < BS)
    (hoff : 0 ≤ req_off) (hsize : 0 < req_size) :
    ((overlap i BS req_off req_size).isSome = true ↔
      max (i * BS) req_off < min ((i + 1) * BS) (req_off + req_size)) ∧
    ∀ off blk_off size : Int, overlap i BS req_off req_size = some (off, blk_off, size) →
      size = min ((i + 1) * BS) (req_off + req_size) - max (i * BS) req_off ∧
      off = max (i * BS) req_off - req_off ∧
      blk_off = max (i * BS) req_off - i * BS ∧
      0 < size ∧ 0 ≤ off ∧ off + size ≤ req_size ∧ 0 ≤ blk_off ∧ blk_off + size ≤ BS := by
  have _ := hi
  have _ := hoff
  have hend : (i + 1) * BS = i * BS + BS := by ring
  rw [hend]
  unfold overlap
  simp only []
  by_cases hc : req_off < i * BS + BS ∧ req_off + req_size > i * BS
  · rw [if_pos hc]
    obtain ⟨h1, h2⟩ := hc
    have hlt : max (i * BS) req_off < min (i * BS + BS) (req_off + req_size) := by
      rw [max_lt_iff, lt_min_iff, lt_min_iff]
      exact ⟨⟨by omega, by omega⟩, ⟨h1, by omega⟩⟩
    refine ⟨⟨fun _ => hlt, fun _ => rfl⟩, ?_⟩
    intro off blk_off size h
    simp only [Option.some.injEq, Prod.mk.injEq] at h
    obtain ⟨rfl, rfl, rfl⟩ := h
    have ha : i * BS ≤ max (i * BS) req_off := le_max_left _ _
    have hb : req_off ≤ max (i * BS) req_off := le_max_right _ _
    have hc2 : min (i * BS + BS) (req_off + req_size) ≤ i * BS + BS := min_le_left _ _
    have hd : min (i * BS + BS) (req_off + req_size) ≤ req_off + req_size := min_le_right _ _
    refine ⟨rfl, rfl, rfl, ?_, ?_, ?_, ?_, ?_⟩ <;> omega
  · rw [if_neg hc]
    refine ⟨⟨fun h => absurd h (by simp), ?_⟩, fun _ _ _ h => absurd h (by simp)⟩
    intro hlt
    rw [max_lt_iff, lt_min_iff, lt_min_iff] at hlt
    exact absurd ⟨hlt.2.1, by omega⟩ hc

/-- Claim C18, amended, at a concrete request: block 1 of size 10, request of
20 bytes at offset 5. -/
theorem C18_overlap_closed_form_witness :
    overlap 1 10 5 20 = some (5, 0, 10) ∧
    ((overlap 1 10 5 20).isSome = true ↔
      max ((1 : Int) * 10) 5 < min (((1 : Int) + 1) * 10) (5 + 20)) :=
  ⟨by decide,
    (C18_overlap_closed_form 1 10 5 20 (by decide) (by decide) (by decide) (by decide)).1⟩

/-- Claim C19, at a failing input.  After two calls of `File::Prefetch` (two
prefetch reads) a reader consumes the prefetched block 0 from RAM: the hit
counter is 1, the read counter 2, and the score is the integer quotient
`1 / 2 = 0`, not the ratio 1/2.  A following hit on the prefetched block 2 read
from disk raises the hit counter to 2 and leaves the score at 0, because
`CheckPrefetchStatDisk` does not recompute it; the ratio is 1. -/
theorem C19_score_is_not_the_ratio :
    twicePrefetched.file.m_block_map.find 0 = some (Block.new 0 10 true) ∧
    (CheckPrefetchStatRAM twicePrefetched (Block.new 0 10 true)).file.m_prefetchHitCnt = 1 ∧
    (CheckPrefetchStatRAM twicePrefetched (Block.new 0 10 true)).file.m_prefetchReadCnt = 2 ∧
    GetPrefetchScore (CheckPrefetchStatRAM twicePrefetched (Block.new 0 10 true)).file = 0 ∧
    (CheckPrefetchStatDisk
      (CheckPrefetchStatRAM twicePrefetched (Block.new 0 10 true)) 2).file.m_prefetchHitCnt = 2 ∧
    (CheckPrefetchStatDisk
      (CheckPrefetchStatRAM twicePrefetched (Block.new 0 10 true)) 2).file.m_prefetchReadCnt = 2 ∧
    GetPrefetchScore (CheckPrefetchStatDisk
      (CheckPrefetchStatRAM twicePrefetched (Block.new 0 10 true)) 2).file = 0 := by
  decide

end XrdFileCache

namespace XrdCl

/-! ## The offset allocator -/

theorem toUInt64_of_nonneg (x : Int) (h0 : 0 ≤ x) (h1 : x < 2 ^ 64) :
    toUInt64 x = x.toNat := by
  unfold toUInt64
  rw [Int.emod_eq_of_lt h0 h1]

theorem toUInt64_lt (x : Int) : toUInt64 x < 2 ^ 64 := by
  unfold toUInt64
  have h1 : (0 : Int) ≤ x % 2 ^ 64 := Int.emod_nonneg _ (by norm_num)
  have h2 : x % 2 ^ 64 < (2 ^ 64 : Int) := Int.emod_lt_of_pos _ (by norm_num)
  omega

/-- The block handed out and the new cursor when the file size is bound, the
cursor is inside the file and the 64-bit sum `pOffset + pBlockSize` does not
wrap. -/
theorem GetBlock_bound (c : XCpCtx) (hF : 0 ≤ c.pFileSize) (hF63 : c.pFileSize < 2 ^ 63)
    (hO : (c.pOffset : Int) ≤ c.pFileSize) (hB : c.pOffset + c.pBlockSize < 2 ^ 64) :
    c.GetBlock = ((c.pOffset, min c.pBlockSize (c.pFileSize.toNat - c.pOffset)),
      { c with pOffset := c.pOffset + min c.pBlockSize (c.pFileSize.toNat - c.pOffset) }) := by
  have hconv : toUInt64 c.pFileSize = c.pFileSize.toNat :=
    toUInt64_of_nonneg _ hF (by omega)
  have hsub : toUInt64 ((c.pFileSize.toNat : Int) - (c.pOffset : Int))
      = c.pFileSize.toNat - c.pOffset := by
    rw [toUInt64_of_nonneg _ (by omega) (by omega)]
    omega
  unfold XCpCtx.GetBlock
  simp only [hconv, Nat.mod_eq_of_lt hB]
  by_cases hgt : c.pOffset + c.pBlockSize > c.pFileSize.toNat
  · rw [if_pos hgt, hsub]
    have hmin : min c.pBlockSize (c.pFileSize.toNat - c.pOffset)
        = c.pFileSize.toNat - c.pOffset := by
      apply min_eq_right; omega
    rw [hmin, Nat.mod_eq_of_lt (by omega)]
  · rw [if_neg hgt]
    have hmin : min c.pBlockSize (c.pFileSize.toNat - c.pOffset) = c.pBlockSize := by
      apply min_eq_left; omega
    rw [hmin, Nat.mod_eq_of_lt hB]

theorem SetFileSize_unbound (c : XCpCtx) (size : Int) (hu : c.pFileSize < 0)
    (h0 : 0 ≤ size) (h63 : size < 2 ^ 63) :
    c.SetFileSize size
      = { c with pFileSize := size,
                 pBlockSize := max (min c.pBlockSize (size.toNat / c.pParallelSrc))
                   c.pChunkSize } := by
  have hconv : toUInt64 size = size.toNat := toUInt64_of_nonneg _ h0 (by omega)
  have hdiv : toUInt64 (Int.tdiv size (c.pParallelSrc : Int)) = size.toNat / c.pParallelSrc := by
    rw [Int.tdiv_eq_ediv h0 (Int.natCast_nonneg _)]
    have hle : size / (c.pParallelSrc : Int) ≤ size :=
      Int.ediv_le_self _ h0
    have hnn : 0 ≤ size / (c.pParallelSrc : Int) :=
      Int.ediv_nonneg h0 (Int.natCast_nonneg _)
    rw [toUInt64_of_nonneg _ hnn (by omega)]
    have : size = (size.toNat : Int) := (Int.toNat_of_nonneg h0).symm
    conv_lhs => rw [this]
    rw [← Int.natCast_div, Int.toNat_natCast]
  unfold XCpCtx.SetFileSize
  rw [if_pos ⟨hu, h0⟩]
  simp only [hconv, hdiv]
  congr 1
  by_cases h1 : c.pBlockSize > size.toNat / c.pParallelSrc
  · rw [if_pos h1, min_eq_right (le_of_lt h1)]
    by_cases h2 : size.toNat / c.pParallelSrc < c.pChunkSize
    · rw [if_pos h2, max_eq_right (le_of_lt h2)]
    · rw [if_neg h2, max_eq_left (not_lt.mp h2)]
  · rw [if_neg h1, min_eq_left (not_lt.mp h1)]
    by_cases h2 : c.pBlockSize < c.pChunkSize
    · rw [if_pos h2, max_eq_right (le_of_lt h2)]
    · rw [if_neg h2, max_eq_left (not_lt.mp h2)]

theorem SetFileSize_no_effect (c : XCpCtx) (size : Int)
    (h : size < 0 ∨ 0 ≤ c.pFileSize) : c.SetFileSize size = c := by
  unfold XCpCtx.SetFileSize
  rw [if_neg]
  rintro ⟨h1, h2⟩
  omega

/-- One permitted call keeps the allocator state well-formed and does not move
the cursor back. -/
theorem allocStep_inv (c : XCpCtx) (call : AllocCall) (hinv : c.allocInv)
    (hok : c.allocCallsOk [call] = true) :
    (c.allocStep call).allocInv ∧ c.pOffset ≤ (c.allocStep call).pOffset := by
  obtain ⟨hP, hB, hC, hF, hu, hb⟩ := hinv
  cases call with
  | getBlock =>
    have hbound : 0 ≤ c.pFileSize := by
      simpa [XCpCtx.allocCallsOk] using hok
    have hO := hb hbound
    have hg := GetBlock_bound c hbound hF hO (by omega)
    simp only [XCpCtx.allocStep, hg]
    have hmin : min c.pBlockSize (c.pFileSize.toNat - c.pOffset)
        ≤ c.pFileSize.toNat - c.pOffset := min_le_right _ _
    refine ⟨⟨hP, hB, hC, hF, ?_, ?_⟩, ?_⟩
    · intro hneg
      exact absurd hbound (not_le.mpr hneg)
    · intro _
      show ((c.pOffset + min c.pBlockSize (c.pFileSize.toNat - c.pOffset) : Nat) : Int)
        ≤ c.pFileSize
      omega
    · show c.pOffset ≤ c.pOffset + min c.pBlockSize (c.pFileSize.toNat - c.pOffset)
      omega
  | setFileSize size =>
    have h63 : size < 2 ^ 63 := by
      simpa [XCpCtx.allocCallsOk] using hok
    simp only [XCpCtx.allocStep]
    by_cases hbind : c.pFileSize < 0 ∧ 0 ≤ size
    · rw [SetFileSize_unbound c size hbind.1 hbind.2 h63]
      have hq : size.toNat / c.pParallelSrc ≤ size.toNat := Nat.div_le_self _ _
      have hm : min c.pBlockSize (size.toNat / c.pParallelSrc) ≤ c.pBlockSize :=
        min_le_left _ _
      have h0 : c.pOffset = 0 := hu hbind.1
      refine ⟨⟨hP, ?_, hC, h63, ?_, ?_⟩, le_refl _⟩
      · show max (min c.pBlockSize (size.toNat / c.pParallelSrc)) c.pChunkSize < 2 ^ 63
        exact max_lt (by omega) hC
      · intro hneg
        exact absurd hbind.2 (not_le.mpr hneg)
      · intro _
        show (c.pOffset : Int) ≤ size
        rw [h0]; exact hbind.2
    · rw [SetFileSize_no_effect c size (by omega)]
      exact ⟨⟨hP, hB, hC, hF, hu, hb⟩, le_refl _⟩

theorem allocCallsOk_cons (c : XCpCtx) (call : AllocCall) (rest : List AllocCall)
    (h : c.allocCallsOk (call :: rest) = true) :
    c.allocCallsOk [call] = true ∧ (c.allocStep call).allocCallsOk rest = true := by
  cases call with
  | getBlock =>
    simp only [XCpCtx.allocCallsOk, Bool.and_eq_true, decide_eq_true_eq, Bool.and_true,
      XCpCtx.allocStep] at h ⊢
    exact h
  | setFileSize size =>
    simp only [XCpCtx.allocCallsOk, Bool.and_eq_true, decide_eq_true_eq, Bool.and_true,
      XCpCtx.allocStep] at h ⊢
    exact h

theorem allocRun_inv (calls : List AllocCall) :
    ∀ (c : XCpCtx) (n : Nat), c.allocInv → c.allocCallsOk calls = true →
      (c.allocRun (calls.take n)).allocInv ∧
      (c.allocRun (calls.take n)).pOffset ≤ (c.allocRun (calls.take (n + 1))).pOffset := by
  induction calls with
  | nil =>
    intro c n hinv _
    simp only [List.take_nil, XCpCtx.allocRun, List.foldl_nil]
    exact ⟨hinv, le_refl _⟩
  | cons call rest ih =>
    intro c n hinv hok
    obtain ⟨hok1, hok2⟩ := allocCallsOk_cons c call rest hok
    obtain ⟨hinv2, hmono⟩ := allocStep_inv c call hinv hok1
    cases n with
    | zero =>
      simp only [List.take_zero, List.take_succ_cons, XCpCtx.allocRun, List.foldl_nil,
        List.foldl_cons]
      exact ⟨hinv, hmono⟩
    | succ m =>
      simp only [List.take_succ_cons, XCpCtx.allocRun, List.foldl_cons]
      exact ih (c.allocStep call) m hinv2 hok2

/-! ## WeakestLink -/

theorem weakestIn_snoc (exclude : Nat) (l : List XCpSrc) (s src : XCpSrc)
    (h : s.weakestIn exclude l)
    (hsrc : src.eligible exclude → s.TransferRate ≤ src.TransferRate) :
    s.weakestIn exclude (l ++ [src]) := by
  obtain ⟨he, before, after, hl, hb, ha⟩ := h
  refine ⟨he, before, after ++ [src], by rw [hl]; simp, hb, ?_⟩
  intro t ht htel
  rcases List.mem_append.mp ht with h1 | h1
  · exact ha t h1 htel
  · have : t = src := by simpa using h1
    subst this
    exact hsrc htel

/-- The loop of `WeakestLink`: with the sources `visited` behind it, the local
`transferRate` a lower bound of the rates of the eligible sources visited and
`ret` the weakest link of the visited sources when it is set, the loop over
the remaining sources returns null only when `ret` is null and no remaining
eligible source has a rate below `transferRate`, and otherwise the weakest
link of all the sources. -/
theorem WeakestLink_loop_spec (exclude : Nat) (rest : List XCpSrc) :
    ∀ (visited : List XCpSrc) (transferRate : Nat) (ret : Option XCpSrc),
      (∀ t ∈ visited, t.eligible exclude → transferRate ≤ t.TransferRate) →
      (∀ s, ret = some s → s.TransferRate = transferRate ∧ s.weakestIn exclude visited) →
      (XCpCtx.WeakestLink_loop exclude rest transferRate ret = none →
        ret = none ∧ ∀ t ∈ rest, t.eligible exclude → transferRate ≤ t.TransferRate) ∧
      (∀ s, XCpCtx.WeakestLink_loop exclude rest transferRate ret = some s →
        s.weakestIn exclude (visited ++ rest)) := by
  induction rest with
  | nil =>
    intro visited transferRate ret _ hret
    simp only [XCpCtx.WeakestLink_loop, List.append_nil]
    refine ⟨fun h => ⟨h, fun t ht => absurd ht (List.not_mem_nil t)⟩, ?_⟩
    intro s hs
    exact (hret s hs).2
  | cons src rest ih =>
    intro visited transferRate ret hlow hret
    have happ : visited ++ src :: rest = (visited ++ [src]) ++ rest := by simp
    rw [XCpCtx.WeakestLink_loop, happ]
    by_cases hex : src.ptr = exclude
    · rw [if_pos hex]
      have hnot : ¬ src.eligible exclude := fun h => h.1 hex
      obtain ⟨i1, i2⟩ := ih (visited ++ [src]) transferRate ret
        (by
          intro t ht htel
          rcases List.mem_append.mp ht with h1 | h1
          · exact hlow t h1 htel
          · have : t = src := by simpa using h1
            subst this
            exact absurd htel hnot)
        (by
          intro s hs
          exact ⟨(hret s hs).1,
            weakestIn_snoc exclude visited s src (hret s hs).2 (fun h => absurd h hnot)⟩)
      refine ⟨fun h => ⟨(i1 h).1, ?_⟩, i2⟩
      intro t ht htel
      rcases List.mem_cons.mp ht with h1 | h1
      · subst h1; exact absurd htel hnot
      · exact (i1 h).2 t h1 htel
    · rw [if_neg hex]
      simp only []
      by_cases hsel : src.HasData = true ∧ src.TransferRate < transferRate
      · rw [if_pos hsel]
        have hel : src.eligible exclude := ⟨hex, hsel.1⟩
        obtain ⟨i1, i2⟩ := ih (visited ++ [src]) src.TransferRate (some src)
          (by
            intro t ht htel
            rcases List.mem_append.mp ht with h1 | h1
            · exact le_trans (le_of_lt hsel.2) (hlow t h1 htel)
            · have : t = src := by simpa using h1
              subst this
              exact le_refl _)
          (by
            intro s hs
            have : s = src := (Option.some.inj hs).symm
            subst this
            refine ⟨rfl, hel, visited, [], rfl, ?_, ?_⟩
            · intro t ht htel
              exact lt_of_lt_of_le hsel.2 (hlow t ht htel)
            · intro t ht
              exact absurd ht (List.not_mem_nil t))
        refine ⟨fun h => ?_, i2⟩
        exact absurd (i1 h).1 (by simp)
      · rw [if_neg hsel]
        have hge : src.eligible exclude → transferRate ≤ src.TransferRate := by
          intro hel
          by_contra hlt
          exact hsel ⟨hel.2, not_le.mp hlt⟩
        obtain ⟨i1, i2⟩ := ih (visited ++ [src]) transferRate ret
          (by
            intro t ht htel
            rcases List.mem_append.mp ht with h1 | h1
            · exact hlow t h1 htel
            · have : t = src := by simpa using h1
              subst this
              exact hge htel)
          (by
            intro s hs
            refine ⟨(hret s hs).1, weakestIn_snoc exclude visited s src (hret s hs).2 ?_⟩
            intro hel
            rw [(hret s hs).1]
            exact hge hel)
        refine ⟨fun h => ⟨(i1 h).1, ?_⟩, i2⟩
        intro t ht htel
        rcases List.mem_cons.mp ht with h1 | h1
        · subst h1; exact hge htel
        · exact (i1 h).2 t h1 htel

/-- The part of `WeakestLink( x )` is never `x`, and returns null iff no other
source has data that holds: when no source reports the largest `uint64_t`
value as its transfer rate. -/
theorem WeakestLink_none_iff (c : XCpCtx) (exclude : Nat)
    (hrate : ∀ t ∈ c.pSources, t.TransferRate < 2 ^ 64 - 1) :
    (∀ s, c.WeakestLink exclude = some s → s.ptr ≠ exclude) ∧
    (c.WeakestLink exclude = none ↔ ∀ t ∈ c.pSources, ¬ t.eligible exclude) := by
  obtain ⟨i1, i2⟩ := WeakestLink_loop_spec exclude c.pSources [] (toUInt64 (-1)) none
    (fun t ht => absurd ht (List.not_mem_nil t)) (fun s hs => absurd hs (by simp))
  have hmax : toUInt64 (-1) = 2 ^ 64 - 1 := by decide
  refine ⟨fun s hs => (i2 s hs).1.1, ?_, ?_⟩
  · intro hnone t ht htel
    have h1 := (i1 hnone).2 t ht htel
    have h2 := hrate t ht
    rw [hmax] at h1
    omega
  · intro hall
    cases hres : c.WeakestLink exclude with
    | none => rfl
    | some s =>
      obtain ⟨hel, before, after, hl, -, -⟩ := i2 s hres
      have hmem : s ∈ c.pSources := by
        have : s ∈ ([] : List XCpSrc) ++ c.pSources := by rw [hl]; simp
        simpa using this
      exact absurd hel (hall s hmem)

/-! ## GetChunk -/

theorem nbRunning_eq_zero (l : List XCpSrc) :
    (l.filter (fun src => src.IsRunning)).length = 0 ↔ ∀ src ∈ l, src.IsRunning = false := by
  rw [List.length_eq_zero, List.filter_eq_nil_iff]
  constructor
  · intro h src hs
    simpa using h src hs
  · intro h src hs
    simp [h src hs]

/-- The four outcomes of `GetChunk`, one for each path through the function. -/
theorem GetChunk_cases (c : XCpCtx) :
    (c.pDataReceived = toUInt64 c.pFileSize ∧
      c.GetChunk = (ChunkStatus.suDone, none, { c with pDone := true })) ∨
    (c.pDataReceived ≠ toUInt64 c.pFileSize ∧ (∀ src ∈ c.pSources, src.IsRunning = false) ∧
      c.GetChunk = (ChunkStatus.errNoMoreReplicas, none, { c with pDone := true })) ∨
    (c.pDataReceived ≠ toUInt64 c.pFileSize ∧ (∃ src ∈ c.pSources, src.IsRunning = true) ∧
      ∃ chunk rest, c.pSink = chunk :: rest ∧
        c.GetChunk = (ChunkStatus.suContinue, some chunk,
          { c with pSink := rest, pDataReceived := c.pDataReceived + chunk.length })) ∨
    (c.pDataReceived ≠ toUInt64 c.pFileSize ∧ (∃ src ∈ c.pSources, src.IsRunning = true) ∧
      c.pSink = [] ∧ c.GetChunk = (ChunkStatus.suRetry, none, c)) := by
  by_cases hd : c.pDataReceived = toUInt64 c.pFileSize
  · left
    refine ⟨hd, ?_⟩
    unfold XCpCtx.GetChunk
    rw [if_pos hd]
  · right
    by_cases hr : (c.pSources.filter (fun src => src.IsRunning)).length = 0
    · left
      refine ⟨hd, (nbRunning_eq_zero _).mp hr, ?_⟩
      unfold XCpCtx.GetChunk
      rw [if_neg hd]
      simp only []
      rw [if_pos hr]
    · right
      have hex : ∃ src ∈ c.pSources, src.IsRunning = true := by
        by_contra hno
        apply hr
        rw [nbRunning_eq_zero]
        intro src hs
        cases hv : src.IsRunning with
        | false => rfl
        | true => exact absurd ⟨src, hs, hv⟩ hno
      cases hs : c.pSink with
      | nil =>
        right
        refine ⟨hd, hex, rfl, ?_⟩
        unfold XCpCtx.GetChunk
        rw [if_neg hd]
        simp only []
        rw [if_neg hr, hs]
      | cons chunk rest =>
        left
        refine ⟨hd, hex, chunk, rest, rfl, ?_⟩
        unfold XCpCtx.GetChunk
        rw [if_neg hd]
        simp only []
        rw [if_neg hr, hs]

theorem GetChunk_suDone_iff (c : XCpCtx) :
    c.GetChunk.1 = ChunkStatus.suDone ↔ c.pDataReceived = toUInt64 c.pFileSize := by
  rcases GetChunk_cases c with ⟨hd, he⟩ | ⟨hd, _, he⟩ | ⟨hd, _, _, _, _, he⟩ | ⟨hd, _, _, he⟩ <;>
    rw [he] <;> simp [hd]

theorem chunksReturned_append (a b : List (ChunkStatus × Option ChunkInfo)) :
    chunksReturned (a ++ b) = chunksReturned a ++ chunksReturned b := by
  simp [chunksReturned, List.filterMap_append]

theorem totalLength_append (a b : List ChunkInfo) :
    totalLength (a ++ b) = totalLength a + totalLength b := by
  simp [totalLength, List.map_append, List.sum_append]

theorem chunksPut_cons (e : CopyEvent) (rest : List CopyEvent) :
    chunksPut (e :: rest) = chunksPut [e] ++ chunksPut rest := by
  cases e <;> simp [chunksPut]

/-- One event of a copy keeps the file size, keeps the data-received counter
equal to the total length handed out, and keeps the sink a FIFO: what was
handed out followed by what is in the sink is what was there followed by what
was put. -/
theorem copyStep_inv (s : XCpCtx × List (ChunkStatus × Option ChunkInfo)) (e : CopyEvent) :
    (XCpCtx.copyStep s e).1.pFileSize = s.1.pFileSize ∧
    ((XCpCtx.copyStep s e).1.pDataReceived + totalLength (chunksReturned s.2)
      = s.1.pDataReceived + totalLength (chunksReturned (XCpCtx.copyStep s e).2)) ∧
    chunksReturned (XCpCtx.copyStep s e).2 ++ (XCpCtx.copyStep s e).1.pSink
      = chunksReturned s.2 ++ s.1.pSink ++ chunksPut [e] := by
  cases e with
  | putChunk chunk =>
    simp [XCpCtx.copyStep, XCpCtx.PutChunk, chunksPut]
  | sources srcs =>
    simp [XCpCtx.copyStep, chunksPut]
  | getChunk =>
    simp only [XCpCtx.copyStep, chunksPut, List.append_nil, chunksReturned_append,
      totalLength_append]
    rcases GetChunk_cases s.1 with ⟨_, he⟩ | ⟨_, _, he⟩ | ⟨_, _, chunk, rest, hs, he⟩ |
        ⟨_, _, _, he⟩
    · rw [he]; simp [chunksReturned, totalLength]
    · rw [he]; simp [chunksReturned, totalLength]
    · rw [he]
      simp only [chunksReturned, totalLength, List.filterMap_cons, List.filterMap_nil, if_true,
        List.map_cons, List.map_nil, List.sum_cons, List.sum_nil, hs]
      constructor
      · trivial
      · constructor
        · omega
        · simp
    · rw [he]; simp [chunksReturned, totalLength]

theorem copyRun_inv (events : List CopyEvent) :
    ∀ s : XCpCtx × List (ChunkStatus × Option ChunkInfo),
      (events.foldl XCpCtx.copyStep s).1.pFileSize = s.1.pFileSize ∧
      ((events.foldl XCpCtx.copyStep s).1.pDataReceived + totalLength (chunksReturned s.2)
        = s.1.pDataReceived
          + totalLength (chunksReturned (events.foldl XCpCtx.copyStep s).2)) ∧
      chunksReturned (events.foldl XCpCtx.copyStep s).2
          ++ (events.foldl XCpCtx.copyStep s).1.pSink
        = chunksReturned s.2 ++ s.1.pSink ++ chunksPut events := by
  induction events with
  | nil => intro s; simp [chunksPut]
  | cons e rest ih =>
    intro s
    obtain ⟨a1, a2, a3⟩ := copyStep_inv s e
    obtain ⟨b1, b2, b3⟩ := ih (XCpCtx.copyStep s e)
    rw [List.foldl_cons]
    refine ⟨b1.trans a1, by omega, ?_⟩
    rw [b3, a3, chunksPut_cons e rest]
    simp

/-! ## The claims on the coordinator -/

/-- Claim C11 as stated fails.  With file size 10, cursor 10 and block size
`2 ^ 64 - 1` (a coordinator constructed with that chunk size, after its first
`GetBlock`), the 64-bit sum `pOffset + blkSize` wraps to 9, which is not above
the file size: `GetBlock` returns the block `(10, 2 ^ 64 - 1)` instead of
`(10, 0)` and moves the cursor to 9. -/
theorem C11_counterexample :
    hugeChunkCtx.pFileSize = 10 ∧ hugeChunkCtx.pOffset = 10 ∧
    hugeChunkCtx.pBlockSize = 2 ^ 64 - 1 ∧
    hugeChunkCtx.GetBlock.1 = (10, 2 ^ 64 - 1) ∧
    hugeChunkCtx.GetBlock.2.pOffset = 9 := by
  decide

/-- Claim C11, amended.  For a coordinator with bound file size `F ≥ 0`, block
size `B` and cursor `O` with `O ≤ F` and `O + B < 2 ^ 64` (the 64-bit sum does
not wrap), `GetBlock` returns `(O, min(B, F - O))` and advances the cursor to
`O + min(B, F - O)`; and once `O = F`, every later call returns a zero-length
block at offset `F` and leaves the coordinator as it is. -/
theorem C11_GetBlock_hands_out_min (c : XCpCtx) (hF : 0 ≤ c.pFileSize)
    (hF63 : c.pFileSize < 2 ^ 63) (hO : (c.pOffset : Int) ≤ c.pFileSize)
    (hB : c.pOffset + c.pBlockSize < 2 ^ 64) :
    c.GetBlock.1 = (c.pOffset, min c.pBlockSize (c.pFileSize.toNat - c.pOffset)) ∧
    c.GetBlock.2
      = { c with pOffset := c.pOffset + min c.pBlockSize (c.pFileSize.toNat - c.pOffset) } ∧
    ((c.pOffset : Int) = c.pFileSize → ∀ n : Nat,
      c.afterGetBlocks n = c ∧ (c.afterGetBlocks n).GetBlock.1 = (c.pFileSize.toNat, 0)) := by
  have h := GetBlock_bound c hF hF63 hO hB
  refine ⟨by rw [h], by rw [h], ?_⟩
  intro hend n
  have hz : c.pFileSize.toNat - c.pOffset = 0 := by omega
  have hself : c.GetBlock = ((c.pFileSize.toNat, 0), c) := by
    rw [h, hz, Nat.min_zero, Nat.add_zero]
    have : c.pOffset = c.pFileSize.toNat := by omega
    rw [← this]
  have hall : c.afterGetBlocks n = c := by
    induction n with
    | zero => rfl
    | succ n ih => rw [XCpCtx.afterGetBlocks, ih, hself]
  rw [hall, hself]
  exact ⟨rfl, rfl⟩

/-- Claim C11, amended, at a concrete coordinator: file size 25, block size 10,
cursor 20. -/
theorem C11_GetBlock_hands_out_min_witness :
    ((XCpCtx.new [] 10 1 1 1 25).afterGetBlocks 2).pOffset = 20 ∧
    ((XCpCtx.new [] 10 1 1 1 25).afterGetBlocks 2).GetBlock.1 = (20, min 10 (25 - 20)) :=
  ⟨by decide,
    (C11_GetBlock_hands_out_min ((XCpCtx.new [] 10 1 1 1 25).afterGetBlocks 2)
      (by decide) (by decide) (by decide) (by decide)).1⟩

/-- Claim C12 as stated fails.  On a fresh coordinator without file size,
`GetBlock` moves the cursor to 100; `SetFileSize( 50 )` then binds the file
size below the cursor; the next `GetBlock` moves the cursor back to 50.  And
with the file size 10 bound by the constructor and the chunk size
`2 ^ 64 - 1`, the second `GetBlock` moves the cursor from 10 back to 9. -/
theorem C12_counterexample :
    unboundCtx.pOffset = 0 ∧
    (unboundCtx.allocRun [AllocCall.getBlock]).pOffset = 100 ∧
    (unboundCtx.allocRun [AllocCall.getBlock, AllocCall.setFileSize 50]).pFileSize = 50 ∧
    (unboundCtx.allocRun [AllocCall.getBlock, AllocCall.setFileSize 50]).pOffset = 100 ∧
    (unboundCtx.allocRun
      [AllocCall.getBlock, AllocCall.setFileSize 50, AllocCall.getBlock]).pOffset = 50 ∧
    (hugeChunkCtx.pFileSize = 10 ∧ hugeChunkCtx.pOffset = 10 ∧
      (hugeChunkCtx.allocRun [AllocCall.getBlock]).pOffset = 9) := by
  decide

/-- Claim C12, amended.  On a freshly constructed coordinator with at least one
parallel source and block size, chunk size and file sizes below `2 ^ 63`, for
every sequence of `GetBlock` and `SetFileSize` calls in which `GetBlock` is
only called once the file size is bound, the cursor never decreases from one
call to the next and never exceeds the file size once it is bound. -/
theorem C12_cursor_monotone (urls : List Nat)
    (blockSize parallelSrc chunkSize parallelChunks : Nat) (fileSize : Int)
    (calls : List AllocCall)
    (hP : 0 < parallelSrc) (hB : blockSize < 2 ^ 63) (hC : chunkSize < 2 ^ 63)
    (hF : fileSize < 2 ^ 63)
    (hok : (XCpCtx.new urls blockSize parallelSrc chunkSize parallelChunks
      fileSize).allocCallsOk calls = true) (n : Nat) :
    ((XCpCtx.new urls blockSize parallelSrc chunkSize parallelChunks fileSize).allocRun
        (calls.take n)).pOffset
      ≤ ((XCpCtx.new urls blockSize parallelSrc chunkSize parallelChunks fileSize).allocRun
        (calls.take (n + 1))).pOffset ∧
    (0 ≤ ((XCpCtx.new urls blockSize parallelSrc chunkSize parallelChunks fileSize).allocRun
        (calls.take n)).pFileSize →
      (((XCpCtx.new urls blockSize parallelSrc chunkSize parallelChunks fileSize).allocRun
        (calls.take n)).pOffset : Int)
      ≤ ((XCpCtx.new urls blockSize parallelSrc chunkSize parallelChunks fileSize).allocRun
        (calls.take n)).pFileSize) := by
  have hnew : (XCpCtx.new urls blockSize parallelSrc chunkSize parallelChunks
      fileSize).allocInv := by
    have h := allocStep_inv
      { pUrls := urls, pBlockSize := blockSize, pParallelSrc := parallelSrc,
        pChunkSize := chunkSize, pParallelChunks := parallelChunks, pOffset := 0,
        pFileSize := -1, pDataReceived := 0, pDone := false, pSink := [], pSources := [],
        pRefCount := 1 }
      (AllocCall.setFileSize fileSize)
      ⟨hP, hB, hC, by norm_num, fun _ => rfl, fun h => absurd h (by norm_num)⟩
      (by simp only [XCpCtx.allocCallsOk, Bool.and_true, decide_eq_true_eq]; exact hF)
    exact h.1
  obtain ⟨hinv, hmono⟩ := allocRun_inv calls _ n hnew hok
  exact ⟨hmono, hinv.2.2.2.2.2⟩

/-- Claim C12, amended, at a concrete run: the file size is bound first, then
three blocks are asked for. -/
theorem C12_cursor_monotone_witness :
    (unboundCtx.allocRun
        ([AllocCall.setFileSize 50, AllocCall.getBlock, AllocCall.setFileSize 70,
          AllocCall.getBlock, AllocCall.getBlock].take 3)).pOffset
      ≤ (unboundCtx.allocRun
        ([AllocCall.setFileSize 50, AllocCall.getBlock, AllocCall.setFileSize 70,
          AllocCall.getBlock, AllocCall.getBlock].take (3 + 1))).pOffset :=
  (C12_cursor_monotone [] 100 1 1 1 (-1)
    [AllocCall.setFileSize 50, AllocCall.getBlock, AllocCall.setFileSize 70,
      AllocCall.getBlock, AllocCall.getBlock]
    (by decide) (by decide) (by decide) (by decide) (by decide) 3).1

/-- Claim C13 as stated fails.  On a coordinator without file size, a call
`SetFileSize( 0 )`, whose size is not positive, binds the file size to 0 and
changes the block size from 100 to the chunk size 1; a later call with the
positive size 50 then changes nothing. -/
theorem C13_counterexample :
    unboundCtx.pFileSize = -1 ∧ unboundCtx.pBlockSize = 100 ∧
    (unboundCtx.SetFileSize 0).pFileSize = 0 ∧
    (unboundCtx.SetFileSize 0).pBlockSize = 1 ∧
    ((unboundCtx.SetFileSize 0).SetFileSize 50).pFileSize = 0 := by
  decide

/-- Claim C13, amended.  With `P_src > 0`, a call `SetFileSize( F )` with
`F ≥ 0` on a coordinator whose file size is not bound binds the file size to
`F` and sets the block size to `max(min(B, F / P_src), C)`, leaving the other
members alone; a call whose size is negative, and every call made once the
file size is bound, leaves the coordinator as it is; after a binding call the
file size is bound. -/
theorem C13_SetFileSize_one_shot (c : XCpCtx) (size : Int)
    (hP : 0 < c.pParallelSrc) (h63 : size < 2 ^ 63) :
    (c.pFileSize < 0 → 0 ≤ size →
      c.SetFileSize size
        = { c with pFileSize := size,
                   pBlockSize := max (min c.pBlockSize (size.toNat / c.pParallelSrc))
                     c.pChunkSize } ∧
      ∀ size2 : Int, (c.SetFileSize size).SetFileSize size2 = c.SetFileSize size) ∧
    (size < 0 ∨ 0 ≤ c.pFileSize → c.SetFileSize size = c) := by
  have _ := hP
  refine ⟨?_, SetFileSize_no_effect c size⟩
  intro hu h0
  have h := SetFileSize_unbound c size hu h0 h63
  refine ⟨h, ?_⟩
  intro size2
  apply SetFileSize_no_effect
  right
  rw [h]
  exact h0

/-- Claim C13, amended, at a concrete call: 4 sources, block size 100, chunk
size 8, file size 200. -/
theorem C13_SetFileSize_one_shot_witness :
    ((XCpCtx.new [] 100 4 8 1 (-1)).SetFileSize 200).pFileSize = 200 ∧
    ((XCpCtx.new [] 100 4 8 1 (-1)).SetFileSize 200).pBlockSize = max (min 100 (200 / 4)) 8 := by
  have h := ((C13_SetFileSize_one_shot (XCpCtx.new [] 100 4 8 1 (-1)) 200
    (by decide) (by decide)).1 (by decide) (by decide)).1
  rw [h]
  exact ⟨rfl, rfl⟩

/-- Claim C14, at a failing input.  Source 1 holds data and reports the
transfer rate `2 ^ 64 - 1`; the idle source 2 asks for `WeakestLink( 2 )`.
The local `transferRate` starts at `2 ^ 64 - 1` and the test is
`tmp < transferRate`, so source 1 is passed over and null is returned although
a source other than 2 has data. -/
theorem C14_max_rate_source_is_passed_over :
    maxRateCtx.WeakestLink 2 = none ∧
    (∃ src ∈ maxRateCtx.pSources, src.ptr ≠ 2 ∧ src.HasData = true) := by
  decide

/-- Claim C15.  Whenever `WeakestLink( exclude )` returns a source `s`: `s` has
data, `s` is not `exclude`, `s` is one of the sources, its transfer rate is at
most that of every non-excluded source that has data, and every such source
that comes before `s` in the source list has a strictly higher rate, so `s` is
the first in iteration order among those with the lowest rate. -/
theorem C15_WeakestLink_first_lowest (c : XCpCtx) (exclude : Nat) (s : XCpSrc)
    (h : c.WeakestLink exclude = some s) :
    s.HasData = true ∧ s.ptr ≠ exclude ∧ s ∈ c.pSources ∧
    (∀ t ∈ c.pSources, t.ptr ≠ exclude → t.HasData = true →
      s.TransferRate ≤ t.TransferRate) ∧
    ∃ before after, c.pSources = before ++ s :: after ∧
      ∀ t ∈ before, t.ptr ≠ exclude → t.HasData = true →
        s.TransferRate < t.TransferRate := by
  obtain ⟨-, i2⟩ := WeakestLink_loop_spec exclude c.pSources [] (toUInt64 (-1)) none
    (fun t ht => absurd ht (List.not_mem_nil t)) (fun s hs => absurd hs (by simp))
  obtain ⟨hel, before, after, hl, hb, ha⟩ := i2 s h
  have hl2 : c.pSources = before ++ s :: after := by simpa using hl
  refine ⟨hel.2, hel.1, by rw [hl2]; simp, ?_, before, after, hl2,
    fun t ht h1 h2 => hb t ht ⟨h1, h2⟩⟩
  intro t ht h1 h2
  rw [hl2] at ht
  rcases List.mem_append.mp ht with hm | hm
  · exact le_of_lt (hb t hm ⟨h1, h2⟩)
  · rcases List.mem_cons.mp hm with hm2 | hm2
    · rw [hm2]
    · exact ha t hm2 ⟨h1, h2⟩

/-- Claim C15 at a concrete coordinator: of the sources 2 and 3, both with data
at rate 3, the earlier one is returned; source 5 with rate 0 is excluded. -/
theorem C15_WeakestLink_first_lowest_witness :
    fiveSourceCtx.WeakestLink 5
      = some { ptr := 2, transferRate := 3, hasData := true, running := true } ∧
    ∀ t ∈ fiveSourceCtx.pSources, t.ptr ≠ 5 → t.HasData = true →
      (3 : Nat) ≤ t.TransferRate :=
  ⟨by decide,
    (C15_WeakestLink_first_lowest fiveSourceCtx 5
      { ptr := 2, transferRate := 3, hasData := true, running := true } (by decide)).2.2.2.1⟩

/-- Claim C16.  For every run of a copy (sources putting chunks, sources
starting and stopping, the consumer calling `GetChunk`) from a coordinator
with bound file size `F ≥ 0` and `dataReceived = 0`: the data-received counter
equals the sum of the lengths of the chunks returned so far with `suContinue`;
the chunks returned so far, followed by the chunks still in the sink, are the
chunks that were in the sink at the start followed by the chunks put since, in
the order they were put; and if the next call of `GetChunk` returns `suDone`,
the lengths of the chunks returned before it sum to exactly `F`. -/
theorem C16_GetChunk_accounting (c : XCpCtx) (events : List CopyEvent)
    (hF : 0 ≤ c.pFileSize) (hF63 : c.pFileSize < 2 ^ 63) (h0 : c.pDataReceived = 0) :
    (c.copyRun events).1.pDataReceived = totalLength (chunksReturned (c.copyRun events).2) ∧
    chunksReturned (c.copyRun events).2 ++ (c.copyRun events).1.pSink
      = c.pSink ++ chunksPut events ∧
    ((c.copyRun events).1.GetChunk.1 = ChunkStatus.suDone →
      (totalLength (chunksReturned (c.copyRun events).2) : Int) = c.pFileSize) := by
  obtain ⟨a1, a2, a3⟩ := copyRun_inv events (c, [])
  have hrecv : (c.copyRun events).1.pDataReceived
      = totalLength (chunksReturned (c.copyRun events).2) := by
    unfold XCpCtx.copyRun
    simp only [chunksReturned, List.filterMap_nil, totalLength, List.map_nil, List.sum_nil,
      Nat.add_zero, h0, Nat.zero_add] at a2
    simpa [chunksReturned, totalLength] using a2
  refine ⟨hrecv, ?_, ?_⟩
  · unfold XCpCtx.copyRun
    simpa [chunksReturned] using a3
  · intro hdone
    have hsize : (c.copyRun events).1.pFileSize = c.pFileSize := a1
    have h := (GetChunk_suDone_iff (c.copyRun events).1).mp hdone
    rw [hsize, toUInt64_of_nonneg _ hF (by omega)] at h
    rw [← hrecv, h]
    exact Int.toNat_of_nonneg hF

/-- Claim C16 at a concrete copy: after the three chunks are handed out in the
order they were put, `GetChunk` returns `suDone` and the lengths sum to 30. -/
theorem C16_GetChunk_accounting_witness :
    (copyCtx.copyRun copyEvents).2.map (fun o => o.1)
      = [ChunkStatus.suRetry, ChunkStatus.suContinue, ChunkStatus.suContinue,
         ChunkStatus.suContinue] ∧
    (copyCtx.copyRun copyEvents).1.GetChunk.1 = ChunkStatus.suDone ∧
    (totalLength (chunksReturned (copyCtx.copyRun copyEvents).2) : Int) = copyCtx.pFileSize :=
  ⟨by decide, by decide,
    (C16_GetChunk_accounting copyCtx copyEvents (by decide) (by decide) (by decide)).2.2
      (by decide)⟩

/-- Claim C17.  `GetChunk` returns one of the four statuses, decided in this
order.  `suDone` iff `pDataReceived == uint64_t( pFileSize )` (for a bound
file size: iff the data received equals the file size), whatever the sources
do, and then the done flag is set and nothing else changes.  Otherwise
`errNoMoreReplicas` iff no source is running, and then the done flag is set
and nothing else changes.  Otherwise `suContinue` iff the sink is not empty,
and then the front chunk is copied out and removed and its length is added to
the data received.  Otherwise `suRetry`, and then the coordinator (data
received, sink, done flag) is unchanged. -/
theorem C17_GetChunk_status_order (c : XCpCtx) :
    (c.GetChunk.1 = ChunkStatus.suDone ↔ c.pDataReceived = toUInt64 c.pFileSize) ∧
    (0 ≤ c.pFileSize → c.pFileSize < 2 ^ 63 →
      (c.GetChunk.1 = ChunkStatus.suDone ↔ (c.pDataReceived : Int) = c.pFileSize)) ∧
    (c.GetChunk.1 = ChunkStatus.suDone →
      c.GetChunk.2.1 = none ∧ c.GetChunk.2.2 = { c with pDone := true }) ∧
    (c.GetChunk.1 = ChunkStatus.errNoMoreReplicas ↔
      c.pDataReceived ≠ toUInt64 c.pFileSize ∧ ∀ src ∈ c.pSources, src.IsRunning = false) ∧
    (c.GetChunk.1 = ChunkStatus.errNoMoreReplicas →
      c.GetChunk.2.1 = none ∧ c.GetChunk.2.2 = { c with pDone := true }) ∧
    (c.GetChunk.1 = ChunkStatus.suContinue ↔
      c.pDataReceived ≠ toUInt64 c.pFileSize ∧
      (∃ src ∈ c.pSources, src.IsRunning = true) ∧ c.pSink ≠ []) ∧
    (c.GetChunk.1 = ChunkStatus.suContinue →
      ∃ chunk rest, c.pSink = chunk :: rest ∧ c.GetChunk.2.1 = some chunk ∧
        c.GetChunk.2.2
          = { c with pSink := rest, pDataReceived := c.pDataReceived + chunk.length }) ∧
    (c.GetChunk.1 = ChunkStatus.suRetry ↔
      c.pDataReceived ≠ toUInt64 c.pFileSize ∧
      (∃ src ∈ c.pSources, src.IsRunning = true) ∧ c.pSink = []) ∧
    (c.GetChunk.1 = ChunkStatus.suRetry → c.GetChunk.2.1 = none ∧ c.GetChunk.2.2 = c) := by
  have hrun : (∃ src ∈ c.pSources, src.IsRunning = true) →
      ¬ ∀ src ∈ c.pSources, src.IsRunning = false := by
    rintro ⟨src, hs, hv⟩ hall
    rw [hall src hs] at hv
    exact absurd hv (by simp)
  have hbound : 0 ≤ c.pFileSize → c.pFileSize < 2 ^ 63 →
      (c.pDataReceived = toUInt64 c.pFileSize ↔ (c.pDataReceived : Int) = c.pFileSize) := by
    intro h0 h1
    rw [toUInt64_of_nonneg _ h0 (by omega)]
    omega
  rcases GetChunk_cases c with ⟨hd, he⟩ | ⟨hd, hr, he⟩ | ⟨hd, hr, chunk, rest, hs, he⟩ |
      ⟨hd, hr, hs, he⟩
  · have hdone : c.GetChunk.1 = ChunkStatus.suDone ↔ c.pDataReceived = toUInt64 c.pFileSize := by
      rw [he]; simp [hd]
    refine ⟨hdone, fun h0 h1 => hdone.trans (hbound h0 h1), ?_, ?_, ?_, ?_, ?_, ?_, ?_⟩ <;>
      rw [he] <;> simp [hd]
  · have hdone : c.GetChunk.1 = ChunkStatus.suDone ↔ c.pDataReceived = toUInt64 c.pFileSize := by
      rw [he]; simp [hd]
    refine ⟨hdone, fun h0 h1 => hdone.trans (hbound h0 h1), ?_, ?_, ?_, ?_, ?_, ?_, ?_⟩
    · rw [he]; simp
    · rw [he]; exact ⟨fun _ => ⟨hd, hr⟩, fun _ => rfl⟩
    · rw [he]; exact fun _ => ⟨rfl, rfl⟩
    · rw [he]
      exact ⟨fun h => absurd h (by simp), fun h => absurd hr (hrun h.2.1)⟩
    · rw [he]; simp
    · rw [he]
      exact ⟨fun h => absurd h (by simp), fun h => absurd hr (hrun h.2.1)⟩
    · rw [he]; simp
  · have hdone : c.GetChunk.1 = ChunkStatus.suDone ↔ c.pDataReceived = toUInt64 c.pFileSize := by
      rw [he]; simp [hd]
    refine ⟨hdone, fun h0 h1 => hdone.trans (hbound h0 h1), ?_, ?_, ?_, ?_, ?_, ?_, ?_⟩
    · rw [he]; simp
    · rw [he]
      exact ⟨fun h => absurd h (by simp), fun h => absurd h.2 (hrun hr)⟩
    · rw [he]; simp
    · rw [he]
      exact ⟨fun _ => ⟨hd, hr, by rw [hs]; simp⟩, fun _ => rfl⟩
    · rw [he]; exact fun _ => ⟨chunk, rest, hs, rfl, rfl⟩
    · rw [he]
      exact ⟨fun h => absurd h (by simp), fun h => by rw [hs] at h; exact absurd h.2.2 (by simp)⟩
    · rw [he]; simp
  · have hdone : c.GetChunk.1 = ChunkStatus.suDone ↔ c.pDataReceived = toUInt64 c.pFileSize := by
      rw [he]; simp [hd]
    refine ⟨hdone, fun h0 h1 => hdone.trans (hbound h0 h1), ?_, ?_, ?_, ?_, ?_, ?_, ?_⟩
    · rw [he]; simp
    · rw [he]
      exact ⟨fun h => absurd h (by simp), fun h => absurd h.2 (hrun hr)⟩
    · rw [he]; simp
    · rw [he]
      exact ⟨fun h => absurd h (by simp), fun h => absurd hs h.2.2⟩
    · rw [he]; simp
    · rw [he]
      exact ⟨fun _ => ⟨hd, hr, hs⟩, fun _ => rfl⟩
    · rw [he]; exact fun _ => ⟨rfl, rfl⟩

/-- Claim C17 at a concrete coordinator: with data still missing, a running
source and an empty sink, the status is `suRetry` and nothing changes. -/
theorem C17_GetChunk_status_order_witness :
    copyCtx.GetChunk.1 = ChunkStatus.suRetry ∧ copyCtx.GetChunk.2.2 = copyCtx :=
  ⟨by decide, ((C17_GetChunk_status_order copyCtx).2.2.2.2.2.2.2.2 (by decide)).2⟩

end XrdCl
